import Mathlib

/-!
A verification development for the RISC-V assembler/simulator.

Shallow embedding of `simulator.cpp` (immediate extraction, memory
initialisation, the five-step `simulate` loop) and of the data model of
`cpu.h` / `symbol_table.h`, followed by theorems about them.

Conventions of the embedding:

* `uint32_t` values are `Nat`s, reduced `% 2^32` wherever the C++ operation
  can leave the 32-bit range;
* `int32_t` values are `Int`s; `toI32` reinterprets a 32-bit pattern as a
  signed value and `toU32` is the conversion `int32_t → uint32_t`;
  signed `+ - *` and `<<` wrap in two's complement;
* `std::map<uint32_t, uint32_t>` is a function `Nat → Option Nat`
  (`none` = key absent); `operator[]` on an absent key inserts the value 0.
-/

namespace RiscV

/-! ## Machine integers -/

/-- Reinterpretation of a 32-bit pattern as an `int32_t` (two's complement). -/
def toI32 (n : Nat) : Int :=
  if n % 4294967296 < 2147483648 then ((n % 4294967296 : Nat) : Int)
  else ((n % 4294967296 : Nat) : Int) - 4294967296

/-- Conversion `int32_t → uint32_t`: the value modulo `2^32`. -/
def toU32 (x : Int) : Nat := (x % 4294967296).toNat

/-- Result of a signed 32-bit operation whose mathematical value is `x`
(two's complement wrap-around). -/
def wrapI32 (x : Int) : Int := toI32 (toU32 x)

/-- The `uint32_t` left shift `v << s`. -/
def shl32 (v s : Nat) : Nat := (v <<< s) % 4294967296

/-- The `uint32_t` complement `~v`. -/
def not32 (v : Nat) : Nat := 4294967295 - v % 4294967296

/-! ## Constants of `simulator.cpp` -/

def STACK_SIZE : Nat := 1 <<< 20
def STACK_BASE : Nat := 0x80000000
def STACK_END : Nat := STACK_BASE - STACK_SIZE

/-! ## Immediate extraction -/

/-- The function `int32_t signExtend(uint32_t value, int bits)`:
`(int32_t)(value << shift) >> shift` with `shift = 32 - bits`. -/
def signExtend (value : Nat) (bits : Nat) : Int :=
  let shift := 32 - bits
  (toI32 (shl32 value shift)) >>> shift

def getITypeImm (IR : Nat) : Int :=
  let imm := (IR >>> 20) &&& 0xFFF
  signExtend imm 12

def getSTypeImm (IR : Nat) : Int :=
  let imm := (shl32 (IR >>> 25) 5) ||| ((IR >>> 7) &&& 0x1F)
  signExtend imm 12

def getBTypeImm (IR : Nat) : Int :=
  let imm := (shl32 (IR >>> 31) 12) ||| (shl32 ((IR >>> 7) &&& 0x1) 11) |||
             (shl32 ((IR >>> 25) &&& 0x3F) 5) ||| (shl32 ((IR >>> 8) &&& 0xF) 1)
  signExtend imm 13

def getUTypeImm (IR : Nat) : Int :=
  toI32 (IR &&& 0xFFFFF000)

def getJTypeImm (IR : Nat) : Int :=
  let imm := (shl32 (IR >>> 31) 20) ||| (shl32 ((IR >>> 12) &&& 0xFF) 12) |||
             (shl32 ((IR >>> 20) &&& 0x1) 11) ||| (shl32 ((IR >>> 21) &&& 0x3FF) 1)
  signExtend imm 21

/-! ## Data model (`cpu.h`, `symbol_table.h`) -/

/-- The type `std::map<uint32_t, uint32_t>`: `none` means the key is absent. -/
abbrev Memory := Nat → Option Nat

/-- The word stored under a key, `0` when the key is absent. -/
def memGet (m : Memory) (k : Nat) : Nat := (m k).getD 0

/-- The map after `m[k]` was evaluated as an rvalue: an absent key is
inserted with value `0`. -/
def memTouch (m : Memory) (k : Nat) : Memory :=
  fun a => if a = k then some (memGet m k) else m a

/-- The map after `m[k] = v`. -/
def memSet (m : Memory) (k v : Nat) : Memory :=
  fun a => if a = k then some v else m a

/-- The `struct CPU` of `cpu.h`. -/
structure CPU where
  PC : Nat
  IR : Nat
  clock : Nat
  regFile : Nat → Int
  RM : Nat
  RY : Nat
  RZ : Nat
  memory : Memory

/-- The `struct DataEntry`: `value` is a C++ `int`, `size` a `uint32_t`. -/
structure DataEntry where
  value : Int
  size : Nat

/-- The `struct DataSegment`. -/
structure DataSegment where
  startAddress : Nat
  contents : List DataEntry

/-- The class `SymbolTable`: the data segments, which the simulator reads, and
the label map `table` (`std::map<std::string, uint32_t>`, `none` = no such
label). The members `dataSection`, `globalSymbols` and `constants` are used by
neither the parser nor the simulator. -/
structure SymbolTable where
  dataSegments : List DataSegment
  table : List Char → Option Nat := fun _ => none

/-- The code map `address → instruction word` (the listing after
`std::stoul(.., 16)` of its second column). -/
abbrev Code := Nat → Option Nat

/-- The register file after `regFile[rd] = v`. -/
def setReg (r : Nat → Int) (rd : Nat) (v : Int) : Nat → Int :=
  fun i => if i = rd then v else r i

/-! ## Decode -/

def opcodeOf (IR : Nat) : Nat := IR &&& 0x7F
def rdOf (IR : Nat) : Nat := (IR >>> 7) &&& 0x1F
def funct3Of (IR : Nat) : Nat := (IR >>> 12) &&& 0x7
def rs1Of (IR : Nat) : Nat := (IR >>> 15) &&& 0x1F
def rs2Of (IR : Nat) : Nat := (IR >>> 20) &&& 0x1F
def funct7Of (IR : Nat) : Nat := (IR >>> 25) &&& 0x7F

/-- The immediate selected in the decode step (`0` when the opcode uses none). -/
def decodeImm (IR : Nat) : Int :=
  let opcode := opcodeOf IR
  if opcode = 0x13 ∨ opcode = 0x03 ∨ opcode = 0x67 then getITypeImm IR
  else if opcode = 0x23 then getSTypeImm IR
  else if opcode = 0x63 then getBTypeImm IR
  else if opcode = 0x37 ∨ opcode = 0x17 then getUTypeImm IR
  else if opcode = 0x6F then getJTypeImm IR
  else 0

/-! ## Execute -/

/-- The locals of one cycle at the end of the execute step. -/
structure Exec where
  aluResult : Int
  branchTaken : Bool
  newPC : Nat
  writeback : Bool

/-- How the `switch (opcode)` of the execute step is left. -/
inductive ExecResult where
  /-- Left by `break`: the cycle goes on with the memory step. -/
  | next (e : Exec)
  /-- Left in `case 0x7F`: `return` after the memory dump. -/
  | halt
  /-- Left in `default`: `return` after the error message. -/
  | fatal
  /-- Either `INT_MIN / -1` or `INT_MIN % -1` was evaluated: the quotient is not
  representable and the C++ expression has no defined value. -/
  | undefined

/-- The quotient `a / b` on `int32_t`, `b ≠ 0`: truncating division, undefined for the
overflow pair. -/
def sdiv32 (a b : Int) : Option Int :=
  if a = -2147483648 ∧ b = -1 then none else some (Int.tdiv a b)

/-- The remainder `a % b` on `int32_t`, `b ≠ 0`: remainder of the truncating division,
undefined for the overflow pair. -/
def srem32 (a b : Int) : Option Int :=
  if a = -2147483648 ∧ b = -1 then none else some (Int.tmod a b)

/-- In `case 0x33`: the value left in `aluResult` (`none`: undefined division). -/
def execR (funct7 funct3 : Nat) (a b : Int) : Option Int :=
  if funct7 = 0x00 then
    if funct3 = 0x0 then some (wrapI32 (a + b))
    else if funct3 = 0x1 then some (toI32 (shl32 (toU32 a) (toU32 b &&& 0x1F)))
    else if funct3 = 0x2 then some (if a < b then 1 else 0)
    else if funct3 = 0x3 then some (if toU32 a < toU32 b then 1 else 0)
    else if funct3 = 0x4 then some (toI32 (toU32 a ^^^ toU32 b))
    else if funct3 = 0x5 then
      if funct7 = 0x00 then some (toI32 (toU32 a >>> (toU32 b &&& 0x1F)))
      else if funct7 = 0x20 then some (a >>> (toU32 b &&& 0x1F))
      else some 0
    else if funct3 = 0x6 then some (toI32 (toU32 a ||| toU32 b))
    else if funct3 = 0x7 then some (toI32 (toU32 a &&& toU32 b))
    else some 0
  else if funct7 = 0x20 ∧ funct3 = 0x0 then some (wrapI32 (a - b))
  else if funct7 = 0x01 then
    if funct3 = 0x0 then some (wrapI32 (a * b))
    else if funct3 = 0x4 then
      if b = 0 then some (-1) else sdiv32 a b
    else if funct3 = 0x6 then
      if b = 0 then some a else srem32 a b
    else some 0
  else some 0

/-- In `case 0x13`: the value left in `aluResult`. -/
def execI (IR funct7 funct3 : Nat) (a imm : Int) : Int :=
  if funct3 = 0x0 then wrapI32 (a + imm)
  else if funct3 = 0x2 then (if a < imm then 1 else 0)
  else if funct3 = 0x3 then (if toU32 a < toU32 imm then 1 else 0)
  else if funct3 = 0x4 then toI32 (toU32 a ^^^ toU32 imm)
  else if funct3 = 0x6 then toI32 (toU32 a ||| toU32 imm)
  else if funct3 = 0x7 then toI32 (toU32 a &&& toU32 imm)
  else if funct3 = 0x1 then
    let shamt := IR >>> 20
    toI32 (shl32 (toU32 a) (shamt &&& 0x1F))
  else if funct3 = 0x5 then
    let shamt := IR >>> 20
    if funct7 = 0x00 then toI32 (toU32 a >>> (shamt &&& 0x1F))
    else if funct7 = 0x20 then a >>> (shamt &&& 0x1F)
    else 0
  else 0

/-- In `case 0x63`: the value of `branchTaken`. -/
def execBranch (funct3 : Nat) (a b : Int) : Bool :=
  if funct3 = 0x0 then decide (a = b)
  else if funct3 = 0x1 then decide (a ≠ b)
  else if funct3 = 0x4 then decide (a < b)
  else if funct3 = 0x5 then decide (a ≥ b)
  else if funct3 = 0x6 then decide (toU32 a < toU32 b)
  else if funct3 = 0x7 then decide (toU32 a ≥ toU32 b)
  else false

/-- Step 3 of the cycle, on the CPU whose `IR` holds the fetched word. -/
def execute (cpu : CPU) : ExecResult :=
  let opcode := opcodeOf cpu.IR
  let funct3 := funct3Of cpu.IR
  let rs1 := rs1Of cpu.IR
  let rs2 := rs2Of cpu.IR
  let funct7 := funct7Of cpu.IR
  let imm := decodeImm cpu.IR
  let pc4 := (cpu.PC + 4) % 4294967296
  if opcode = 0x33 then
    match execR funct7 funct3 (cpu.regFile rs1) (cpu.regFile rs2) with
    | none => .undefined
    | some v => .next ⟨v, false, pc4, true⟩
  else if opcode = 0x13 then
    .next ⟨execI cpu.IR funct7 funct3 (cpu.regFile rs1) imm, false, pc4, true⟩
  else if opcode = 0x03 then
    let addr := toU32 (cpu.regFile rs1 + imm)
    .next ⟨toI32 addr, false, pc4, true⟩
  else if opcode = 0x23 then
    let addr := toU32 (cpu.regFile rs1 + imm)
    .next ⟨toI32 addr, false, pc4, false⟩
  else if opcode = 0x63 then
    let branchTaken := execBranch funct3 (cpu.regFile rs1) (cpu.regFile rs2)
    .next ⟨0, branchTaken,
      if branchTaken then (cpu.PC + toU32 imm) % 4294967296 else pc4, false⟩
  else if opcode = 0x37 then
    .next ⟨imm, false, pc4, true⟩
  else if opcode = 0x17 then
    .next ⟨toI32 ((cpu.PC + toU32 imm) % 4294967296), false, pc4, true⟩
  else if opcode = 0x6F then
    .next ⟨toI32 pc4, false, (cpu.PC + toU32 imm) % 4294967296, true⟩
  else if opcode = 0x67 then
    .next ⟨toI32 pc4, false, toU32 (cpu.regFile rs1 + imm) &&& 0xFFFFFFFE, true⟩
  else if opcode = 0x7F then .halt
  else .fatal

/-! ## Memory access -/

/-- Step 4 for `opcode == 0x03`: the loaded value and the memory map
(reading through `operator[]` inserts an absent key). -/
def loadStage (IR : Nat) (aluResult : Int) (m : Memory) : Int × Memory :=
  if opcodeOf IR = 0x03 then
    let funct3 := funct3Of IR
    let addr := toU32 aluResult
    if funct3 = 0x0 then
      let word := memGet m (addr &&& 0xFFFFFFFC)
      let byte := (word >>> ((addr &&& 0x3) * 8)) &&& 0xFF
      (signExtend byte 8, memTouch m (addr &&& 0xFFFFFFFC))
    else if funct3 = 0x1 then
      let word := memGet m (addr &&& 0xFFFFFFFC)
      let half := (word >>> ((addr &&& 0x2) * 8)) &&& 0xFFFF
      (signExtend half 16, memTouch m (addr &&& 0xFFFFFFFC))
    else if funct3 = 0x2 then
      (toI32 (memGet m addr), memTouch m addr)
    else if funct3 = 0x4 then
      let word := memGet m (addr &&& 0xFFFFFFFC)
      let byte := (word >>> ((addr &&& 0x3) * 8)) &&& 0xFF
      (toI32 byte, memTouch m (addr &&& 0xFFFFFFFC))
    else if funct3 = 0x5 then
      let word := memGet m (addr &&& 0xFFFFFFFC)
      let half := (word >>> ((addr &&& 0x2) * 8)) &&& 0xFFFF
      (toI32 half, memTouch m (addr &&& 0xFFFFFFFC))
    else (aluResult, m)
  else (aluResult, m)

/-- Step 4 for `opcode == 0x23`: the memory map after the store. -/
def storeStage (IR : Nat) (aluResult : Int) (regFile : Nat → Int) (m : Memory) : Memory :=
  if opcodeOf IR = 0x23 then
    let funct3 := funct3Of IR
    let addr := toU32 aluResult
    let data := toU32 (regFile (rs2Of IR))
    if funct3 = 0x0 then
      let word := memGet m (addr &&& 0xFFFFFFFC)
      let shift := (addr &&& 0x3) * 8
      memSet m (addr &&& 0xFFFFFFFC)
        ((word &&& not32 (shl32 0xFF shift)) ||| shl32 (data &&& 0xFF) shift)
    else if funct3 = 0x1 then
      let word := memGet m (addr &&& 0xFFFFFFFC)
      let shift := (addr &&& 0x2) * 8
      memSet m (addr &&& 0xFFFFFFFC)
        ((word &&& not32 (shl32 0xFFFF shift)) ||| shl32 (data &&& 0xFFFF) shift)
    else if funct3 = 0x2 then
      memSet m addr data
    else m
  else m

/-! ## One cycle of the `while (true)` loop -/

/-- How one iteration of the loop of `simulate` ends. -/
inductive Outcome where
  /-- The cycle reached the commit (`PC = newPC; clock++`); the loop goes on. -/
  | commit (cpu : CPU)
  /-- No instruction at `PC`: `break`. -/
  | noInstruction (cpu : CPU)
  /-- Opcode `0x7F`: `return`. -/
  | halt (cpu : CPU)
  /-- Unsupported opcode: `return`. -/
  | fatal (cpu : CPU)
  /-- An expression without a defined value was evaluated. -/
  | undefined (cpu : CPU)

/-- Steps 5 and 6 (writeback and commit) on the CPU after the fetch. -/
def writebackCommit (cpu : CPU) (e : Exec) (aluResult : Int) (m : Memory) : CPU :=
  { cpu with
    regFile := if e.writeback ∧ rdOf cpu.IR ≠ 0 then setReg cpu.regFile (rdOf cpu.IR) aluResult
               else cpu.regFile
    memory := m
    PC := e.newPC
    clock := (cpu.clock + 1) % 4294967296 }

/-- One iteration of the loop body of `simulate`: fetch, decode, execute,
memory access, writeback, commit. -/
def cycle (code : Code) (cpu : CPU) : Outcome :=
  match code cpu.PC with
  | none => .noInstruction cpu
  | some w =>
    let cpu1 : CPU := { cpu with IR := w % 4294967296 }
    match execute cpu1 with
    | .halt => .halt cpu1
    | .fatal => .fatal cpu1
    | .undefined => .undefined cpu1
    | .next e =>
      let ld := loadStage cpu1.IR e.aluResult cpu1.memory
      let m := storeStage cpu1.IR ld.1 cpu1.regFile ld.2
      .commit (writebackCommit cpu1 e ld.1 m)

/-! ## Initialisation -/

/-- The body of the innermost loop of `initializeMemoryFromDataSegments`:
one byte is merged into the word that contains `byteAddr`. -/
def storeByte (m : Memory) (byteAddr byte : Nat) : Memory :=
  let wordAddr := byteAddr &&& 0xFFFFFFFC
  let offset := byteAddr &&& 0x3
  let word := if (m wordAddr).isSome then memGet m wordAddr else 0
  memSet m wordAddr
    ((word &&& not32 (shl32 0xFF (offset * 8))) ||| shl32 (byte &&& 0xFF) (offset * 8))

/-- The bytes `i, i+1, .., i+n-1` of one entry. Since `entry.value` is a
32-bit `int`, `entry.value >> (8 * i)` has no defined value once the
(`uint32_t`) shift count `8 * i` is 32 or more: the result is then `none`. -/
def initEntryFrom (value : Int) (addr : Nat) : Nat → Nat → Memory → Option Memory
  | 0, _, m => some m
  | n + 1, i, m =>
    let sh := (8 * i) % 4294967296
    if sh < 32 then
      let byte := toU32 (value >>> sh) &&& 0xFF
      initEntryFrom value addr n (i + 1) (storeByte m ((addr + i) % 4294967296) byte)
    else none

/-- The loop over the entries of one segment, `addr` being the running address. -/
def initEntries : List DataEntry → Nat → Memory → Option Memory
  | [], _, m => some m
  | entry :: rest, addr, m =>
    match initEntryFrom entry.value addr entry.size 0 m with
    | none => none
    | some m1 => initEntries rest ((addr + entry.size) % 4294967296) m1

/-- The loop over the data segments. -/
def initSegments : List DataSegment → Memory → Option Memory
  | [], m => some m
  | seg :: rest, m =>
    match initEntries seg.contents seg.startAddress m with
    | none => none
    | some m1 => initSegments rest m1

/-- The function `void initializeMemoryFromDataSegments(CPU&, SymbolTable&)`; `none` when
an undefined shift is evaluated. -/
def initializeMemoryFromDataSegments (cpu : CPU) (symbolTable : SymbolTable) : Option CPU :=
  match initSegments symbolTable.dataSegments cpu.memory with
  | none => none
  | some m => some { cpu with memory := m }

/-- The loop `for (addr = STACK_END; addr < STACK_BASE; addr += 4) memory[addr] = 0`,
entered with the given `addr`. -/
def zeroStack (addr : Nat) (m : Memory) : Memory :=
  if addr < STACK_BASE then zeroStack ((addr + 4) % 4294967296) (memSet m addr 0) else m
termination_by STACK_BASE - addr
decreasing_by simp only [STACK_BASE] at *; omega

/-- The part of `simulate` before the `while (true)` loop. -/
def initialise (cpu : CPU) (symbolTable : SymbolTable) : Option CPU :=
  match initializeMemoryFromDataSegments cpu symbolTable with
  | none => none
  | some cpu1 =>
    some { cpu1 with
      regFile := setReg cpu1.regFile 2 (toI32 STACK_BASE)
      memory := zeroStack STACK_END cpu1.memory }

/-! ## The simulation loop -/

/-- The `while (true)` loop, cut after `fuel` iterations (`none`: the loop is
still running). The result is never `Outcome.commit`. -/
def runLoop : Nat → Code → CPU → Option Outcome
  | 0, _, _ => none
  | fuel + 1, code, cpu =>
    match cycle code cpu with
    | .commit cpu1 => runLoop fuel code cpu1
    | o => some o

/-- The function `void simulate(instructions, cpu, symbolTable)`, its loop cut after
`fuel` iterations (`none`: still running); an undefined shift in the
initialisation gives `Outcome.undefined`. -/
def simulate (fuel : Nat) (instructions : Code) (cpu : CPU) (symbolTable : SymbolTable) :
    Option Outcome :=
  match initialise cpu symbolTable with
  | none => some (.undefined cpu)
  | some cpu1 => runLoop fuel instructions cpu1

/-- The CPU of `sim_main.cpp` before `simulate` is called. -/
def initialCPU : CPU :=
  { PC := 0, IR := 0, clock := 0, regFile := fun _ => 0, RM := 0, RY := 0, RZ := 0,
    memory := fun _ => none }

/-- The CPU state carried by an outcome. -/
def Outcome.cpu : Outcome → CPU
  | .commit c => c
  | .noInstruction c => c
  | .halt c => c
  | .fatal c => c
  | .undefined c => c

/-- The CPU states that `simulate` passes through when it is called on the
CPU of `sim_main.cpp`: the state after the initialisation, and the state in
which a cycle started from such a state ends (committed or not). The loop
stops at the first cycle that does not commit, so this set contains every
state of an actual run (and possibly more). -/
inductive Reachable (code : Code) (symbolTable : SymbolTable) : CPU → Prop where
  | init (c : CPU) (h : initialise initialCPU symbolTable = some c) :
      Reachable code symbolTable c
  | step (c : CPU) (h : Reachable code symbolTable c) :
      Reachable code symbolTable (cycle code c).cpu

/-! ## Strings and streams (`parser.cpp`) -/

/-- A `std::string`, as the list of its characters. -/
abbrev Str := List Char

/-- The characters for which `isspace` holds in the "C" locale: space, `\t`,
`\n`, `\v`, `\f`, `\r`. -/
def isSpace (c : Char) : Bool :=
  c = ' ' || c = Char.ofNat 9 || c = Char.ofNat 10 || c = Char.ofNat 11 ||
    c = Char.ofNat 12 || c = Char.ofNat 13

/-- The characters of the set `" \t"` used by `trimWhitespace`. -/
def isBlank (c : Char) : Bool := c = ' ' || c = Char.ofNat 9

/-- The function `isdigit`. -/
def isDigit (c : Char) : Bool := decide (48 ≤ c.toNat) && decide (c.toNat ≤ 57)

/-- The function `trimWhitespace`: the string without its leading and trailing
spaces and tabs. -/
def trimWhitespace (str : Str) : Str :=
  ((str.dropWhile isBlank).reverse.dropWhile isBlank).reverse

/-- The function `removeComments`: the string up to the first `#`. -/
def removeComments (str : Str) : Str :=
  str.takeWhile (fun c => c != '#')

/-- The call `str.substr(pos, count)` for `pos ≤ str.size()`. -/
def substr (str : Str) (pos count : Nat) : Str := (str.drop pos).take count

/-- The value of a decimal or hexadecimal digit character. -/
def digitValue (c : Char) : Nat :=
  if 48 ≤ c.toNat ∧ c.toNat ≤ 57 then c.toNat - 48
  else if 97 ≤ c.toNat ∧ c.toNat ≤ 102 then c.toNat - 87
  else c.toNat - 55

/-- The characters that are hexadecimal digits (`isxdigit`). -/
def isHexDigit (c : Char) : Bool :=
  isDigit c || (decide (97 ≤ c.toNat) && decide (c.toNat ≤ 102)) ||
    (decide (65 ≤ c.toNat) && decide (c.toNat ≤ 70))

/-- The number written by a list of digits in the given base. -/
def digitsValue (base : Nat) (ds : Str) : Nat :=
  ds.foldl (fun acc c => acc * base + digitValue c) 0

/-- The digit character of `d < 16`, lower case as printed by `std::hex`. -/
def digitChar (d : Nat) : Char :=
  if d < 10 then Char.ofNat (48 + d) else Char.ofNat (87 + d)

/-- The digits of `n` in the given base, most significant first (`fuel` bounds
the number of digits). -/
def natDigits (base : Nat) : Nat → Nat → Str
  | 0, _ => []
  | fuel + 1, n =>
    if n < base then [digitChar n]
    else natDigits base fuel (n / base) ++ [digitChar (n % base)]

/-- The call `std::to_string(v)` for an `int`. -/
def to_string (v : Int) : Str :=
  if v < 0 then '-' :: natDigits 10 ((-v).toNat + 1) (-v).toNat
  else natDigits 10 (v.toNat + 1) v.toNat

/-- The function `decimalToHex`: `ss << hex << decimal` prints the 32-bit
pattern of the `int` in lower-case hexadecimal. -/
def decimalToHex (decimal : Int) : Str :=
  natDigits 16 (toU32 decimal + 1) (toU32 decimal)

/-- The call `std::stoi(str, nullptr, base)` for base 10 or 16 (through
`strtol`): leading white space, an optional sign, for base 16 an optional
`0x`/`0X` before a hexadecimal digit, then the digits; `none` when an exception
is thrown (no digits, or a value outside the range of `int`). -/
def stoi (str : Str) (base : Nat) : Option Int :=
  let r := str.dropWhile isSpace
  let neg := decide (r.head? = some '-')
  let r1 := if r.head? = some '-' ∨ r.head? = some '+' then r.tail else r
  let r2 :=
    if base = 16 ∧ r1.head? = some '0' ∧
        ((r1.drop 1).head? = some 'x' ∨ (r1.drop 1).head? = some 'X') ∧
        ((r1.drop 2).head?.map isHexDigit) = some true
    then r1.drop 2 else r1
  let ds := r2.takeWhile (fun c => if base = 16 then isHexDigit c else isDigit c)
  if ds = [] then none
  else
    let v : Int := if neg then -(digitsValue base ds : Int) else (digitsValue base ds : Int)
    if -2147483648 ≤ v ∧ v ≤ 2147483647 then some v else none

/-- A `std::istringstream`: the characters not yet read and whether the stream
has failed (every extraction from a failed stream does nothing). -/
structure IStream where
  rest : Str
  failed : Bool

/-- The extraction `iss >> s` into a `std::string`: white space is skipped and
the characters up to the next white space are read; at the end of the stream
the extraction fails and `s` keeps its value. The result is the new value of
`s` and the stream. -/
def readWord (iss : IStream) (s : Str) : Str × IStream :=
  if iss.failed then (s, iss)
  else
    let r := iss.rest.dropWhile isSpace
    if r.isEmpty then (s, { rest := [], failed := true })
    else (r.takeWhile (fun c => !isSpace c),
          { rest := r.dropWhile (fun c => !isSpace c), failed := false })

/-- The extraction `iss >> value` into a signed integer with the range
`lo .. hi`: white space is skipped, an optional sign and decimal digits are
read; `none` when the extraction fails (no digits, or a value outside the
range), which leaves the stream failed. -/
def readInt (lo hi : Int) (iss : IStream) : Option Int × IStream :=
  if iss.failed then (none, iss)
  else
    let r := iss.rest.dropWhile isSpace
    let neg := decide (r.head? = some '-')
    let r1 := if r.head? = some '-' ∨ r.head? = some '+' then r.tail else r
    let ds := r1.takeWhile isDigit
    let r2 := r1.dropWhile isDigit
    if ds.isEmpty then (none, { rest := r2, failed := true })
    else
      let v : Int := if neg then -(digitsValue 10 ds : Int) else (digitsValue 10 ds : Int)
      if lo ≤ v ∧ v ≤ hi then (some v, { rest := r2, failed := false })
      else (none, { rest := r2, failed := true })

/-- The call `getline(iss, str)` on a fresh `str`: the rest of the stream up to
a newline. -/
def getlineRest (iss : IStream) : Str :=
  if iss.failed then [] else iss.rest.takeWhile (fun c => c != Char.ofNat 10)

/-! ## The instruction record and `parseInstructionFields` -/

/-- Modelled from the spec: the record `Instruction` that `parser.h` declares
(the header is not among the sources). Its members are the strings that
`parser.cpp` and `main.cpp` use; a default-constructed record holds empty
strings. -/
structure Instruction where
  line_name : Str := []
  opcode : Str := []
  format : Str := []
  rd : Str := []
  rs1 : Str := []
  rs2 : Str := []
  immediate : Str := []
  func3 : Str := []
  func7 : Str := []
deriving DecidableEq

/-- The statement `if (!s.empty() && s.back() == ',') s.pop_back();`. -/
def popComma (s : Str) : Str :=
  if s.getLast? = some ',' then s.dropLast else s

/-- The mnemonics of the first branch of `parseInstructionFields` (format R). -/
def rMnemonics : List Str :=
  ["add".toList, "sub".toList, "xor".toList, "or".toList, "and".toList, "sll".toList,
   "slt".toList, "sra".toList, "srl".toList, "mul".toList, "div".toList, "rem".toList]

/-- The mnemonics of the second branch (format I, `op rd rs1 imm`). -/
def iMnemonics : List Str := ["addi".toList, "andi".toList, "ori".toList, "jalr".toList]

/-- The mnemonics of the third branch (loads). -/
def loadMnemonics : List Str := ["lb".toList, "lh".toList, "lw".toList, "ld".toList]

/-- The mnemonics of the fourth branch (stores, format S). -/
def storeMnemonics : List Str := ["sb".toList, "sh".toList, "sw".toList, "sd".toList]

/-- The mnemonics of the fifth branch (format SB). -/
def sbMnemonics : List Str := ["beq".toList, "bne".toList, "blt".toList, "bge".toList]

/-- The mnemonics of the sixth branch (format U). -/
def uMnemonics : List Str := ["lui".toList, "auipc".toList]

/-- The offset and base of an `offset(base)` operand: `immediate` and `rs1` are
assigned only when both brackets are found; the count
`closeBracket - openBracket - 1` is computed in `size_t`. -/
def splitAddress (addressStr immediate rs1 : Str) : Str × Str :=
  if '(' ∈ addressStr ∧ ')' ∈ addressStr then
    let openBracket := addressStr.indexOf '('
    let closeBracket := addressStr.indexOf ')'
    (addressStr.take openBracket,
     substr addressStr (openBracket + 1)
       ((closeBracket + 18446744073709551616 - openBracket - 1) % 18446744073709551616))
  else (immediate, rs1)

/-- The function `parseInstructionFields`, on the record whose members the
reference parameters are bound to; `none` when `std::stoi` throws (format U)
or `immediate[1]` is read from an empty string. -/
def parseInstructionFields (line : Str) (instr : Instruction) : Option Instruction :=
  let w := readWord { rest := line, failed := false } instr.opcode
  let opcode := w.1
  let iss := w.2
  let instr := { instr with line_name := line, opcode := opcode }
  if opcode ∈ rMnemonics then
    let a := readWord iss instr.rd
    let b := readWord a.2 instr.rs1
    let c := readWord b.2 instr.rs2
    some { instr with format := "R".toList, rd := popComma a.1, rs1 := popComma b.1,
                      rs2 := popComma c.1 }
  else if opcode ∈ iMnemonics then
    let a := readWord iss instr.rd
    let b := readWord a.2 instr.rs1
    let c := readWord b.2 instr.immediate
    some { instr with format := "I".toList, rd := popComma a.1, rs1 := popComma b.1,
                      immediate := c.1 }
  else if opcode ∈ loadMnemonics then
    let a := readWord iss []
    let b := readWord a.2 []
    let p := splitAddress b.1 instr.immediate instr.rs1
    some { instr with format := "I".toList, immediate := p.1, rs1 := p.2, rd := popComma a.1 }
  else if opcode ∈ storeMnemonics then
    let a := readWord iss []
    let b := readWord a.2 []
    let p := splitAddress b.1 instr.immediate instr.rs1
    some { instr with format := "S".toList, immediate := p.1, rs1 := p.2, rs2 := popComma a.1 }
  else if opcode ∈ sbMnemonics then
    let a := readWord iss instr.rs1
    let b := readWord a.2 instr.rs2
    let c := readWord b.2 instr.immediate
    some { instr with format := "SB".toList, rs1 := popComma a.1, rs2 := popComma b.1,
                      immediate := c.1 }
  else if opcode ∈ uMnemonics then
    let a := readWord iss instr.rd
    let b := readWord a.2 instr.immediate
    if b.1.isEmpty then none
    else
      let hexText : Option Str :=
        if (b.1.drop 1).head? ≠ some 'x' then
          match stoi b.1 10 with
          | none => none
          | some v => some ("0x".toList ++ decimalToHex v)
        else some b.1
      match hexText with
      | none => none
      | some h =>
        match stoi h 16 with
        | none => none
        | some v =>
          some { instr with format := "U".toList, rd := popComma a.1, immediate := to_string v }
  else if opcode = "jal".toList then
    let a := readWord iss instr.rd
    let b := readWord a.2 instr.immediate
    some { instr with format := "UJ".toList, rd := popComma a.1, immediate := b.1 }
  else some instr

/-! ## The symbol table and `processDirective` -/

/-- The method `SymbolTable::addLabel`. -/
def addLabel (st : SymbolTable) (label : Str) (address : Nat) : SymbolTable :=
  { st with table := fun k => if k = label then some address else st.table k }

/-- The method `SymbolTable::getAddress`: `0xFFFFFFFF` when the label is not found. -/
def getAddress (st : SymbolTable) (label : Str) : Nat :=
  match st.table label with
  | some a => a
  | none => 0xFFFFFFFF

/-- The statement `if (dataSegments.empty()) { push_back(seg at dataAddress) }`. -/
def ensureSegment (segs : List DataSegment) (dataAddress : Nat) : List DataSegment :=
  if segs.isEmpty then [{ startAddress := dataAddress, contents := [] }] else segs

/-- The segment list after `dataSegments.back().contents.push_back(entry)`. -/
def pushEntry (segs : List DataSegment) (entry : DataEntry) : List DataSegment :=
  match segs.getLast? with
  | none => segs
  | some seg => segs.dropLast ++ [{ seg with contents := seg.contents ++ [entry] }]

/-- The method `SymbolTable::addDataToCurrentSegment`: the table and the
advanced `dataAddress`. -/
def addDataToCurrentSegment (st : SymbolTable) (dataAddress : Nat) (value : Int) (size : Nat) :
    SymbolTable × Nat :=
  ({ st with dataSegments :=
      pushEntry (ensureSegment st.dataSegments dataAddress) { value := value, size := size } },
   (dataAddress + size) % 4294967296)

/-- The loop `while (iss >> value) { .. addDataToCurrentSegment(dataAddress, f(value), size); }`
of the numeric directives, `lo .. hi` being the range of the type of `value`;
every successful extraction reads a character, so `fuel` larger than the
number of unread characters does not cut the loop. The check
`dataSegments.empty()` that `.half`, `.byte` and `.dword` make before the call
is the one the method makes itself. -/
def dataLoop (lo hi : Int) (f : Int → Int) (size : Nat) :
    Nat → IStream → SymbolTable → Nat → SymbolTable × Nat
  | 0, _, st, dataAddress => (st, dataAddress)
  | fuel + 1, iss, st, dataAddress =>
    match readInt lo hi iss with
    | (none, _) => (st, dataAddress)
    | (some value, iss1) =>
      let st1 : SymbolTable :=
        { st with dataSegments := ensureSegment st.dataSegments dataAddress }
      let r := addDataToCurrentSegment st1 dataAddress (f value) size
      dataLoop lo hi f size fuel iss1 r.1 r.2

/-- The value of a `char` as an `int` (`char` is signed; the text is a byte string). -/
def charValue (ch : Char) : Int :=
  if ch.toNat % 256 < 128 then ((ch.toNat % 256 : Nat) : Int)
  else ((ch.toNat % 256 : Nat) : Int) - 256

/-- The loop `for (char ch : str) { .. addDataToCurrentSegment(dataAddress, ch, 1); }`. -/
def asciizLoop : Str → SymbolTable → Nat → SymbolTable × Nat
  | [], st, dataAddress => (st, dataAddress)
  | ch :: rest, st, dataAddress =>
    let st1 : SymbolTable :=
      { st with dataSegments := ensureSegment st.dataSegments dataAddress }
    let r := addDataToCurrentSegment st1 dataAddress (charValue ch) 1
    asciizLoop rest r.1 r.2

/-- The function `processDirective`: the symbol table and `dataAddress` after
the directive whose name was read from `iss`. -/
def processDirective (directive : Str) (iss : IStream) (st : SymbolTable) (dataAddress : Nat) :
    SymbolTable × Nat :=
  if directive = ".text".toList then (st, dataAddress)
  else if directive = ".data".toList then
    ({ st with dataSegments :=
        st.dataSegments ++ [{ startAddress := dataAddress, contents := [] }] }, dataAddress)
  else if directive = ".word".toList then
    dataLoop (-2147483648) 2147483647 (fun v => v) 4 (iss.rest.length + 1) iss st dataAddress
  else if directive = ".half".toList then
    dataLoop (-2147483648) 2147483647 (fun v => ((toU32 v &&& 0xFFFF : Nat) : Int)) 2
      (iss.rest.length + 1) iss st dataAddress
  else if directive = ".byte".toList then
    dataLoop (-2147483648) 2147483647 (fun v => ((toU32 v &&& 0xFF : Nat) : Int)) 1
      (iss.rest.length + 1) iss st dataAddress
  else if directive = ".dword".toList then
    dataLoop (-9223372036854775808) 9223372036854775807 (fun v => wrapI32 v) 8
      (iss.rest.length + 1) iss st dataAddress
  else if directive = ".asciiz".toList then
    let str := trimWhitespace (getlineRest iss)
    let str1 :=
      if ¬ str.isEmpty ∧ str.head? = some (Char.ofNat 34) ∧ str.getLast? = some (Char.ofNat 34)
      then substr str 1 ((str.length + 18446744073709551616 - 2) % 18446744073709551616)
      else str
    let r := asciizLoop str1 st dataAddress
    let st1 : SymbolTable :=
      { r.1 with dataSegments := ensureSegment r.1.dataSegments r.2 }
    addDataToCurrentSegment st1 r.2 0 1
  else if directive = ".globl".toList then (st, dataAddress)
  else (st, dataAddress)

/-! ## The function `parseFile` -/

/-- The variables of `parseFile` that change from line to line. -/
structure ParseState where
  textAddress : Nat
  dataAddress : Nat
  symbolTable : SymbolTable
  instructions : List Instruction

/-- How the body of the `while (getline(..))` loop is left. -/
inductive LineResult where
  /-- The loop goes on with the next line. -/
  | next (s : ParseState)
  /-- The statement `return false` was reached. -/
  | rejected (s : ParseState)
  /-- An exception of `std::stoi` left `parseInstructionFields`. -/
  | thrown

/-- The part of the loop body after the label was removed: the line is a
directive (first word starting with `.`, processed on the first pass only) or
an instruction (parsed on the second pass only; `textAddress` advances on both). -/
def parseStatement (firstPass : Bool) (line : Str) (s : ParseState) : LineResult :=
  if line.isEmpty then .next s
  else
    let fw := readWord { rest := line, failed := false } []
    if ¬ fw.1.isEmpty ∧ fw.1.head? = some '.' then
      if firstPass then
        let r := processDirective fw.1 fw.2 s.symbolTable s.dataAddress
        .next { s with symbolTable := r.1, dataAddress := r.2 }
      else .next s
    else
      if ¬ firstPass then
        match parseInstructionFields line {} with
        | none => .thrown
        | some instr =>
          if (instr.format = "SB".toList ∨ instr.format = "UJ".toList) ∧
              ¬ instr.immediate.isEmpty then
            let lbl := trimWhitespace instr.immediate
            if ¬ isDigit (lbl.headD (Char.ofNat 0)) then
              let labelAddress := getAddress s.symbolTable lbl
              if labelAddress ≠ 0xFFFFFFFF then
                let offset := wrapI32 (toI32 labelAddress - toI32 s.textAddress)
                .next { s with
                  instructions := s.instructions ++ [{ instr with immediate := to_string offset }]
                  textAddress := (s.textAddress + 4) % 4294967296 }
              else .rejected s
            else
              .next { s with
                instructions := s.instructions ++ [instr]
                textAddress := (s.textAddress + 4) % 4294967296 }
          else
            .next { s with
              instructions := s.instructions ++ [instr]
              textAddress := (s.textAddress + 4) % 4294967296 }
      else .next { s with textAddress := (s.textAddress + 4) % 4294967296 }

/-- The body of the `while (getline(inFile, line))` loop of `parseFile`. -/
def parseLine (firstPass : Bool) (rawLine : Str) (s : ParseState) : LineResult :=
  let line := trimWhitespace (removeComments rawLine)
  if line.isEmpty then .next s
  else if ':' ∈ line then
    let colonPos := line.indexOf ':'
    let label := trimWhitespace (substr line 0 colonPos)
    if ¬ label.isEmpty ∧ ¬ isDigit (label.headD (Char.ofNat 0)) then
      let rest : Str :=
        if colonPos + 1 < line.length
        then trimWhitespace (line.drop (colonPos + 1)) else []
      let s1 : ParseState :=
        if ¬ rest.isEmpty ∧ rest.head? = some '.' then
          if firstPass then
            { s with symbolTable := addLabel s.symbolTable label s.dataAddress }
          else s
        else
          if firstPass then
            { s with symbolTable := addLabel s.symbolTable label s.textAddress }
          else s
      if colonPos + 1 < line.length then
        parseStatement firstPass (trimWhitespace (line.drop (colonPos + 1))) s1
      else .next s1
    else .rejected s
  else parseStatement firstPass line s

/-- The loop of `parseFile` over the lines of the file. -/
def parseLines (firstPass : Bool) : List Str → ParseState → LineResult
  | [], s => .next s
  | line :: rest, s =>
    match parseLine firstPass line s with
    | .next s1 => parseLines firstPass rest s1
    | r => r

/-- What a call of `parseFile` leaves: the returned `bool` with the symbol
table and the instruction vector it was given by reference, or an exception. -/
inductive ParseResult where
  | returned (ok : Bool) (symbolTable : SymbolTable) (instructions : List Instruction)
  | thrown

/-- The function `parseFile` on a file that could be opened, given as the list
of its lines. -/
def parseFile (lines : List Str) (instructions : List Instruction) (symbolTable : SymbolTable)
    (firstPass : Bool) : ParseResult :=
  match parseLines firstPass lines
      { textAddress := 0, dataAddress := 0x10000000, symbolTable := symbolTable,
        instructions := instructions } with
  | .next s => .returned true s.symbolTable s.instructions
  | .rejected s => .returned false s.symbolTable s.instructions
  | .thrown => .thrown

/-- The symbol table `main` creates before the first pass. -/
def emptySymbolTable : SymbolTable := { dataSegments := [] }

/-! ## Programs and states of the end-to-end scenarios -/

/-- No data segments. -/
def noData : SymbolTable := { dataSegments := [] }

/-- Scenario 1: `addi x5, x0, 7`; `addi x6, x5, -3`; halt. -/
def scenario1Code : Code :=
  fun a => if a = 0 then some 0x00700293 else if a = 4 then some 0xFFD28313
    else if a = 8 then some 0x0000007F else none

/-- The loop `addi x5, x5, 1` / `bne x5, x6, -4` of the third end-to-end scenario. -/
def loopCode : Code :=
  fun a => if a = 0 then some 0x00128293 else if a = 4 then some 0xFE629EE3 else none

/-- The CPU of `sim_main.cpp` with `x6 = 3`. -/
def loopStart : CPU := { initialCPU with regFile := setReg initialCPU.regFile 6 3 }

/-- Scenario 4: `jal x1, +8`; `addi x7, x0, 99`; `addi x7, x0, 42`; halt. -/
def scenario4Code : Code :=
  fun a => if a = 0 then some 0x008000EF else if a = 4 then some 0x06300393
    else if a = 8 then some 0x02A00393 else if a = 12 then some 0x0000007F else none

/-- A single `sra x7, x5, x6` (`0x4062D3B3`) at address 0. -/
def sraCode : Code := fun a => if a = 0 then some 0x4062D3B3 else none

/-- The CPU of `sim_main.cpp` with `x5 = -8` and `x6 = 1`. -/
def sraStart : CPU :=
  { initialCPU with regFile := setReg (setReg initialCPU.regFile 5 (-8)) 6 1 }

/-- Scenario 6: `div x5, x10, x11` (`0x02B542B3`); `rem x6, x10, x11` (`0x02B56333`). -/
def divRemCode : Code :=
  fun a => if a = 0 then some 0x02B542B3 else if a = 4 then some 0x02B56333 else none

/-- The CPU of `sim_main.cpp` with `x10 = 42` (and `x11 = 0`). -/
def divRemStart : CPU := { initialCPU with regFile := setReg initialCPU.regFile 10 42 }

/-- A single `jalr x1, 5(x1)` (`0x005080E7`) at address 8. -/
def jalrCode : Code := fun a => if a = 8 then some 0x005080E7 else none

/-- The CPU of `sim_main.cpp` with `PC = 8` and `x1 = 16`. -/
def jalrStart : CPU :=
  { initialCPU with PC := 8, regFile := setReg initialCPU.regFile 1 16 }

/-- A single word `0x0000000B` (opcode `0x0B`, not one of the ten handled) at address 0. -/
def unknownCode : Code := fun a => if a = 0 then some 0x0000000B else none

/-- The number of executions of the body of the stack-zeroing loop of
`simulate` when it is entered with the given `addr` (the loop of `zeroStack`). -/
def zeroStackSteps (addr : Nat) : Nat :=
  if addr < STACK_BASE then zeroStackSteps ((addr + 4) % 4294967296) + 1 else 0
termination_by STACK_BASE - addr
decreasing_by simp only [STACK_BASE] at *; omega

/-- The byte at byte address `a` of a memory map: bits `8 * (a mod 4)` to
`8 * (a mod 4) + 7` of the word stored under the key `a & ~3`, `0` when the key
is absent (the byte that `lbu` extracts). -/
def byteAt (m : Memory) (a : Nat) : Nat :=
  (memGet m (a &&& 0xFFFFFFFC) >>> ((a &&& 0x3) * 8)) &&& 0xFF

/-- A store `sb x6, 1(x5)` (`0x006280A3`) at address 0 followed by the loads
`lbu x7, 1(x5)` (`0x0012C383`) and `lb x8, 1(x5)` (`0x00128403`). -/
def sbLoadCode : Code :=
  fun a => if a = 0 then some 0x006280A3 else if a = 4 then some 0x0012C383
    else if a = 8 then some 0x00128403 else none

/-- The CPU of `sim_main.cpp` with `x5 = 0x10000000` and `x6 = 0x1F0` (low byte `0xF0`). -/
def sbLoadStart : CPU :=
  { initialCPU with regFile := setReg (setReg initialCPU.regFile 5 0x10000000) 6 0x1F0 }

/-- The `bool` a call of `parseFile` returned (`none`: it threw). -/
def ParseResult.value : ParseResult → Option Bool
  | .returned ok _ _ => some ok
  | .thrown => none

/-- The instruction vector a call of `parseFile` left (`[]` if it threw). -/
def ParseResult.instrs : ParseResult → List Instruction
  | .returned _ _ instructions => instructions
  | .thrown => []

/-- The symbol table a call of `parseFile` left. -/
def ParseResult.symbols : ParseResult → SymbolTable
  | .returned _ symbolTable _ => symbolTable
  | .thrown => emptySymbolTable

/-- The symbol table after the first pass over a source (`main.cpp` and
`sim_main.cpp` start from an empty table and an empty instruction vector). -/
def firstPassSymbols (lines : List Str) : SymbolTable :=
  (parseFile lines [] emptySymbolTable true).symbols

/-- The line after comment removal and trimming, as the loop body of
`parseFile` computes it first. -/
def effectiveLine (rawLine : Str) : Str := trimWhitespace (removeComments rawLine)

/-- The label of a line: the trimmed text before the first colon of the
effective line, if there is a colon. -/
def labelOfLine (rawLine : Str) : Option Str :=
  if ':' ∈ effectiveLine rawLine then
    some (trimWhitespace (substr (effectiveLine rawLine) 0 ((effectiveLine rawLine).indexOf ':')))
  else none

/-- The statement of a line: the effective line, without the label and the
colon if there is a colon (the `line` that `parseFile` goes on with). -/
def statementOfLine (rawLine : Str) : Str :=
  if ':' ∈ effectiveLine rawLine then
    if (effectiveLine rawLine).indexOf ':' + 1 < (effectiveLine rawLine).length then
      trimWhitespace ((effectiveLine rawLine).drop ((effectiveLine rawLine).indexOf ':' + 1))
    else []
  else effectiveLine rawLine

/-- The labels `parseFile` accepts: not empty and not starting with a digit. -/
def validLabel (label : Str) : Bool :=
  !label.isEmpty && !isDigit (label.headD (Char.ofNat 0))

/-- The statements `parseFile` treats as instructions: not empty and with a
first word that is empty or does not start with `.`. -/
def isInstruction (statement : Str) : Bool :=
  !statement.isEmpty &&
    !(!(readWord { rest := statement, failed := false } []).1.isEmpty &&
      decide ((readWord { rest := statement, failed := false } []).1.head? = some '.'))

/-- The instruction text of a line, if its statement is an instruction. -/
def instrText (rawLine : Str) : Option Str :=
  if isInstruction (statementOfLine rawLine) then some (statementOfLine rawLine) else none

/-- The addresses the listing loop of `main.cpp` prints in front of the
instructions (`instrAddress` starts at the given value and advances by 4). -/
def listingAddresses : List Instruction → Nat → List Nat
  | [], _ => []
  | _ :: rest, instrAddress => instrAddress :: listingAddresses rest ((instrAddress + 4) % 4294967296)

/-- One data segment at `0x10000000` with the single entry `{1, 8}` (what `.dword 1` leaves). -/
def dwordData : SymbolTable :=
  { dataSegments := [{ startAddress := 0x10000000, contents := [{ value := 1, size := 8 }] }] }

/-- The source `beq x1, x2, -8`. -/
def negativeBranchSource : List Str := ["beq x1, x2, -8".toList]

/-- The source `foo x1, x2, x3`. -/
def unknownMnemonicSource : List Str := ["foo x1, x2, x3".toList]

/-- A source whose label `arr:` stands alone on the line before its `.word`. -/
def dataLabelSource : List Str := [".data".toList, "arr:".toList, ".word 5".toList]

/-- The same source with the label and the directive on one line. -/
def dataLabelSameLineSource : List Str := [".data".toList, "arr: .word 5".toList]

/-- A source that defines the label `L` twice. -/
def duplicateLabelSource : List Str :=
  ["L:".toList, "add x1, x2, x3".toList, "L:".toList, "sub x1, x2, x3".toList]

/-- The state in which the loop of `parseFile` starts. -/
def parseStart (instructions : List Instruction) (symbolTable : SymbolTable) : ParseState :=
  { textAddress := 0, dataAddress := 0x10000000, symbolTable := symbolTable,
    instructions := instructions }

/-- A source with a data label, a label on a line of its own followed by blank,
comment and directive lines, and a label in front of an instruction. -/
def labelledSource : List Str :=
  [".data".toList, "arr: .word 1".toList, ".text".toList, "start:".toList, "".toList,
   "  # set up".toList, ".globl start".toList, "addi x5, x0, 0".toList,
   "loop: addi x5, x5, 1".toList, "bne x5, x6, loop".toList]

/-- A source whose branch refers to a label that is defined nowhere. -/
def unboundLabelSource : List Str := ["beq x1, x2, nowhere".toList]

/-- The operands of a `.word` line: for each value, the white space in front of
it and its decimal text. -/
def wordLine : List (Str × Int) → Str
  | [] => []
  | item :: rest => item.1 ++ (to_string item.2 ++ wordLine rest)

/-- The source `.data` / `.word v_0 .. v_{n-1}`. -/
def wordSource (items : List (Str × Int)) : List Str :=
  [".data".toList, ".word".toList ++ wordLine items]

/-- The word after the read-modify-write of byte lane `o` with the byte `b`
(the expression of `storeByte` and of `sb`). -/
def laneSet (w o b : Nat) : Nat :=
  (w &&& not32 (shl32 0xFF (o * 8))) ||| shl32 (b &&& 0xFF) (o * 8)

/-- Scenario 2: `lui x11, 0x10000` (`0x100005B7`); `lw x10, 0(x11)` (`0x0005A503`). -/
def scenario2Code : Code :=
  fun a => if a = 0 then some 0x100005B7 else if a = 4 then some 0x0005A503 else none

/-- The source of scenario 2: `.data` / `.word 1 2 3`. -/
def scenario2Source : List Str := [".data".toList, ".word 1 2 3".toList]

/-- The CPU of `sim_main.cpp` with `x10 = -7` and `x11 = 2`. -/
def divRemNegStart : CPU :=
  { initialCPU with regFile := setReg (setReg initialCPU.regFile 10 (-7)) 11 2 }

/-- The CPU of `sim_main.cpp` with `x10 = -2^31` and `x11 = -1` (the overflow pair). -/
def divOverflowStart : CPU :=
  { initialCPU with regFile := setReg (setReg initialCPU.regFile 10 (-2147483648)) 11 (-1) }

/-- The state in which `simulate` enters its loop when it is called on the CPU
of `sim_main.cpp` with no data segments. -/
def startNoData : CPU :=
  { initialCPU with regFile := setReg initialCPU.regFile 2 (toI32 STACK_BASE)
                    memory := zeroStack STACK_END initialCPU.memory }

/-- The words `sw x0, 1(x0)` (`0x000020A3`) at address 0 and `lw x5, 3(x0)`
(`0x00302283`) at address 4. -/
def unalignedWordCode : Code :=
  fun a => if a = 0 then some 0x000020A3 else if a = 4 then some 0x00302283 else none

/-- The mnemonics `bltu` and `bgeu`, which `parseInstructionFields` does not test for. -/
def unsignedBranchMnemonics : List Str := ["bltu".toList, "bgeu".toList]

/-- The values of `addr` at which the loop of `initializeMemoryFromDataSegments`
over the entries of one segment unpacks them, `addr` being the value on entry
(`addr += entry.size` after each entry). -/
def entryAddresses : List DataEntry → Nat → List Nat
  | [], _ => []
  | entry :: rest, addr => addr :: entryAddresses rest ((addr + entry.size) % 4294967296)

/-- The value of `addr` after the loop over the entries. -/
def advance : List DataEntry → Nat → Nat
  | [], addr => addr
  | entry :: rest, addr => advance rest ((addr + entry.size) % 4294967296)

/-- The addresses at which `initializeMemoryFromDataSegments` places the
entries of all segments, in the order of the loops. -/
def placedAddresses : List DataSegment → List Nat
  | [] => []
  | seg :: rest => entryAddresses seg.contents seg.startAddress ++ placedAddresses rest

/-- The entries of all segments, in order. -/
def allEntries : List DataSegment → List DataEntry
  | [] => []
  | seg :: rest => seg.contents ++ allEntries rest

/-- The start of a segment plus the sum of the sizes of its entries, modulo `2^32`. -/
def segmentEnd (seg : DataSegment) : Nat :=
  (seg.startAddress + (seg.contents.map (fun e => e.size)).sum) % 4294967296

/-- Contiguity of a list of segments: the first one starts at `a` and each
later one at the end of the one before it. -/
def contiguousFrom : Nat → List DataSegment → Bool
  | _, [] => true
  | a, seg :: rest => decide (seg.startAddress = a) && contiguousFrom (segmentEnd seg) rest

/-- The end of the last segment of a list (`a` when there is none). -/
def dataEnd : Nat → List DataSegment → Nat
  | a, [] => a
  | _, seg :: rest => dataEnd (segmentEnd seg) rest

/-- The layout invariant of the first pass: the segments are contiguous from
`0x10000000` and end at the data cursor `d`, a 32-bit value. -/
def DataLayout (segs : List DataSegment) (d : Nat) : Prop :=
  contiguousFrom 0x10000000 segs = true ∧ dataEnd 0x10000000 segs = d ∧ d < 4294967296

/-- The data layout `(segs1, d1)` extends `(segs, d)`: it satisfies the layout
invariant, its entries are those of `segs` followed by further entries, and
`initializeMemoryFromDataSegments` places the further entries at the values
the cursor takes from `d` on, `d1` being the last one. -/
def ExtendsLayout (segs : List DataSegment) (d : Nat) (segs1 : List DataSegment) (d1 : Nat) :
    Prop :=
  DataLayout segs1 d1 ∧
  ∃ more : List DataEntry,
    allEntries segs1 = allEntries segs ++ more ∧
    placedAddresses segs1 = placedAddresses segs ++ entryAddresses more d ∧
    d1 = advance more d

/-- The innermost loop of `initializeMemoryFromDataSegments` run on the given
entries at the given addresses, in order. -/
def unpackAt : List (DataEntry × Nat) → Memory → Option Memory
  | [], m => some m
  | p :: rest, m =>
    match initEntryFrom p.1.value p.2 p.1.size 0 m with
    | none => none
    | some m1 => unpackAt rest m1

/-- A source with two data segments, labels in front of directives and an
instruction between the directives. -/
def layoutSource : List Str :=
  [".data".toList, "a: .word 1 2".toList, ".half 3".toList, "add x1, x2, x3".toList,
   ".data".toList, "b: .byte 4".toList, "c: .word 5".toList]

/-- The source `.dword 4294967296` (the literal `2^32`). -/
def dwordSource : List Str := [".dword 4294967296".toList]

/-- The double quote character. -/
def quote : Char := Char.ofNat 34

/-- The line `.asciiz "str"`, `sep` being the white space after the directive name. -/
def asciizLine (sep str : Str) : Str :=
  ".asciiz".toList ++ sep ++ [quote] ++ str ++ [quote]

/-- The entries of a string: one entry of size 1 for each character, in order,
followed by the terminator `0`. -/
def asciizEntries (str : Str) : List DataEntry :=
  str.map (fun ch => { value := charValue ch, size := 1 }) ++ [{ value := 0, size := 1 }]

/-- The source `.asciiz "Hi"`. -/
def asciizHiSource : List Str := [asciizLine " ".toList "Hi".toList]

/-- The source `.asciiz "a#b"`. -/
def asciizHashSource : List Str := [asciizLine " ".toList "a#b".toList]

/-- The source `.asciiz "a:b"`. -/
def asciizColonSource : List Str := [asciizLine " ".toList "a:b".toList]

/-- The CPU of `sim_main.cpp` with `x5 = 0x10000000` and `x6 = 0x27F` (low byte `0x7F`). -/
def sbLoadStartPos : CPU :=
  { initialCPU with regFile := setReg (setReg initialCPU.regFile 5 0x10000000) 6 0x27F }

/-- The innermost loop of `initializeMemoryFromDataSegments` as a build runs
it: `entry.value >> (8 * i)` has its value for a shift count below 32, and for
a count of 32 or more, where C++ gives the expression no value, it evaluates to
`shr value count`, whatever that is; the loop goes on with it. -/
def initEntryFromWith (shr : Int → Nat → Int) (value : Int) (addr : Nat) :
    Nat → Nat → Memory → Memory
  | 0, _, m => m
  | n + 1, i, m =>
    let sh := (8 * i) % 4294967296
    let byte := toU32 (if sh < 32 then value >>> sh else shr value sh) &&& 0xFF
    initEntryFromWith shr value addr n (i + 1) (storeByte m ((addr + i) % 4294967296) byte)

/-- The loop over the entries of one segment, as a build runs it. -/
def initEntriesWith (shr : Int → Nat → Int) : List DataEntry → Nat → Memory → Memory
  | [], _, m => m
  | entry :: rest, addr, m =>
    initEntriesWith shr rest ((addr + entry.size) % 4294967296)
      (initEntryFromWith shr entry.value addr entry.size 0 m)

/-- The loop over the data segments, as a build runs it. -/
def initSegmentsWith (shr : Int → Nat → Int) : List DataSegment → Memory → Memory
  | [], m => m
  | seg :: rest, m =>
    initSegmentsWith shr rest (initEntriesWith shr seg.contents seg.startAddress m)

/-- The function `initializeMemoryFromDataSegments` as a build runs it: it
returns for every CPU and every symbol table. -/
def initializeMemoryWith (shr : Int → Nat → Int) (cpu : CPU) (symbolTable : SymbolTable) : CPU :=
  { cpu with memory := initSegmentsWith shr symbolTable.dataSegments cpu.memory }

/-- The loop `for (addr = STACK_END; addr < STACK_BASE; addr += 4) memory[addr] = 0`
entered with the given `addr`, together with a counter `n` that is incremented
in each execution of the body. -/
def zeroStackCount (addr : Nat) (m : Memory) (n : Nat) : Memory × Nat :=
  if addr < STACK_BASE then zeroStackCount ((addr + 4) % 4294967296) (memSet m addr 0) (n + 1)
  else (m, n)
termination_by STACK_BASE - addr
decreasing_by simp only [STACK_BASE] at *; omega

/-- The part of `simulate` before the `while (true)` loop, as a build runs it:
the data initialisation, `cpu.regFile[2] = STACK_BASE`, and the zeroing loop. -/
def initialiseWith (shr : Int → Nat → Int) (cpu : CPU) (symbolTable : SymbolTable) : CPU :=
  { initializeMemoryWith shr cpu symbolTable with
    regFile := setReg (initializeMemoryWith shr cpu symbolTable).regFile 2 (toI32 STACK_BASE)
    memory := (zeroStackCount STACK_END (initializeMemoryWith shr cpu symbolTable).memory 0).1 }

/-- The value of `value >> count` for a count of 32 or more on a processor that
uses the low five bits of the shift count. -/
def shiftMod32 (value : Int) (count : Nat) : Int := value >>> (count % 32)

/-! # Theorems -/

/-! ## Bit fields as arithmetic -/

theorem and_mask (x n : Nat) : x &&& (2 ^ n - 1) = x % 2 ^ n :=
  Nat.and_pow_two_sub_one_eq_mod x n

theorem and_1 (x : Nat) : x &&& 1 = x % 2 := and_mask x 1
theorem and_7 (x : Nat) : x &&& 7 = x % 8 := and_mask x 3
theorem and_15 (x : Nat) : x &&& 15 = x % 16 := and_mask x 4
theorem and_31 (x : Nat) : x &&& 31 = x % 32 := and_mask x 5
theorem and_63 (x : Nat) : x &&& 63 = x % 64 := and_mask x 6
theorem and_127 (x : Nat) : x &&& 127 = x % 128 := and_mask x 7
theorem and_255 (x : Nat) : x &&& 255 = x % 256 := and_mask x 8
theorem and_1023 (x : Nat) : x &&& 1023 = x % 1024 := and_mask x 10
theorem and_4095 (x : Nat) : x &&& 4095 = x % 4096 := and_mask x 12

/-- Disjoint bit fields: the bitwise or is the sum. -/
theorem or_eq_add (hi lo k : Nat) (h : lo < 2 ^ k) : (hi * 2 ^ k) ||| lo = hi * 2 ^ k + lo := by
  rw [Nat.mul_comm]; exact (Nat.mul_add_lt_is_or h hi).symm

theorem signExtend_12 (v : Nat) (h : v < 4096) :
    signExtend v 12 = if v < 2048 then (v : Int) else (v : Int) - 4096 := by
  simp only [signExtend, toI32, shl32, Nat.shiftLeft_eq, Int.shiftRight_eq_div_pow]
  split <;> split <;> omega

/-- Sign extension from 8 bits: a byte below `128` is its own value, a byte
from `128` on is the value minus `256`. -/
theorem signExtend_8 (v : Nat) (h : v < 256) :
    signExtend v 8 = if v < 128 then (v : Int) else (v : Int) - 256 := by
  simp only [signExtend, toI32, shl32, Nat.shiftLeft_eq, Int.shiftRight_eq_div_pow]
  split <;> split <;> omega

theorem signExtend_13 (v : Nat) (h : v < 8192) :
    signExtend v 13 = if v < 4096 then (v : Int) else (v : Int) - 8192 := by
  simp only [signExtend, toI32, shl32, Nat.shiftLeft_eq, Int.shiftRight_eq_div_pow]
  split <;> split <;> omega

theorem signExtend_21 (v : Nat) (h : v < 2097152) :
    signExtend v 21 = if v < 1048576 then (v : Int) else (v : Int) - 2097152 := by
  simp only [signExtend, toI32, shl32, Nat.shiftLeft_eq, Int.shiftRight_eq_div_pow]
  split <;> split <;> omega

theorem getITypeImm_arith (IR : Nat) :
    getITypeImm IR = signExtend (IR / 2 ^ 20 % 4096) 12 := by
  simp only [getITypeImm, Nat.shiftRight_eq_div_pow, and_4095]

theorem getSTypeImm_arith (IR : Nat) (h : IR < 4294967296) :
    getSTypeImm IR = signExtend (IR / 2 ^ 25 * 32 + IR / 2 ^ 7 % 32) 12 := by
  have e : (shl32 (IR >>> 25) 5) ||| ((IR >>> 7) &&& 0x1F)
      = IR / 2 ^ 25 * 32 + IR / 2 ^ 7 % 32 := by
    simp only [shl32, Nat.shiftLeft_eq, Nat.shiftRight_eq_div_pow, and_31]
    have h1 : (IR / 2 ^ 25 * 2 ^ 5) % 4294967296 = IR / 2 ^ 25 * 2 ^ 5 := by omega
    rw [h1, or_eq_add _ _ 5 (by omega)]
    omega
  unfold getSTypeImm
  simp only [e]

theorem getBTypeImm_arith (IR : Nat) (h : IR < 4294967296) :
    getBTypeImm IR = signExtend (IR / 2 ^ 31 * 2 ^ 12 + IR / 2 ^ 7 % 2 * 2 ^ 11 +
      IR / 2 ^ 25 % 64 * 2 ^ 5 + IR / 2 ^ 8 % 16 * 2) 13 := by
  have e : (shl32 (IR >>> 31) 12) ||| (shl32 ((IR >>> 7) &&& 0x1) 11) |||
             (shl32 ((IR >>> 25) &&& 0x3F) 5) ||| (shl32 ((IR >>> 8) &&& 0xF) 1)
      = IR / 2 ^ 31 * 2 ^ 12 + IR / 2 ^ 7 % 2 * 2 ^ 11 +
        IR / 2 ^ 25 % 64 * 2 ^ 5 + IR / 2 ^ 8 % 16 * 2 := by
    simp only [shl32, Nat.shiftLeft_eq, Nat.shiftRight_eq_div_pow, and_1, and_63, and_15]
    have h1 : (IR / 2 ^ 31 * 2 ^ 12) % 4294967296 = IR / 2 ^ 31 * 2 ^ 12 := by omega
    have h2 : (IR / 2 ^ 7 % 2 * 2 ^ 11) % 4294967296 = IR / 2 ^ 7 % 2 * 2 ^ 11 := by omega
    have h3 : (IR / 2 ^ 25 % 64 * 2 ^ 5) % 4294967296 = IR / 2 ^ 25 % 64 * 2 ^ 5 := by omega
    have h4 : (IR / 2 ^ 8 % 16 * 2 ^ 1) % 4294967296 = IR / 2 ^ 8 % 16 * 2 ^ 1 := by omega
    rw [h1, h2, h3, h4, Nat.or_assoc, Nat.or_assoc]
    rw [or_eq_add _ _ 5 (by omega), or_eq_add _ _ 11 (by omega), or_eq_add _ _ 12 (by omega)]
    omega
  unfold getBTypeImm
  simp only [e]

theorem getJTypeImm_arith (IR : Nat) (h : IR < 4294967296) :
    getJTypeImm IR = signExtend (IR / 2 ^ 31 * 2 ^ 20 + IR / 2 ^ 12 % 256 * 2 ^ 12 +
      IR / 2 ^ 20 % 2 * 2 ^ 11 + IR / 2 ^ 21 % 1024 * 2) 21 := by
  have e : (shl32 (IR >>> 31) 20) ||| (shl32 ((IR >>> 12) &&& 0xFF) 12) |||
             (shl32 ((IR >>> 20) &&& 0x1) 11) ||| (shl32 ((IR >>> 21) &&& 0x3FF) 1)
      = IR / 2 ^ 31 * 2 ^ 20 + IR / 2 ^ 12 % 256 * 2 ^ 12 +
        IR / 2 ^ 20 % 2 * 2 ^ 11 + IR / 2 ^ 21 % 1024 * 2 := by
    simp only [shl32, Nat.shiftLeft_eq, Nat.shiftRight_eq_div_pow, and_1, and_255, and_1023]
    have h1 : (IR / 2 ^ 31 * 2 ^ 20) % 4294967296 = IR / 2 ^ 31 * 2 ^ 20 := by omega
    have h2 : (IR / 2 ^ 12 % 256 * 2 ^ 12) % 4294967296 = IR / 2 ^ 12 % 256 * 2 ^ 12 := by
      omega
    have h3 : (IR / 2 ^ 20 % 2 * 2 ^ 11) % 4294967296 = IR / 2 ^ 20 % 2 * 2 ^ 11 := by omega
    have h4 : (IR / 2 ^ 21 % 1024 * 2 ^ 1) % 4294967296 = IR / 2 ^ 21 % 1024 * 2 ^ 1 := by
      omega
    rw [h1, h2, h3, h4, Nat.or_assoc, Nat.or_assoc]
    rw [or_eq_add _ _ 11 (by omega), or_eq_add _ _ 12 (by omega), or_eq_add _ _ 20 (by omega)]
    omega
  unfold getJTypeImm
  simp only [e]

/-- Two's complement decomposition of a 13-bit even value into the B-type fields. -/
theorem decompB (imm : Int) (h1 : -4096 ≤ imm) (h2 : imm ≤ 4094) (h3 : imm % 2 = 0) :
    imm = (imm / 2 ^ 1 % 2 ^ 4) * 2 + (imm / 2 ^ 5 % 2 ^ 6) * 32 + (imm / 2 ^ 11 % 2) * 2048
      - (imm / 2 ^ 12 % 2) * 4096 := by
  omega

/-- Two's complement decomposition of a 21-bit even value into the J-type fields. -/
theorem decompJ (imm : Int) (h1 : -(2 ^ 20) ≤ imm) (h2 : imm ≤ 2 ^ 20 - 2)
    (h3 : imm % 2 = 0) :
    imm = (imm / 2 ^ 1 % 2 ^ 10) * 2 + (imm / 2 ^ 11 % 2) * 2048
      + (imm / 2 ^ 12 % 2 ^ 8) * 4096 - (imm / 2 ^ 20 % 2) * 2 ^ 20 := by
  omega

/-! ## Immediate round trips -/

/-- C2. B-type immediate: for every 32-bit word `getBTypeImm` returns an even
value in `[-4096, 4094]`, and when bit 31 of the word is `imm[12]`, bits 30:25
are `imm[10:5]`, bits 11:8 are `imm[4:1]` and bit 7 is `imm[11]` for an even
`imm` in that range (the other bits of the word being arbitrary), the value
returned is exactly `imm`. -/
theorem getBTypeImm_roundtrip (IR : Nat) (hIR : IR < 2 ^ 32) :
    (getBTypeImm IR % 2 = 0 ∧ -4096 ≤ getBTypeImm IR ∧ getBTypeImm IR ≤ 4094) ∧
    ∀ imm : Int, -4096 ≤ imm → imm ≤ 4094 → imm % 2 = 0 →
      ((IR / 2 ^ 31 % 2 : Nat) : Int) = imm / 2 ^ 12 % 2 →
      ((IR / 2 ^ 25 % 2 ^ 6 : Nat) : Int) = imm / 2 ^ 5 % 2 ^ 6 →
      ((IR / 2 ^ 8 % 2 ^ 4 : Nat) : Int) = imm / 2 ^ 1 % 2 ^ 4 →
      ((IR / 2 ^ 7 % 2 : Nat) : Int) = imm / 2 ^ 11 % 2 →
      getBTypeImm IR = imm := by
  have hIR2 : IR < 4294967296 := by omega
  rw [getBTypeImm_arith IR hIR2, signExtend_13 _ (by omega)]
  refine ⟨?_, ?_⟩
  · split <;> omega
  · intro imm h1 h2 h3 h4 h5 h6 h7
    have hd := decompB imm h1 h2 h3
    rw [← h4, ← h5, ← h6, ← h7] at hd
    have ha : IR / 2 ^ 31 % 2 = IR / 2 ^ 31 := by omega
    rw [ha] at hd
    generalize IR / 2 ^ 31 = a at *
    generalize IR / 2 ^ 25 = c at *
    generalize IR / 2 ^ 8 = d at *
    generalize IR / 2 ^ 7 = b at *
    split <;> omega

/-- Witness of C2 on `bne x5, x6, -4` (`0xFE629EE3`). -/
theorem getBTypeImm_roundtrip_witness :
    getBTypeImm 0xFE629EE3 = -4 ∧ getBTypeImm 0xFE629EE3 % 2 = 0 :=
  ⟨(getBTypeImm_roundtrip 0xFE629EE3 (by decide)).2 (-4) (by decide) (by decide) (by decide)
      (by decide) (by decide) (by decide) (by decide),
   (getBTypeImm_roundtrip 0xFE629EE3 (by decide)).1.1⟩

/-- C3. J-type immediate: for every 32-bit word `getJTypeImm` returns an even
value in `[-2^20, 2^20 - 2]`, and when bit 31 of the word is `imm[20]`, bits
30:21 are `imm[10:1]`, bit 20 is `imm[11]` and bits 19:12 are `imm[19:12]` for
an even `imm` in that range (bits 11:0 being arbitrary), the value returned is
exactly `imm`. -/
theorem getJTypeImm_roundtrip (IR : Nat) (hIR : IR < 2 ^ 32) :
    (getJTypeImm IR % 2 = 0 ∧ -(2 ^ 20) ≤ getJTypeImm IR ∧ getJTypeImm IR ≤ 2 ^ 20 - 2) ∧
    ∀ imm : Int, -(2 ^ 20) ≤ imm → imm ≤ 2 ^ 20 - 2 → imm % 2 = 0 →
      ((IR / 2 ^ 31 % 2 : Nat) : Int) = imm / 2 ^ 20 % 2 →
      ((IR / 2 ^ 21 % 2 ^ 10 : Nat) : Int) = imm / 2 ^ 1 % 2 ^ 10 →
      ((IR / 2 ^ 20 % 2 : Nat) : Int) = imm / 2 ^ 11 % 2 →
      ((IR / 2 ^ 12 % 2 ^ 8 : Nat) : Int) = imm / 2 ^ 12 % 2 ^ 8 →
      getJTypeImm IR = imm := by
  have hIR2 : IR < 4294967296 := by omega
  rw [getJTypeImm_arith IR hIR2, signExtend_21 _ (by omega)]
  refine ⟨?_, ?_⟩
  · split <;> omega
  · intro imm h1 h2 h3 h4 h5 h6 h7
    have hd := decompJ imm h1 h2 h3
    rw [← h4, ← h5, ← h6, ← h7] at hd
    have ha : IR / 2 ^ 31 % 2 = IR / 2 ^ 31 := by omega
    rw [ha] at hd
    generalize IR / 2 ^ 31 = a at *
    generalize IR / 2 ^ 21 = c at *
    generalize IR / 2 ^ 20 = d at *
    generalize IR / 2 ^ 12 = b at *
    split <;> omega

/-- Witness of C3 on `jal x1, +8` (`0x008000EF`). -/
theorem getJTypeImm_roundtrip_witness :
    getJTypeImm 0x008000EF = 8 ∧ getJTypeImm 0x008000EF % 2 = 0 :=
  ⟨(getJTypeImm_roundtrip 0x008000EF (by decide)).2 8 (by decide) (by decide) (by decide)
      (by decide) (by decide) (by decide) (by decide),
   (getJTypeImm_roundtrip 0x008000EF (by decide)).1.1⟩

/-- C4. I- and S-type immediates: for every 32-bit word both `getITypeImm` and
`getSTypeImm` return a value in `[-2048, 2047]`; for `imm` in that range,
`getITypeImm` returns `imm` when bits 31:20 of the word hold `imm mod 2^12`,
and `getSTypeImm` returns `imm` when bits 31:25 hold `imm[11:5]` and bits 11:7
hold `imm[4:0]` (the other bits being arbitrary). -/
theorem getITypeImm_getSTypeImm_roundtrip (IR : Nat) (hIR : IR < 2 ^ 32) :
    (-2048 ≤ getITypeImm IR ∧ getITypeImm IR ≤ 2047) ∧
    (-2048 ≤ getSTypeImm IR ∧ getSTypeImm IR ≤ 2047) ∧
    ∀ imm : Int, -2048 ≤ imm → imm ≤ 2047 →
      (((IR / 2 ^ 20 : Nat) : Int) = imm % 2 ^ 12 → getITypeImm IR = imm) ∧
      (((IR / 2 ^ 25 : Nat) : Int) = imm / 2 ^ 5 % 2 ^ 7 →
        ((IR / 2 ^ 7 % 2 ^ 5 : Nat) : Int) = imm % 2 ^ 5 → getSTypeImm IR = imm) := by
  have hIR2 : IR < 4294967296 := by omega
  rw [getITypeImm_arith IR, getSTypeImm_arith IR hIR2, signExtend_12 _ (by omega),
    signExtend_12 _ (by omega)]
  refine ⟨?_, ?_, ?_⟩
  · split <;> omega
  · split <;> omega
  · intro imm h1 h2
    refine ⟨?_, ?_⟩
    · intro h3; split <;> omega
    · intro h3 h4; split <;> omega

/-- Witness of C4 on `addi x6, x5, -3` (`0xFFD28313`) and `sw x5, -3(x8)`
(`0xFE542EA3`). -/
theorem getITypeImm_getSTypeImm_roundtrip_witness :
    getITypeImm 0xFFD28313 = -3 ∧ getSTypeImm 0xFE542EA3 = -3 :=
  ⟨((getITypeImm_getSTypeImm_roundtrip 0xFFD28313 (by decide)).2.2 (-3) (by decide)
      (by decide)).1 (by decide),
   ((getITypeImm_getSTypeImm_roundtrip 0xFE542EA3 (by decide)).2.2 (-3) (by decide)
      (by decide)).2 (by decide) (by decide)⟩

/-! ## One cycle, opcode by opcode -/

/-- The cycle on a fetched word, in terms of the execute step. -/
theorem cycle_fetch (code : Code) (cpu : CPU) (w : Nat) (h : code cpu.PC = some w) :
    cycle code cpu =
      match execute { cpu with IR := w % 4294967296 } with
      | .halt => .halt { cpu with IR := w % 4294967296 }
      | .fatal => .fatal { cpu with IR := w % 4294967296 }
      | .undefined => .undefined { cpu with IR := w % 4294967296 }
      | .next e =>
        .commit (writebackCommit { cpu with IR := w % 4294967296 } e
          (loadStage (w % 4294967296) e.aluResult cpu.memory).1
          (storeStage (w % 4294967296) (loadStage (w % 4294967296) e.aluResult cpu.memory).1
            cpu.regFile (loadStage (w % 4294967296) e.aluResult cpu.memory).2)) := by
  simp only [cycle, h]

/-- Neither memory stage acts unless the opcode is a load or a store. -/
theorem loadStage_other (IR : Nat) (v : Int) (m : Memory) (h : opcodeOf IR ≠ 0x03) :
    loadStage IR v m = (v, m) := by
  simp [loadStage, h]

theorem storeStage_other (IR : Nat) (v : Int) (r : Nat → Int) (m : Memory)
    (h : opcodeOf IR ≠ 0x23) : storeStage IR v r m = m := by
  simp [storeStage, h]

/-- A cycle whose execute step ends in `break` and whose opcode is neither a
load nor a store commits the execute result unchanged. -/
theorem cycle_commit (code : Code) (cpu : CPU) (w : Nat) (e : Exec)
    (h : code cpu.PC = some w)
    (he : execute { cpu with IR := w % 4294967296 } = .next e)
    (h3 : opcodeOf (w % 4294967296) ≠ 0x03) (h23 : opcodeOf (w % 4294967296) ≠ 0x23) :
    cycle code cpu =
      .commit (writebackCommit { cpu with IR := w % 4294967296 } e e.aluResult cpu.memory) := by
  rw [cycle_fetch code cpu w h, he]
  simp only [loadStage_other _ _ _ h3, storeStage_other _ _ _ _ h23]

/-- The `uint32_t` sum `PC + imm` of a `uint32_t` and an `int32_t`, as an integer. -/
theorem add_toU32 (pc : Nat) (x : Int) :
    (((pc + toU32 x) % 4294967296 : Nat) : Int) = ((pc : Int) + x) % 4294967296 := by
  unfold toU32
  omega

theorem toU32_toI32 (n : Nat) : toU32 (toI32 n) = n % 4294967296 := by
  unfold toU32 toI32
  split <;> omega

theorem toI32_toU32 (x : Int) (h1 : -2147483648 ≤ x) (h2 : x < 2147483648) :
    toI32 (toU32 x) = x := by
  unfold toU32 toI32
  split <;> omega

/-! ## Register x0 -/

/-- Writeback never touches `x0`. -/
theorem writebackCommit_x0 (cpu : CPU) (e : Exec) (v : Int) (m : Memory) :
    (writebackCommit cpu e v m).regFile 0 = cpu.regFile 0 := by
  unfold writebackCommit
  by_cases hw : e.writeback = true ∧ rdOf cpu.IR ≠ 0
  · have hne : ¬ (0 = rdOf cpu.IR) := fun h0 => hw.2 h0.symm
    simp [hw, setReg, hne]
  · simp [hw]

/-- Whatever the outcome of a cycle, `x0` holds what it held before. -/
theorem cycle_x0 (code : Code) (cpu : CPU) :
    (cycle code cpu).cpu.regFile 0 = cpu.regFile 0 := by
  unfold cycle
  cases hc : code cpu.PC with
  | none => rfl
  | some w =>
    simp only
    cases he : execute { cpu with IR := w % 4294967296 } with
    | halt => rfl
    | fatal => rfl
    | undefined => rfl
    | next e =>
      simp only [Outcome.cpu]
      rw [writebackCommit_x0]

/-- The initialisation leaves every register but `x2` as it was. -/
theorem initialise_regFile (cpu c : CPU) (st : SymbolTable) (h : initialise cpu st = some c) :
    c.regFile = setReg cpu.regFile 2 (toI32 STACK_BASE) := by
  unfold initialise at h
  cases hi : initializeMemoryFromDataSegments cpu st with
  | none => rw [hi] at h; cases h
  | some c1 =>
    rw [hi] at h
    simp only [Option.some.injEq] at h
    unfold initializeMemoryFromDataSegments at hi
    cases hs : initSegments st.dataSegments cpu.memory with
    | none => rw [hs] at hi; cases hi
    | some m =>
      rw [hs] at hi
      simp only [Option.some.injEq] at hi
      subst hi
      subst h
      rfl

/-- C1. Register `x0` stays zero: a cycle of `simulate` started with
`regFile[0] = 0` ends, whatever word is fetched and however the cycle ends,
with `regFile[0] = 0`; hence `regFile[0] = 0` in every state reachable from
the initial CPU. -/
theorem x0_stays_zero (code : Code) :
    (∀ cpu : CPU, cpu.regFile 0 = 0 → (cycle code cpu).cpu.regFile 0 = 0) ∧
    (∀ (symbolTable : SymbolTable) (c : CPU), Reachable code symbolTable c →
      c.regFile 0 = 0) := by
  refine ⟨fun cpu h => by rw [cycle_x0, h], ?_⟩
  intro st c hr
  induction hr with
  | init c h =>
    rw [initialise_regFile _ _ _ h]
    rfl
  | step c _ ih => rw [cycle_x0, ih]

/-- Witness of C1: `addi x0, x0, 5` (`0x00500013`, `rd = 0`) fetched at `PC = 0`. -/
theorem x0_stays_zero_witness :
    rdOf 0x00500013 = 0 ∧
    (cycle (fun a => if a = 0 then some 0x00500013 else none) initialCPU).cpu.regFile 0 = 0 ∧
    (cycle (fun a => if a = 0 then some 0x00500013 else none)
      { initialCPU with regFile := setReg initialCPU.regFile 2 (toI32 STACK_BASE)
                        memory := zeroStack STACK_END initialCPU.memory }).cpu.regFile 0 = 0 :=
  ⟨by decide,
   (x0_stays_zero _).1 initialCPU rfl,
   (x0_stays_zero _).2 noData _ (Reachable.step _ (Reachable.init _ rfl))⟩

/-! ## Branches -/

/-- The execute step on a word with opcode `0x63`. -/
theorem execute_branch (cpu : CPU) (h : opcodeOf cpu.IR = 0x63) :
    execute cpu = .next
      ⟨0, execBranch (funct3Of cpu.IR) (cpu.regFile (rs1Of cpu.IR)) (cpu.regFile (rs2Of cpu.IR)),
        if execBranch (funct3Of cpu.IR) (cpu.regFile (rs1Of cpu.IR)) (cpu.regFile (rs2Of cpu.IR))
        then (cpu.PC + toU32 (getBTypeImm cpu.IR)) % 4294967296
        else (cpu.PC + 4) % 4294967296, false⟩ := by
  simp [execute, h, decodeImm]

/-- C5. Branch resolution: on a fetched word with opcode `0x63` and `funct3` one
of 0, 1, 4, 5, 6, 7 the branch is taken exactly when the comparison of
`reg[rs1]` and `reg[rs2]` selected by `funct3` holds (signed for blt/bge,
unsigned for bltu/bgeu); the cycle commits with `PC + getBTypeImm(IR)` modulo
`2^32` if taken and `PC + 4` otherwise, and the register file and the memory
are unchanged. The loop `addi x5,x5,1; bne x5,x6,-4` started with `x6 = 3`
is left after three iterations (six cycles) with `x5 = 3` and `PC = 8`. -/
theorem branch_resolution :
    (∀ (code : Code) (cpu : CPU) (w : Nat), code cpu.PC = some w →
      opcodeOf (w % 4294967296) = 0x63 →
      funct3Of (w % 4294967296) ∈ [0, 1, 4, 5, 6, 7] →
      ∃ (e : Exec) (c : CPU),
        execute { cpu with IR := w % 4294967296 } = .next e ∧
        cycle code cpu = .commit c ∧
        (e.branchTaken = true ↔
          (funct3Of (w % 4294967296) = 0 ∧
            cpu.regFile (rs1Of (w % 4294967296)) = cpu.regFile (rs2Of (w % 4294967296))) ∨
          (funct3Of (w % 4294967296) = 1 ∧
            cpu.regFile (rs1Of (w % 4294967296)) ≠ cpu.regFile (rs2Of (w % 4294967296))) ∨
          (funct3Of (w % 4294967296) = 4 ∧
            cpu.regFile (rs1Of (w % 4294967296)) < cpu.regFile (rs2Of (w % 4294967296))) ∨
          (funct3Of (w % 4294967296) = 5 ∧
            cpu.regFile (rs2Of (w % 4294967296)) ≤ cpu.regFile (rs1Of (w % 4294967296))) ∨
          (funct3Of (w % 4294967296) = 6 ∧
            toU32 (cpu.regFile (rs1Of (w % 4294967296))) <
              toU32 (cpu.regFile (rs2Of (w % 4294967296)))) ∨
          (funct3Of (w % 4294967296) = 7 ∧
            toU32 (cpu.regFile (rs2Of (w % 4294967296))) ≤
              toU32 (cpu.regFile (rs1Of (w % 4294967296))))) ∧
        (e.branchTaken = true →
          (c.PC : Int) = ((cpu.PC : Int) + getBTypeImm (w % 4294967296)) % 4294967296) ∧
        (e.branchTaken = false → c.PC = (cpu.PC + 4) % 4294967296) ∧
        c.regFile = cpu.regFile ∧ c.memory = cpu.memory) ∧
    (∃ c : CPU, runLoop 7 loopCode loopStart = some (.noInstruction c) ∧
      c.regFile 5 = 3 ∧ c.PC = 8 ∧ c.clock = 6) := by
  refine ⟨?_, ?_⟩
  · intro code cpu w hf hop hf3
    have he := execute_branch { cpu with IR := w % 4294967296 } hop
    refine ⟨_, _, he, cycle_commit code cpu w _ hf he (by rw [hop]; decide)
      (by rw [hop]; decide), ?_, ?_, ?_, ?_, ?_⟩
    · simp only [List.mem_cons, List.mem_singleton, List.not_mem_nil, or_false] at hf3
      rcases hf3 with h | h | h | h | h | h <;> simp [execBranch, h]
    · intro ht
      simp only at ht
      simp only [writebackCommit, ht, if_true]
      exact add_toU32 _ _
    · intro ht
      simp only at ht
      simp [writebackCommit, ht]
    · simp [writebackCommit]
    · simp [writebackCommit]
  · exact ⟨_, rfl, rfl, rfl, rfl⟩

/-- Witness of C5: `bne x5, x6, -4` fetched at `PC = 4` with `x5 = 1`, `x6 = 3`
is taken and commits with `PC = 0`. -/
theorem branch_resolution_witness :
    ∃ (e : Exec) (c : CPU),
      execute { ({ loopStart with PC := 4, regFile := setReg loopStart.regFile 5 1 } : CPU)
        with IR := 0xFE629EE3 % 4294967296 } = .next e ∧
      cycle loopCode { loopStart with PC := 4, regFile := setReg loopStart.regFile 5 1 }
        = .commit c ∧
      e.branchTaken = true ∧ c.PC = 0 := by
  obtain ⟨e, c, he, hc, hiff, ht, -, -, -⟩ :=
    branch_resolution.1 loopCode
      { loopStart with PC := 4, regFile := setReg loopStart.regFile 5 1 } 0xFE629EE3
      (by rfl) (by decide) (by decide)
  have hb : e.branchTaken = true := by
    rw [hiff]
    right; left
    exact ⟨by decide, by decide⟩
  refine ⟨e, c, he, hc, hb, ?_⟩
  have h := ht hb
  have h4 : getBTypeImm (0xFE629EE3 % 4294967296) = -4 := by decide
  rw [h4] at h
  have h5 : (({ loopStart with PC := 4, regFile := setReg loopStart.regFile 5 1 } : CPU).PC
      : Int) = 4 := rfl
  rw [h5] at h
  omega

/-! ## R-type arithmetic -/

/-- The execute step on a word with opcode `0x33`. -/
theorem execute_R (cpu : CPU) (h : opcodeOf cpu.IR = 0x33) :
    execute cpu =
      match execR (funct7Of cpu.IR) (funct3Of cpu.IR) (cpu.regFile (rs1Of cpu.IR))
          (cpu.regFile (rs2Of cpu.IR)) with
      | none => .undefined
      | some v => .next ⟨v, false, (cpu.PC + 4) % 4294967296, true⟩ := by
  simp [execute, h]

/-- C6 (the code at the failing input). `sra x7, x5, x6` has opcode `0x33`,
`funct7 = 0x20`, `funct3 = 5`; fetched with `x5 = -8` and `x6 = 1` the cycle
commits and writes `0` to `x7`, whereas the arithmetic shift of `-8` by
`1 & 31` is `-4`: the `funct7 == 0x20` test for SRA sits inside the
`funct7 == 0x00` branch and is never reached. -/
theorem sra_writes_zero :
    opcodeOf 0x4062D3B3 = 0x33 ∧ funct7Of 0x4062D3B3 = 0x20 ∧ funct3Of 0x4062D3B3 = 5 ∧
    rdOf 0x4062D3B3 = 7 ∧ rs1Of 0x4062D3B3 = 5 ∧ rs2Of 0x4062D3B3 = 6 ∧
    sraStart.regFile 5 = -8 ∧ sraStart.regFile 6 = 1 ∧
    (sraStart.regFile 5) >>> (toU32 (sraStart.regFile 6) &&& 31) = -4 ∧
    ∃ c : CPU, cycle sraCode sraStart = .commit c ∧ c.regFile 7 = 0 := by
  refine ⟨by decide, by decide, by decide, by decide, by decide, by decide, rfl, rfl,
    by decide, _, rfl, rfl⟩

/-- C7. Division by zero: on a fetched word with opcode `0x33`, `funct7 = 0x01`
and `rd ≠ 0`, executed with `reg[rs2] = 0`, the cycle commits with `PC + 4` and
`clock + 1` (32-bit counters); `div` (`funct3 = 4`) writes `-1` to `reg[rd]`
and `rem` (`funct3 = 6`) writes the value `reg[rs1]` had before the cycle. -/
theorem div_rem_by_zero (code : Code) (cpu : CPU) (w : Nat)
    (hf : code cpu.PC = some w)
    (hop : opcodeOf (w % 4294967296) = 0x33)
    (hf7 : funct7Of (w % 4294967296) = 0x01)
    (hrd : rdOf (w % 4294967296) ≠ 0)
    (hz : cpu.regFile (rs2Of (w % 4294967296)) = 0) :
    ∃ c : CPU, cycle code cpu = .commit c ∧
      c.PC = (cpu.PC + 4) % 4294967296 ∧ c.clock = (cpu.clock + 1) % 4294967296 ∧
      (funct3Of (w % 4294967296) = 4 → c.regFile (rdOf (w % 4294967296)) = -1) ∧
      (funct3Of (w % 4294967296) = 6 →
        c.regFile (rdOf (w % 4294967296)) = cpu.regFile (rs1Of (w % 4294967296))) := by
  have he := execute_R { cpu with IR := w % 4294967296 } hop
  simp only [hf7, hz] at he
  by_cases h4 : funct3Of (w % 4294967296) = 4
  · simp [execR, h4] at he
    refine ⟨_, cycle_commit code cpu w _ hf he (by rw [hop]; decide) (by rw [hop]; decide),
      rfl, rfl, ?_, ?_⟩
    · intro _
      simp [writebackCommit, setReg, hrd]
    · intro h6
      rw [h4] at h6
      exact absurd h6 (by decide)
  · by_cases h6 : funct3Of (w % 4294967296) = 6
    · simp [execR, h6] at he
      refine ⟨_, cycle_commit code cpu w _ hf he (by rw [hop]; decide) (by rw [hop]; decide),
        rfl, rfl, ?_, ?_⟩
      · intro h; exact absurd h h4
      · intro _
        simp [writebackCommit, setReg, hrd]
    · by_cases h0 : funct3Of (w % 4294967296) = 0
      · simp [execR, h0] at he
        exact ⟨_, cycle_commit code cpu w _ hf he (by rw [hop]; decide) (by rw [hop]; decide),
          rfl, rfl, fun h => absurd h h4, fun h => absurd h h6⟩
      · simp [execR, h0, h4, h6] at he
        exact ⟨_, cycle_commit code cpu w _ hf he (by rw [hop]; decide) (by rw [hop]; decide),
          rfl, rfl, fun h => absurd h h4, fun h => absurd h h6⟩

/-- Witness of C7: `div x5, x10, x11` and `rem x6, x10, x11` with `x10 = 42`,
`x11 = 0` write `-1` to `x5` and `42` to `x6`. -/
theorem div_rem_by_zero_witness :
    (∃ c : CPU, cycle divRemCode divRemStart = .commit c ∧
      c.PC = 4 ∧ c.clock = 1 ∧ c.regFile 5 = -1) ∧
    (∃ c : CPU, cycle divRemCode { divRemStart with PC := 4 } = .commit c ∧
      c.PC = 8 ∧ c.clock = 1 ∧ c.regFile 6 = 42) := by
  constructor
  · obtain ⟨c, hc, hpc, hck, hd, -⟩ :=
      div_rem_by_zero divRemCode divRemStart 0x02B542B3 rfl (by decide) (by decide)
        (by decide) rfl
    exact ⟨c, hc, hpc, hck, hd (by decide)⟩
  · obtain ⟨c, hc, hpc, hck, -, hr⟩ :=
      div_rem_by_zero divRemCode { divRemStart with PC := 4 } 0x02B56333 rfl (by decide)
        (by decide) (by decide) rfl
    exact ⟨c, hc, hpc, hck, hr (by decide)⟩

/-! ## End-to-end scenario 1 -/

/-- The run of scenario 1: the third cycle fetches the halt word and returns. -/
theorem scenario1_run (n : Nat) :
    ∃ c : CPU, simulate (n + 3) scenario1Code initialCPU noData = some (.halt c) ∧
      c.regFile 5 = 7 ∧ c.regFile 6 = 4 ∧ c.PC = 8 ∧ c.clock = 2 :=
  ⟨_, rfl, rfl, rfl, rfl, rfl⟩

/-- C8 (as amended). Scenario 1 run by `simulate` from the CPU of
`sim_main.cpp` with no data: for every number of loop iterations allowed from
three on, the run ends in the halt with `x5 = 7`, `x6 = 4`, `PC = 8` and
`clock = 2`; the cycle that fetches the halt word returns before the commit
and is not counted. -/
theorem scenario1_halts (n : Nat) :
    ∃ c : CPU, simulate (n + 3) scenario1Code initialCPU noData = some (.halt c) ∧
      c.regFile 5 = 7 ∧ c.regFile 6 = 4 ∧ c.PC = 8 ∧ c.clock = 2 :=
  scenario1_run n

/-- C8 (counterexample). No run of scenario 1 ends with `x5 = 7`, `x6 = 4` and
`clock = 3`, however many loop iterations are allowed. -/
theorem scenario1_clock_not_three :
    ¬ ∃ (fuel : Nat) (o : Outcome),
      simulate fuel scenario1Code initialCPU noData = some o ∧
      o.cpu.regFile 5 = 7 ∧ o.cpu.regFile 6 = 4 ∧ o.cpu.clock = 3 := by
  rintro ⟨fuel, o, hs, -, -, hc⟩
  rcases fuel with _ | _ | _ | n
  · have h0 : simulate 0 scenario1Code initialCPU noData = none := rfl
    rw [h0] at hs; cases hs
  · have h1 : simulate 1 scenario1Code initialCPU noData = none := rfl
    rw [h1] at hs; cases hs
  · have h2 : simulate 2 scenario1Code initialCPU noData = none := rfl
    rw [h2] at hs; cases hs
  · obtain ⟨c, h3, -, -, -, hck⟩ := scenario1_run n
    rw [h3] at hs
    cases hs
    simp only [Outcome.cpu] at hc
    omega

/-! ## Jumps -/

/-- The execute step on a word with opcode `0x6F`. -/
theorem execute_jal (cpu : CPU) (h : opcodeOf cpu.IR = 0x6F) :
    execute cpu = .next ⟨toI32 ((cpu.PC + 4) % 4294967296), false,
      (cpu.PC + toU32 (getJTypeImm cpu.IR)) % 4294967296, true⟩ := by
  simp [execute, h, decodeImm]

/-- The execute step on a word with opcode `0x67`. -/
theorem execute_jalr (cpu : CPU) (h : opcodeOf cpu.IR = 0x67) :
    execute cpu = .next ⟨toI32 ((cpu.PC + 4) % 4294967296), false,
      toU32 (cpu.regFile (rs1Of cpu.IR) + getITypeImm cpu.IR) &&& 0xFFFFFFFE, true⟩ := by
  simp [execute, h, decodeImm]

/-- Masking a 32-bit value with `~1` clears bit 0. -/
theorem and_clear_bit0 (n : Nat) (h : n < 4294967296) : n &&& 0xFFFFFFFE = n - n % 2 := by
  apply Nat.eq_of_testBit_eq
  intro i
  have e1 : (0xFFFFFFFE : Nat) = 2 ^ 32 - (1 + 1) := by norm_num
  have e2 : n - n % 2 = 2 ^ 1 * (n / 2) := by omega
  rw [e1, e2, Nat.testBit_and, Nat.testBit_two_pow_sub_succ (by norm_num),
    Nat.testBit_mul_pow_two]
  rcases i with _ | i
  · simp
  · have hb : n.testBit (i + 1) = true → i + 1 < 32 := by
      intro hb
      by_contra hge
      have := Nat.testBit_implies_ge hb
      have : 2 ^ 32 ≤ 2 ^ (i + 1) := Nat.pow_le_pow_right (by norm_num) (by omega)
      omega
    have e3 : (n / 2).testBit (i + 1 - 1) = n.testBit (i + 1) := by
      rw [Nat.add_sub_cancel, Nat.testBit_div_two]
    rw [e3]
    have e4 : Nat.testBit 1 (i + 1) = false := by
      rw [Nat.testBit_to_div_mod]
      have : 1 / 2 ^ (i + 1) = 0 := Nat.div_eq_of_lt (Nat.one_lt_two_pow (by omega))
      simp [this]
    by_cases hn : n.testBit (i + 1) = true
    · have := hb hn
      simp [hn, this, e4]
    · simp [hn]

/-- The run of scenario 4: the jump skips `addi x7, x0, 99`. -/
theorem scenario4_run (n : Nat) :
    ∃ c : CPU, simulate (n + 3) scenario4Code initialCPU noData = some (.halt c) ∧
      c.regFile 7 = 42 ∧ c.regFile 1 = 4 :=
  ⟨_, rfl, rfl, rfl⟩

/-- C9. `jal`: on a fetched word with opcode `0x6F` the cycle commits with
`PC + getJTypeImm(IR)` modulo `2^32`; when `rd ≠ 0`, `reg[rd]` becomes `PC + 4`
(the 32-bit pattern of `PC + 4`, read as a signed register); no other
register and no memory word changes. Scenario 4 (`jal x1, +8`; `addi x7, x0, 99`;
`addi x7, x0, 42`; halt) ends in the halt with `x7 = 42` and `x1 = 4`. -/
theorem jal_cycle :
    (∀ (code : Code) (cpu : CPU) (w : Nat), code cpu.PC = some w →
      opcodeOf (w % 4294967296) = 0x6F →
      ∃ c : CPU, cycle code cpu = .commit c ∧
        (c.PC : Int) = ((cpu.PC : Int) + getJTypeImm (w % 4294967296)) % 4294967296 ∧
        (rdOf (w % 4294967296) ≠ 0 →
          c.regFile (rdOf (w % 4294967296)) = toI32 ((cpu.PC + 4) % 4294967296) ∧
          toU32 (c.regFile (rdOf (w % 4294967296))) = (cpu.PC + 4) % 4294967296) ∧
        (∀ i : Nat, i ≠ rdOf (w % 4294967296) → c.regFile i = cpu.regFile i) ∧
        (rdOf (w % 4294967296) = 0 → c.regFile = cpu.regFile) ∧
        c.memory = cpu.memory) ∧
    (∀ n : Nat, ∃ c : CPU,
      simulate (n + 3) scenario4Code initialCPU noData = some (.halt c) ∧
      c.regFile 7 = 42 ∧ c.regFile 1 = 4) := by
  refine ⟨?_, scenario4_run⟩
  intro code cpu w hf hop
  have he := execute_jal { cpu with IR := w % 4294967296 } hop
  refine ⟨_, cycle_commit code cpu w _ hf he (by rw [hop]; decide) (by rw [hop]; decide),
    add_toU32 _ _, ?_, ?_, ?_, rfl⟩
  · intro hrd
    have e : (writebackCommit { cpu with IR := w % 4294967296 }
        ⟨toI32 ((cpu.PC + 4) % 4294967296), false,
          (cpu.PC + toU32 (getJTypeImm (w % 4294967296))) % 4294967296, true⟩
        (toI32 ((cpu.PC + 4) % 4294967296)) cpu.memory).regFile (rdOf (w % 4294967296))
        = toI32 ((cpu.PC + 4) % 4294967296) := by
      simp [writebackCommit, setReg, hrd]
    refine ⟨e, ?_⟩
    rw [e, toU32_toI32]
    omega
  · intro i hi
    by_cases hrd : rdOf (w % 4294967296) = 0
    · simp [writebackCommit, hrd]
    · simp [writebackCommit, setReg, hrd, hi]
  · intro hrd
    simp [writebackCommit, hrd]

/-- Witness of C9: `jal x1, +8` fetched at `PC = 0` by the CPU of `sim_main.cpp`. -/
theorem jal_cycle_witness :
    ∃ c : CPU, cycle scenario4Code initialCPU = .commit c ∧ c.PC = 8 ∧ c.regFile 1 = 4 := by
  obtain ⟨c, hc, hpc, hrd, -, -, -⟩ :=
    jal_cycle.1 scenario4Code initialCPU 0x008000EF rfl (by decide)
  refine ⟨c, hc, ?_, ?_⟩
  · have h8 : getJTypeImm (0x008000EF % 4294967296) = 8 := by decide
    have h0 : (initialCPU.PC : Int) = 0 := rfl
    rw [h8, h0] at hpc
    omega
  · have h := (hrd (by decide)).1
    have h1 : rdOf (0x008000EF % 4294967296) = 1 := by decide
    rw [h1] at h
    rw [h]
    decide

/-- C10. `jalr`: on a fetched word with opcode `0x67` the cycle commits with
`(reg[rs1] + getITypeImm(IR)) mod 2^32` with bit 0 cleared, `reg[rs1]` being the
value before the cycle (also when `rd = rs1`); when `rd ≠ 0`, `reg[rd]`
becomes `PC + 4` (the 32-bit pattern of `PC + 4`, read as a signed register). -/
theorem jalr_cycle (code : Code) (cpu : CPU) (w : Nat) (hf : code cpu.PC = some w)
    (hop : opcodeOf (w % 4294967296) = 0x67) :
    ∃ c : CPU, cycle code cpu = .commit c ∧
      (c.PC : Int) =
        (cpu.regFile (rs1Of (w % 4294967296)) + getITypeImm (w % 4294967296)) % 4294967296
        - (cpu.regFile (rs1Of (w % 4294967296)) + getITypeImm (w % 4294967296)) % 4294967296 % 2 ∧
      (rdOf (w % 4294967296) ≠ 0 →
        c.regFile (rdOf (w % 4294967296)) = toI32 ((cpu.PC + 4) % 4294967296) ∧
        toU32 (c.regFile (rdOf (w % 4294967296))) = (cpu.PC + 4) % 4294967296) := by
  have he := execute_jalr { cpu with IR := w % 4294967296 } hop
  refine ⟨_, cycle_commit code cpu w _ hf he (by rw [hop]; decide) (by rw [hop]; decide),
    ?_, ?_⟩
  · simp only [writebackCommit]
    rw [and_clear_bit0 _ (by unfold toU32; omega)]
    unfold toU32
    omega
  · intro hrd
    have e : (writebackCommit { cpu with IR := w % 4294967296 }
        ⟨toI32 ((cpu.PC + 4) % 4294967296), false,
          toU32 (cpu.regFile (rs1Of (w % 4294967296)) + getITypeImm (w % 4294967296))
            &&& 0xFFFFFFFE, true⟩
        (toI32 ((cpu.PC + 4) % 4294967296)) cpu.memory).regFile (rdOf (w % 4294967296))
        = toI32 ((cpu.PC + 4) % 4294967296) := by
      simp [writebackCommit, setReg, hrd]
    refine ⟨e, ?_⟩
    rw [e, toU32_toI32]
    omega

/-- Witness of C10 with `rd = rs1`: `jalr x1, 5(x1)` fetched at `PC = 8` with
`x1 = 16` jumps to `20 = (16 + 5) & ~1` and leaves `12` in `x1`. -/
theorem jalr_cycle_witness :
    rdOf 0x005080E7 = rs1Of 0x005080E7 ∧
    ∃ c : CPU, cycle jalrCode jalrStart = .commit c ∧ c.PC = 20 ∧ c.regFile 1 = 12 := by
  refine ⟨by decide, ?_⟩
  obtain ⟨c, hc, hpc, hrd⟩ := jalr_cycle jalrCode jalrStart 0x005080E7 rfl (by decide)
  refine ⟨c, hc, ?_, ?_⟩
  · have h5 : getITypeImm (0x005080E7 % 4294967296) = 5 := by decide
    have h16 : jalrStart.regFile (rs1Of (0x005080E7 % 4294967296)) = 16 := by decide
    rw [h5, h16] at hpc
    omega
  · have h := (hrd (by decide)).1
    have h1 : rdOf (0x005080E7 % 4294967296) = 1 := by decide
    rw [h1] at h
    rw [h]
    decide

/-! ## Unknown opcodes -/

/-- C14. Unknown opcode: when the low seven bits of the fetched word are none
of `0x33, 0x13, 0x03, 0x23, 0x63, 0x37, 0x17, 0x6F, 0x67, 0x7F`, the cycle ends
in the fatal `return` with the CPU it started from except for `IR`, which
holds the fetched word (register file, memory, `PC` and `clock` unchanged),
and the loop of `simulate` stops in that cycle. -/
theorem unknown_opcode_fatal (code : Code) (cpu : CPU) (w : Nat)
    (hf : code cpu.PC = some w)
    (hop : opcodeOf (w % 4294967296) ∉ [0x33, 0x13, 0x03, 0x23, 0x63, 0x37, 0x17, 0x6F, 0x67, 0x7F]) :
    cycle code cpu = .fatal { cpu with IR := w % 4294967296 } ∧
    (∀ fuel : Nat, runLoop (fuel + 1) code cpu = some (.fatal { cpu with IR := w % 4294967296 })) ∧
    (cycle code cpu).cpu.regFile = cpu.regFile ∧
    (cycle code cpu).cpu.memory = cpu.memory ∧
    (cycle code cpu).cpu.PC = cpu.PC ∧
    (cycle code cpu).cpu.clock = cpu.clock ∧
    (cycle code cpu).cpu.IR = w % 4294967296 := by
  simp only [List.mem_cons, List.mem_singleton, List.not_mem_nil, or_false, not_or] at hop
  obtain ⟨h1, h2, h3, h4, h5, h6, h7, h8, h9, h10⟩ := hop
  have he : execute { cpu with IR := w % 4294967296 } = .fatal := by
    simp [execute, h1, h2, h3, h4, h5, h6, h7, h8, h9, h10]
  have hc : cycle code cpu = .fatal { cpu with IR := w % 4294967296 } := by
    rw [cycle_fetch code cpu w hf, he]
  refine ⟨hc, ?_, ?_, ?_, ?_, ?_, ?_⟩
  · intro fuel
    simp only [runLoop, hc]
  all_goals rw [hc]; rfl

/-- Witness of C14: the word `0x0000000B` fetched by the CPU of `sim_main.cpp`. -/
theorem unknown_opcode_fatal_witness :
    cycle unknownCode initialCPU = .fatal { initialCPU with IR := 0x0000000B } ∧
    runLoop 1 unknownCode initialCPU = some (.fatal { initialCPU with IR := 0x0000000B }) :=
  ⟨(unknown_opcode_fatal unknownCode initialCPU 0x0000000B rfl (by decide)).1,
   (unknown_opcode_fatal unknownCode initialCPU 0x0000000B rfl (by decide)).2.1 0⟩

/-! ## The stack-zeroing loop -/

/-- The loop entered `k` iterations before `STACK_BASE` writes `0` under the
`k` keys `addr, addr + 4, ..` and nothing else. -/
theorem zeroStack_spec (k : Nat) : ∀ (addr : Nat) (m : Memory), addr + 4 * k = STACK_BASE →
    zeroStack addr m =
      fun a => if addr ≤ a ∧ a < STACK_BASE ∧ (a - addr) % 4 = 0 then some 0 else m a := by
  induction k with
  | zero =>
    intro addr m h
    rw [zeroStack]
    have hn : ¬ addr < STACK_BASE := by omega
    rw [if_neg hn]
    funext a
    have hc : ¬ (addr ≤ a ∧ a < STACK_BASE ∧ (a - addr) % 4 = 0) := by omega
    rw [if_neg hc]
  | succ k ih =>
    intro addr m h
    have hlt : addr < STACK_BASE := by omega
    have hsb : STACK_BASE = 2147483648 := rfl
    have hmod : (addr + 4) % 4294967296 = addr + 4 := by omega
    rw [zeroStack, if_pos hlt, hmod, ih (addr + 4) _ (by omega)]
    funext a
    unfold memSet
    by_cases h1 : addr + 4 ≤ a ∧ a < STACK_BASE ∧ (a - (addr + 4)) % 4 = 0
    · have h2 : addr ≤ a ∧ a < STACK_BASE ∧ (a - addr) % 4 = 0 := by omega
      rw [if_pos h1, if_pos h2]
    · rw [if_neg h1]
      by_cases h3 : a = addr
      · have h2 : addr ≤ a ∧ a < STACK_BASE ∧ (a - addr) % 4 = 0 := by omega
        rw [if_pos h3, if_pos h2]
      · have h2 : ¬ (addr ≤ a ∧ a < STACK_BASE ∧ (a - addr) % 4 = 0) := by omega
        rw [if_neg h3, if_neg h2]

/-- The loop entered `k` iterations before `STACK_BASE` runs its body `k` times. -/
theorem zeroStackSteps_spec (k : Nat) : ∀ addr : Nat, addr + 4 * k = STACK_BASE →
    zeroStackSteps addr = k := by
  induction k with
  | zero =>
    intro addr h
    rw [zeroStackSteps]
    have hn : ¬ addr < STACK_BASE := by omega
    rw [if_neg hn]
  | succ k ih =>
    intro addr h
    have hlt : addr < STACK_BASE := by omega
    have hsb : STACK_BASE = 2147483648 := rfl
    have hmod : (addr + 4) % 4294967296 = addr + 4 := by omega
    rw [zeroStackSteps, if_pos hlt, hmod, ih (addr + 4) (by omega)]

/-- The memory left by the stack-zeroing loop of `simulate`. -/
theorem zeroStack_STACK_END (m : Memory) :
    zeroStack STACK_END m =
      fun a => if 0x7FF00000 ≤ a ∧ a < 0x80000000 ∧ a % 4 = 0 then some 0 else m a := by
  rw [zeroStack_spec 262144 STACK_END m (by decide)]
  funext a
  have he : STACK_END = 2146435072 := by decide
  have hb : STACK_BASE = 2147483648 := rfl
  rw [he, hb]
  by_cases h : 2146435072 ≤ a ∧ a < 2147483648 ∧ (a - 2146435072) % 4 = 0
  · rw [if_pos h, if_pos (by omega)]
  · rw [if_neg h, if_neg (by omega)]

/-- The result of the part of `simulate` before the loop, once the data
segments are loaded. -/
theorem initialise_eq (cpu cpu1 : CPU) (st : SymbolTable)
    (h : initializeMemoryFromDataSegments cpu st = some cpu1) :
    initialise cpu st = some { cpu1 with
      regFile := setReg cpu1.regFile 2 (toI32 STACK_BASE)
      memory := zeroStack STACK_END cpu1.memory } := by
  simp only [initialise, h]

/-- The zeroing loop with its counter: the memory is the one `zeroStack`
leaves, and a loop entered `k` iterations before `STACK_BASE` increments the
counter `k` times. -/
theorem zeroStackCount_spec (k : Nat) : ∀ (addr : Nat) (m : Memory) (n : Nat),
    addr + 4 * k = STACK_BASE → zeroStackCount addr m n = (zeroStack addr m, n + k) := by
  induction k with
  | zero =>
    intro addr m n h
    have hn : ¬ addr < STACK_BASE := by omega
    rw [zeroStackCount, zeroStack, if_neg hn, if_neg hn]
    rfl
  | succ k ih =>
    intro addr m n h
    have hlt : addr < STACK_BASE := by omega
    have hsb : STACK_BASE = 2147483648 := rfl
    have hmod : (addr + 4) % 4294967296 = addr + 4 := by omega
    rw [zeroStackCount, zeroStack, if_pos hlt, if_pos hlt, hmod, ih (addr + 4) _ _ (by omega)]
    congr 1
    omega

/-- The zeroing loop of `simulate`: it runs its body `2^18` times. -/
theorem zeroStackCount_STACK_END (m : Memory) :
    zeroStackCount STACK_END m 0 = (zeroStack STACK_END m, 262144) := by
  rw [zeroStackCount_spec 262144 STACK_END m 0 (by decide)]

/-- Where every shift of the data initialisation has a defined value, a build
leaves the memory that value determines. -/
theorem initEntryFromWith_eq (shr : Int → Nat → Int) (value : Int) (addr : Nat) (n : Nat) :
    ∀ (i : Nat) (m m1 : Memory), initEntryFrom value addr n i m = some m1 →
      initEntryFromWith shr value addr n i m = m1 := by
  induction n with
  | zero =>
    intro i m m1 h
    simp only [initEntryFrom, Option.some.injEq] at h
    simp only [initEntryFromWith, h]
  | succ n ih =>
    intro i m m1 h
    simp only [initEntryFrom] at h
    by_cases hs : (8 * i) % 4294967296 < 32
    · rw [if_pos hs] at h
      simp only [initEntryFromWith, if_pos hs]
      exact ih _ _ _ h
    · rw [if_neg hs] at h
      cases h

theorem initEntriesWith_eq (shr : Int → Nat → Int) (l : List DataEntry) :
    ∀ (addr : Nat) (m m1 : Memory), initEntries l addr m = some m1 →
      initEntriesWith shr l addr m = m1 := by
  induction l with
  | nil =>
    intro addr m m1 h
    simp only [initEntries, Option.some.injEq] at h
    simp only [initEntriesWith, h]
  | cons e l ih =>
    intro addr m m1 h
    simp only [initEntries] at h
    cases he : initEntryFrom e.value addr e.size 0 m with
    | none => rw [he] at h; cases h
    | some m2 =>
      rw [he] at h
      simp only [initEntriesWith, initEntryFromWith_eq shr _ _ _ _ _ _ he]
      exact ih _ _ _ h

theorem initSegmentsWith_eq (shr : Int → Nat → Int) (segs : List DataSegment) :
    ∀ (m m1 : Memory), initSegments segs m = some m1 → initSegmentsWith shr segs m = m1 := by
  induction segs with
  | nil =>
    intro m m1 h
    simp only [initSegments, Option.some.injEq] at h
    simp only [initSegmentsWith, h]
  | cons seg rest ih =>
    intro m m1 h
    simp only [initSegments] at h
    cases he : initEntries seg.contents seg.startAddress m with
    | none => rw [he] at h; cases h
    | some m2 =>
      rw [he] at h
      simp only [initSegmentsWith, initEntriesWith_eq shr _ _ _ _ he]
      exact ih _ _ h

/-- Where the initialisation has a defined result, every build ends in it. -/
theorem initialiseWith_eq (shr : Int → Nat → Int) (cpu c : CPU) (st : SymbolTable)
    (h : initialise cpu st = some c) : initialiseWith shr cpu st = c := by
  unfold initialise initializeMemoryFromDataSegments at h
  cases hs : initSegments st.dataSegments cpu.memory with
  | none => rw [hs] at h; cases h
  | some m =>
    rw [hs] at h
    simp only [Option.some.injEq] at h
    subst h
    simp only [initialiseWith, initializeMemoryWith, initSegmentsWith_eq shr _ _ _ hs,
      zeroStackCount_STACK_END]

/-- C13. Stack initialisation: for every CPU state and every symbol table
passed to `simulate`, and whatever value the build gives to the undefined
shifts of the data initialisation, the initialisation that precedes the first
fetch ends in a state whose memory reads `0` at every address `a` with
`0x7FF00000 ≤ a < 0x80000000` and `a mod 4 = 0` and holds every other key as
the data initialisation left it, and whose `regFile[2]` is `-2^31`, the signed
reading of the pattern `0x80000000`, the other registers being unchanged; the
zeroing loop that leaves this memory terminates after exactly `2^18`
executions of its body. Where the data initialisation evaluates no undefined
shift, this state is the one `initialise` returns. -/
theorem stack_initialisation (shr : Int → Nat → Int) (cpu : CPU) (st : SymbolTable) :
    (initialiseWith shr cpu st).regFile 2 = -2147483648 ∧
    toU32 ((initialiseWith shr cpu st).regFile 2) = 0x80000000 ∧
    (∀ r : Nat, r ≠ 2 → (initialiseWith shr cpu st).regFile r = cpu.regFile r) ∧
    (∀ a : Nat, 0x7FF00000 ≤ a → a < 0x80000000 → a % 4 = 0 →
      (initialiseWith shr cpu st).memory a = some 0 ∧
      memGet (initialiseWith shr cpu st).memory a = 0) ∧
    (∀ a : Nat, ¬ (0x7FF00000 ≤ a ∧ a < 0x80000000 ∧ a % 4 = 0) →
      (initialiseWith shr cpu st).memory a = (initializeMemoryWith shr cpu st).memory a) ∧
    zeroStackCount STACK_END (initializeMemoryWith shr cpu st).memory 0 =
      ((initialiseWith shr cpu st).memory, 2 ^ 18) ∧
    (∀ c : CPU, initialise cpu st = some c → c = initialiseWith shr cpu st) := by
  have hmem : (initialiseWith shr cpu st).memory =
      zeroStack STACK_END (initializeMemoryWith shr cpu st).memory := by
    simp only [initialiseWith, zeroStackCount_STACK_END]
  have hreg : (initialiseWith shr cpu st).regFile = setReg cpu.regFile 2 (toI32 STACK_BASE) := rfl
  refine ⟨?_, ?_, ?_, ?_, ?_, ?_, ?_⟩
  · rw [hreg]
    simp only [setReg, if_true]
    decide
  · rw [hreg]
    simp only [setReg, if_true]
    decide
  · intro r hr
    rw [hreg]
    simp only [setReg, if_neg hr]
  · intro a h1 h2 h3
    have hm : (initialiseWith shr cpu st).memory a = some 0 := by
      rw [hmem, zeroStack_STACK_END]
      simp only
      rw [if_pos ⟨h1, h2, h3⟩]
    exact ⟨hm, by simp only [memGet, hm, Option.getD_some]⟩
  · intro a ha
    rw [hmem, zeroStack_STACK_END]
    simp only
    rw [if_neg ha]
  · rw [hmem, zeroStackCount_STACK_END]
    norm_num
  · intro c hc
    exact (initialiseWith_eq shr cpu c st hc).symm

/-- Witness of C13: the CPU of `sim_main.cpp` with no data segments, and with
the segment that `.dword 1` leaves, on a processor that takes the shift count
modulo 32 (the word at `0x10000004` then holds `1`). -/
theorem stack_initialisation_witness :
    (∃ c : CPU, initialise initialCPU noData = some c ∧
      c.regFile 2 = -2147483648 ∧ memGet c.memory 0x7FF00000 = 0 ∧
      memGet c.memory 0x7FFFFFFC = 0) ∧
    initialise initialCPU dwordData = none ∧
    (initialiseWith shiftMod32 initialCPU dwordData).regFile 2 = -2147483648 ∧
    memGet (initialiseWith shiftMod32 initialCPU dwordData).memory 0x7FF00000 = 0 ∧
    memGet (initialiseWith shiftMod32 initialCPU dwordData).memory 0x7FFFFFFC = 0 ∧
    memGet (initialiseWith shiftMod32 initialCPU dwordData).memory 0x10000000 = 1 ∧
    memGet (initialiseWith shiftMod32 initialCPU dwordData).memory 0x10000004 = 1 := by
  obtain ⟨hr, -, -, hm, -, -, he⟩ := stack_initialisation shiftMod32 initialCPU noData
  obtain ⟨hr2, -, -, hm2, ho2, -, -⟩ := stack_initialisation shiftMod32 initialCPU dwordData
  have hc : initialise initialCPU noData = some startNoData := rfl
  have e := he _ hc
  refine ⟨⟨startNoData, hc, ?_, ?_, ?_⟩, by rfl, hr2,
    (hm2 0x7FF00000 (by decide) (by decide) (by decide)).2,
    (hm2 0x7FFFFFFC (by decide) (by decide) (by decide)).2, ?_, ?_⟩
  · rw [e]; exact hr
  · rw [e]; exact (hm 0x7FF00000 (by decide) (by decide) (by decide)).2
  · rw [e]; exact (hm 0x7FFFFFFC (by decide) (by decide) (by decide)).2
  · unfold memGet
    rw [ho2 0x10000000 (by decide)]
    decide
  · unfold memGet
    rw [ho2 0x10000004 (by decide)]
    decide

/-! ## Byte lanes of a word -/

theorem testBit_shl32 (v s k : Nat) :
    (shl32 v s).testBit k = (decide (k < 32) && (decide (s ≤ k) && v.testBit (k - s))) := by
  unfold shl32
  have e : (4294967296 : Nat) = 2 ^ 32 := by norm_num
  rw [e, Nat.testBit_mod_two_pow, Nat.testBit_shiftLeft]

theorem shl32_lt (v s : Nat) : shl32 v s < 4294967296 := by
  unfold shl32
  omega

theorem testBit_not32 (v k : Nat) (hv : v < 4294967296) :
    (not32 v).testBit k = (decide (k < 32) && !v.testBit k) := by
  unfold not32
  have e : 4294967295 - v % 4294967296 = 2 ^ 32 - (v + 1) := by omega
  rw [e, Nat.testBit_two_pow_sub_succ (by omega)]

theorem testBit_255 (j : Nat) : (255 : Nat).testBit j = decide (j < 8) := by
  have e : (255 : Nat) = 2 ^ 8 - 1 := by norm_num
  rw [e, Nat.testBit_two_pow_sub_one]

/-- The read-modify-write of one byte lane (`sb` and the data initialisation):
the written lane reads `b & 0xFF`, the other three lanes read as before. -/
theorem lane_read (w b o o' : Nat) (ho : o < 4) (ho' : o' < 4) :
    (((w &&& not32 (shl32 0xFF (o * 8))) ||| shl32 (b &&& 0xFF) (o * 8)) >>> (o' * 8)) &&& 0xFF
      = if o' = o then b &&& 0xFF else (w >>> (o' * 8)) &&& 0xFF := by
  apply Nat.eq_of_testBit_eq
  intro j
  by_cases hoo : o' = o
  · subst hoo
    rw [if_pos rfl]
    simp only [Nat.testBit_and, Nat.testBit_shiftRight, Nat.testBit_or, testBit_shl32,
      testBit_not32 _ _ (shl32_lt _ _), testBit_255]
    by_cases hj : j < 8
    · have h1 : o' * 8 + j < 32 := by omega
      have h2 : o' * 8 ≤ o' * 8 + j := by omega
      have h3 : o' * 8 + j - o' * 8 = j := by omega
      simp [hj, h1, h2, h3]
    · simp [hj]
  · rw [if_neg hoo]
    simp only [Nat.testBit_and, Nat.testBit_shiftRight, Nat.testBit_or, testBit_shl32,
      testBit_not32 _ _ (shl32_lt _ _), testBit_255]
    by_cases hj : j < 8
    · have h1 : o' * 8 + j < 32 := by omega
      by_cases h2 : o * 8 ≤ o' * 8 + j
      · have h3 : ¬ (o' * 8 + j - o * 8 < 8) := by omega
        simp [hj, h1, h2, h3]
      · simp [hj, h1, h2]
    · simp [hj]

/-- Masking a 32-bit value with `~3` clears bits 0 and 1. -/
theorem and_clear_low2 (n : Nat) (h : n < 4294967296) : n &&& 0xFFFFFFFC = n - n % 4 := by
  apply Nat.eq_of_testBit_eq
  intro i
  have e1 : (0xFFFFFFFC : Nat) = 2 ^ 32 - (3 + 1) := by norm_num
  have e2 : n - n % 4 = 2 ^ 2 * (n / 4) := by omega
  have e3 : (3 : Nat) = 2 ^ 2 - 1 := by norm_num
  rw [e1, e2, Nat.testBit_and, Nat.testBit_two_pow_sub_succ (by norm_num),
    Nat.testBit_mul_pow_two, e3, Nat.testBit_two_pow_sub_one]
  by_cases hi : i < 2
  · have : ¬ (2 ≤ i) := by omega
    simp [hi, this]
  · have h2 : 2 ≤ i := by omega
    have hb : n.testBit i = true → i < 32 := by
      intro hb
      by_contra hge
      have := Nat.testBit_implies_ge hb
      have : 2 ^ 32 ≤ 2 ^ i := Nat.pow_le_pow_right (by norm_num) (by omega)
      omega
    have e4 : (n / 4).testBit (i - 2) = n.testBit i := by
      have : n / 4 = n >>> 2 := by rw [Nat.shiftRight_eq_div_pow]
      rw [this, Nat.testBit_shiftRight]
      congr 1
      omega
    rw [e4]
    by_cases hn : n.testBit i = true
    · have := hb hn
      simp [hn, this, hi, h2]
    · simp [hn]

theorem and_3 (x : Nat) : x &&& 3 = x % 4 := and_mask x 2

/-! ## Byte stores and loads -/

theorem toU32_lt (x : Int) : toU32 x < 4294967296 := by
  unfold toU32
  omega

theorem toU32_toI32_toU32 (x : Int) : toU32 (toI32 (toU32 x)) = toU32 x := by
  rw [toU32_toI32]
  have := toU32_lt x
  omega

/-- A 32-bit address is its aligned part plus its byte offset. -/
theorem addr_split (a : Nat) (h : a < 4294967296) :
    (a &&& 0xFFFFFFFC) + (a &&& 0x3) = a := by
  rw [and_clear_low2 a h, and_3]
  omega

/-- Reading a byte after the read-modify-write of the lane of byte address `a`. -/
theorem byteAt_memSet_lane (m : Memory) (a a' b : Nat) (ha : a < 4294967296)
    (ha' : a' < 4294967296) :
    byteAt (memSet m (a &&& 0xFFFFFFFC)
      ((memGet m (a &&& 0xFFFFFFFC) &&& not32 (shl32 0xFF ((a &&& 0x3) * 8))) |||
        shl32 (b &&& 0xFF) ((a &&& 0x3) * 8))) a'
      = if a' = a then b &&& 0xFF else byteAt m a' := by
  have ho : a &&& 0x3 < 4 := by rw [and_3]; omega
  have ho' : a' &&& 0x3 < 4 := by rw [and_3]; omega
  by_cases hk : a' &&& 0xFFFFFFFC = a &&& 0xFFFFFFFC
  · unfold byteAt
    have hg : memGet (memSet m (a &&& 0xFFFFFFFC)
        ((memGet m (a &&& 0xFFFFFFFC) &&& not32 (shl32 0xFF ((a &&& 0x3) * 8))) |||
          shl32 (b &&& 0xFF) ((a &&& 0x3) * 8))) (a' &&& 0xFFFFFFFC)
        = (memGet m (a &&& 0xFFFFFFFC) &&& not32 (shl32 0xFF ((a &&& 0x3) * 8))) |||
          shl32 (b &&& 0xFF) ((a &&& 0x3) * 8) := by
      simp [memGet, memSet, hk]
    rw [hg, lane_read _ _ _ _ ho ho', hk]
    have h1 := addr_split a ha
    have h2 := addr_split a' ha'
    by_cases hoo : a' &&& 0x3 = a &&& 0x3
    · have : a' = a := by omega
      rw [if_pos hoo, if_pos this]
    · have : a' ≠ a := fun h => hoo (by rw [h])
      rw [if_neg hoo, if_neg this]
  · have hne : a' ≠ a := fun h => hk (by rw [h])
    rw [if_neg hne]
    unfold byteAt
    have hg : ∀ v, memGet (memSet m (a &&& 0xFFFFFFFC) v) (a' &&& 0xFFFFFFFC)
        = memGet m (a' &&& 0xFFFFFFFC) := by
      intro v
      simp [memGet, memSet, hk]
    rw [hg]

/-- A cycle on a fetched word with opcode `0x23` (store). -/
theorem cycle_store (code : Code) (cpu : CPU) (w : Nat) (hf : code cpu.PC = some w)
    (hop : opcodeOf (w % 4294967296) = 0x23) :
    cycle code cpu = .commit { cpu with
      IR := w % 4294967296
      memory := storeStage (w % 4294967296)
        (toI32 (toU32 (cpu.regFile (rs1Of (w % 4294967296)) + getSTypeImm (w % 4294967296))))
        cpu.regFile cpu.memory
      PC := (cpu.PC + 4) % 4294967296
      clock := (cpu.clock + 1) % 4294967296 } := by
  have he : execute { cpu with IR := w % 4294967296 } = .next
      ⟨toI32 (toU32 (cpu.regFile (rs1Of (w % 4294967296)) + getSTypeImm (w % 4294967296))),
        false, (cpu.PC + 4) % 4294967296, false⟩ := by
    simp [execute, hop, decodeImm]
  rw [cycle_fetch code cpu w hf, he]
  simp only [loadStage_other _ _ _ (by rw [hop]; decide : opcodeOf (w % 4294967296) ≠ 0x03)]
  simp [writebackCommit]

/-- A cycle on a fetched word with opcode `0x03` (load). -/
theorem cycle_load (code : Code) (cpu : CPU) (w : Nat) (hf : code cpu.PC = some w)
    (hop : opcodeOf (w % 4294967296) = 0x03) :
    cycle code cpu = .commit { cpu with
      IR := w % 4294967296
      regFile :=
        if rdOf (w % 4294967296) ≠ 0 then
          setReg cpu.regFile (rdOf (w % 4294967296))
            (loadStage (w % 4294967296)
              (toI32 (toU32 (cpu.regFile (rs1Of (w % 4294967296)) +
                getITypeImm (w % 4294967296)))) cpu.memory).1
        else cpu.regFile
      memory :=
        (loadStage (w % 4294967296)
          (toI32 (toU32 (cpu.regFile (rs1Of (w % 4294967296)) +
            getITypeImm (w % 4294967296)))) cpu.memory).2
      PC := (cpu.PC + 4) % 4294967296
      clock := (cpu.clock + 1) % 4294967296 } := by
  have he : execute { cpu with IR := w % 4294967296 } = .next
      ⟨toI32 (toU32 (cpu.regFile (rs1Of (w % 4294967296)) + getITypeImm (w % 4294967296))),
        false, (cpu.PC + 4) % 4294967296, true⟩ := by
    simp [execute, hop, decodeImm]
  rw [cycle_fetch code cpu w hf, he]
  simp only [storeStage_other _ _ _ _ (by rw [hop]; decide : opcodeOf (w % 4294967296) ≠ 0x23)]
  simp [writebackCommit]

/-- The value `lbu` and `lb` leave in `rd` when they read byte address `a`. -/
theorem load_byte (code : Code) (c : CPU) (w : Nat) (hf : code c.PC = some w)
    (hop : opcodeOf (w % 4294967296) = 0x03) (hrd : rdOf (w % 4294967296) ≠ 0) :
    ∃ c2 : CPU, cycle code c = .commit c2 ∧
      (funct3Of (w % 4294967296) = 4 → c2.regFile (rdOf (w % 4294967296)) =
        toI32 (byteAt c.memory
          (toU32 (c.regFile (rs1Of (w % 4294967296)) + getITypeImm (w % 4294967296))))) ∧
      (funct3Of (w % 4294967296) = 0 → c2.regFile (rdOf (w % 4294967296)) =
        signExtend (byteAt c.memory
          (toU32 (c.regFile (rs1Of (w % 4294967296)) + getITypeImm (w % 4294967296)))) 8) := by
  refine ⟨_, cycle_load code c w hf hop, ?_, ?_⟩
  · intro h4
    simp [hrd, setReg, loadStage, hop, h4, toU32_toI32_toU32, byteAt]
  · intro h0
    simp [hrd, setReg, loadStage, hop, h0, toU32_toI32_toU32, byteAt]

/-- C12. Read-after-write consistency of byte accesses: a cycle executing `sb`
(opcode `0x23`, `funct3 = 0`) of the register value `d` to the address `a`
commits, leaves every byte other than `a` (in particular the other three bytes
of the aligned word) and every word under another key reading as before, and
from any state with the resulting memory a cycle executing `lbu` (opcode `0x03`,
`funct3 = 4`) from `a` writes `d & 0xFF` to `rd`, and `lb` (`funct3 = 0`) writes
that byte sign-extended from 8 bits: the byte `b` itself if `b < 128`, and
`b - 256` otherwise. -/
theorem sb_then_load_byte (code : Code) (cpu : CPU) (ws : Nat)
    (hs : code cpu.PC = some ws)
    (hops : opcodeOf (ws % 4294967296) = 0x23)
    (hf3 : funct3Of (ws % 4294967296) = 0) :
    ∃ c1 : CPU, cycle code cpu = .commit c1 ∧ c1.regFile = cpu.regFile ∧
      (∀ a' : Nat, a' < 4294967296 →
        a' ≠ toU32 (cpu.regFile (rs1Of (ws % 4294967296)) + getSTypeImm (ws % 4294967296)) →
        byteAt c1.memory a' = byteAt cpu.memory a') ∧
      (∀ k : Nat,
        k ≠ toU32 (cpu.regFile (rs1Of (ws % 4294967296)) + getSTypeImm (ws % 4294967296))
          &&& 0xFFFFFFFC →
        c1.memory k = cpu.memory k) ∧
      (∀ (code2 : Code) (c : CPU) (wl : Nat), c.memory = c1.memory →
        code2 c.PC = some wl → opcodeOf (wl % 4294967296) = 0x03 →
        rdOf (wl % 4294967296) ≠ 0 →
        toU32 (c.regFile (rs1Of (wl % 4294967296)) + getITypeImm (wl % 4294967296)) =
          toU32 (cpu.regFile (rs1Of (ws % 4294967296)) + getSTypeImm (ws % 4294967296)) →
        ∃ c2 : CPU, cycle code2 c = .commit c2 ∧
          (funct3Of (wl % 4294967296) = 4 → c2.regFile (rdOf (wl % 4294967296)) =
            ((toU32 (cpu.regFile (rs2Of (ws % 4294967296))) &&& 0xFF : Nat) : Int)) ∧
          (funct3Of (wl % 4294967296) = 0 → c2.regFile (rdOf (wl % 4294967296)) =
            if toU32 (cpu.regFile (rs2Of (ws % 4294967296))) &&& 0xFF < 128
            then ((toU32 (cpu.regFile (rs2Of (ws % 4294967296))) &&& 0xFF : Nat) : Int)
            else ((toU32 (cpu.regFile (rs2Of (ws % 4294967296))) &&& 0xFF : Nat) : Int) - 256)) := by
  have ha := toU32_lt (cpu.regFile (rs1Of (ws % 4294967296)) + getSTypeImm (ws % 4294967296))
  generalize hA : toU32 (cpu.regFile (rs1Of (ws % 4294967296)) +
    getSTypeImm (ws % 4294967296)) = a at ha
  have hc := cycle_store code cpu ws hs hops
  rw [hA] at hc
  have hst : storeStage (ws % 4294967296) (toI32 a) cpu.regFile cpu.memory =
      memSet cpu.memory (a &&& 0xFFFFFFFC)
        ((memGet cpu.memory (a &&& 0xFFFFFFFC) &&& not32 (shl32 0xFF ((a &&& 0x3) * 8))) |||
          shl32 (toU32 (cpu.regFile (rs2Of (ws % 4294967296))) &&& 0xFF) ((a &&& 0x3) * 8)) := by
    have : toU32 (toI32 a) = a := by rw [toU32_toI32]; omega
    simp [storeStage, hops, hf3, this]
  rw [hst] at hc
  refine ⟨_, hc, rfl, ?_, ?_, ?_⟩
  · intro a' ha' hne
    simp only
    rw [byteAt_memSet_lane _ _ _ _ ha ha', if_neg hne]
  · intro k hk
    simp [memSet, hk]
  · intro code2 c wl hm hfl hopl hrd haddr
    obtain ⟨c2, hc2, h4, h0⟩ := load_byte code2 c wl hfl hopl hrd
    rw [haddr, hm] at h4 h0
    simp only at h4 h0
    rw [byteAt_memSet_lane _ _ _ _ ha ha, if_pos rfl] at h4 h0
    have hb : toU32 (cpu.regFile (rs2Of (ws % 4294967296))) &&& 0xFF < 256 := by
      rw [and_255]; omega
    refine ⟨c2, hc2, ?_, ?_⟩
    · intro hf4
      rw [h4 hf4]
      unfold toI32
      split <;> omega
    · intro hf0
      rw [h0 hf0, signExtend_8 _ hb]

/-- Witness of C12: `sb x6, 1(x5)` with `x5 = 0x10000000`, `x6 = 0x1F0`, then
`lbu x7, 1(x5)` reads `0xF0 = 240` and `lb x8, 1(x5)` reads `240 - 256 = -16`;
with `x6 = 0x27F` the byte is `0x7F` and `lb` reads `127`. -/
theorem sb_then_load_byte_witness :
    (∃ c1 : CPU, cycle sbLoadCode sbLoadStart = .commit c1 ∧
      (∃ c2 : CPU, cycle sbLoadCode c1 = .commit c2 ∧ c2.regFile 7 = 240) ∧
      (∃ c3 : CPU, cycle sbLoadCode { c1 with PC := 8 } = .commit c3 ∧ c3.regFile 8 = -16)) ∧
    (∃ c1 : CPU, cycle sbLoadCode sbLoadStartPos = .commit c1 ∧
      (∃ c2 : CPU, cycle sbLoadCode c1 = .commit c2 ∧ c2.regFile 7 = 127) ∧
      (∃ c3 : CPU, cycle sbLoadCode { c1 with PC := 8 } = .commit c3 ∧ c3.regFile 8 = 127)) := by
  constructor
  · obtain ⟨c1, hc1, -, -, -, hl⟩ :=
      sb_then_load_byte sbLoadCode sbLoadStart 0x006280A3 rfl (by decide) (by decide)
    have e1 : c1 = (cycle sbLoadCode sbLoadStart).cpu := by rw [hc1]; rfl
    obtain ⟨c2, hc2, h4, -⟩ := hl sbLoadCode c1 0x0012C383 rfl (by rw [e1]; rfl) (by decide)
      (by decide) (by rw [e1]; decide)
    obtain ⟨c3, hc3, -, h0⟩ := hl sbLoadCode { c1 with PC := 8 } 0x00128403 rfl rfl (by decide)
      (by decide) (by rw [e1]; decide)
    refine ⟨c1, hc1, ⟨c2, hc2, ?_⟩, ⟨c3, hc3, ?_⟩⟩
    · have h := h4 (by decide)
      have hr : rdOf (0x0012C383 % 4294967296) = 7 := by decide
      rw [hr] at h
      rw [h]
      decide
    · have h := h0 (by decide)
      have hr : rdOf (0x00128403 % 4294967296) = 8 := by decide
      rw [hr] at h
      rw [h]
      decide
  · obtain ⟨c1, hc1, -, -, -, hl⟩ :=
      sb_then_load_byte sbLoadCode sbLoadStartPos 0x006280A3 rfl (by decide) (by decide)
    have e1 : c1 = (cycle sbLoadCode sbLoadStartPos).cpu := by rw [hc1]; rfl
    obtain ⟨c2, hc2, h4, -⟩ := hl sbLoadCode c1 0x0012C383 rfl (by rw [e1]; rfl) (by decide)
      (by decide) (by rw [e1]; decide)
    obtain ⟨c3, hc3, -, h0⟩ := hl sbLoadCode { c1 with PC := 8 } 0x00128403 rfl rfl (by decide)
      (by decide) (by rw [e1]; decide)
    refine ⟨c1, hc1, ⟨c2, hc2, ?_⟩, ⟨c3, hc3, ?_⟩⟩
    · have h := h4 (by decide)
      have hr : rdOf (0x0012C383 % 4294967296) = 7 := by decide
      rw [hr] at h
      rw [h]
      decide
    · have h := h0 (by decide)
      have hr : rdOf (0x00128403 % 4294967296) = 8 := by decide
      rw [hr] at h
      rw [h]
      decide

/-! ## Data initialisation: entries of size 8 -/

/-- C11 (the code at the failing input). For the entry `{value = 1, size = 8}`
at `0x10000000` the first four bytes are stored, and the fifth iteration
evaluates `entry.value >> 32` on the 32-bit `int`, which has no defined value:
the initialisation has no defined result, whereas bytes 4 to 7 are claimed to
read `0`. -/
theorem dword_entry_undefined :
    initEntryFrom 1 0x10000000 4 0 initialCPU.memory ≠ none ∧
    (8 * 4) % 4294967296 = 32 ∧
    initializeMemoryFromDataSegments initialCPU dwordData = none := by
  refine ⟨?_, by decide, by rfl⟩
  simp [initEntryFrom]

/-! ## The parser on small sources -/

/-- C19 (the code at the failing input). On the source `beq x1, x2, -8` the
first pass succeeds with no label; the second pass parses the line as an SB
record with immediate `-8`, takes `-8` for a label because its first character
is not a digit, does not find it and returns `false` without appending a record. -/
theorem negative_branch_literal_rejected :
    (parseFile negativeBranchSource [] emptySymbolTable true).value = some true ∧
    parseInstructionFields "beq x1, x2, -8".toList {} =
      some { line_name := "beq x1, x2, -8".toList, opcode := "beq".toList,
             format := "SB".toList, rs1 := "x1".toList, rs2 := "x2".toList,
             immediate := "-8".toList } ∧
    isDigit '-' = false ∧
    getAddress (firstPassSymbols negativeBranchSource) "-8".toList = 0xFFFFFFFF ∧
    (parseFile negativeBranchSource [] (firstPassSymbols negativeBranchSource) false).value
      = some false ∧
    (parseFile negativeBranchSource [] (firstPassSymbols negativeBranchSource) false).instrs
      = [] := by
  refine ⟨by decide, by decide, by decide, by decide, by decide, by decide⟩

/-- C20 (counterexample). The source `foo x1, x2, x3`, whose first token is no
mnemonic, is accepted: the second pass returns `true` and appends a record with
opcode `foo` and an empty format. -/
theorem unknown_mnemonic_source_accepted :
    "foo".toList ∉ rMnemonics ++ iMnemonics ++ loadMnemonics ++ storeMnemonics ++
      sbMnemonics ++ uMnemonics ++ ["jal".toList] ∧
    (parseFile unknownMnemonicSource [] (firstPassSymbols unknownMnemonicSource) false).value
      = some true ∧
    (parseFile unknownMnemonicSource [] (firstPassSymbols unknownMnemonicSource) false).value
      ≠ some false ∧
    (parseFile unknownMnemonicSource [] (firstPassSymbols unknownMnemonicSource) false).instrs
      = [{ line_name := "foo x1, x2, x3".toList, opcode := "foo".toList }] := by
  refine ⟨by decide, by decide, by decide, by decide⟩

/-- C17 (counterexample). In the source `.data` / `arr:` / `.word 5` the label
stands alone on its line and the next effective line is a data directive whose
first element is placed at `0x10000000`; the first pass binds `arr` to the text
address `0`, whereas with the label and the directive on one line it binds
`arr` to `0x10000000`. -/
theorem data_label_alone_gets_text_address :
    (parseFile dataLabelSource [] emptySymbolTable true).value = some true ∧
    labelOfLine "arr:".toList = some "arr".toList ∧
    statementOfLine "arr:".toList = [] ∧
    (firstPassSymbols dataLabelSource).dataSegments =
      [{ startAddress := 0x10000000, contents := [{ value := 5, size := 4 }] }] ∧
    getAddress (firstPassSymbols dataLabelSource) "arr".toList = 0 ∧
    getAddress (firstPassSymbols dataLabelSource) "arr".toList ≠ 0x10000000 ∧
    getAddress (firstPassSymbols dataLabelSameLineSource) "arr".toList = 0x10000000 := by
  refine ⟨by decide, by decide, by decide, by rfl, by decide, by decide, by decide⟩

/-- C16 (counterexample). The source `L:` / `add x1, x2, x3` / `L:` /
`sub x1, x2, x3` is accepted by both passes; the first `L:` stands alone on its
line and the first instruction after it has index 0 in the instruction list,
but `getAddress(L)` is `4`, the address bound by the second definition. -/
theorem duplicate_label_last_wins :
    (parseFile duplicateLabelSource [] emptySymbolTable true).value = some true ∧
    (parseFile duplicateLabelSource [] (firstPassSymbols duplicateLabelSource) false).value
      = some true ∧
    ((parseFile duplicateLabelSource [] (firstPassSymbols duplicateLabelSource) false).instrs.map
      (fun i => i.line_name)) = ["add x1, x2, x3".toList, "sub x1, x2, x3".toList] ∧
    labelOfLine "L:".toList = some "L".toList ∧
    getAddress (firstPassSymbols duplicateLabelSource) "L".toList = 4 ∧
    getAddress (firstPassSymbols duplicateLabelSource) "L".toList ≠ 4 * 0 := by
  refine ⟨by decide, by decide, by decide, by decide, by decide, by decide⟩

/-! ## Structure of `parseFile` -/

/-- The loop over a concatenation of lines. -/
theorem parseLines_append (fp : Bool) (pre post : List Str) (s : ParseState) :
    parseLines fp (pre ++ post) s =
      match parseLines fp pre s with
      | .next s1 => parseLines fp post s1
      | r => r := by
  induction pre generalizing s with
  | nil => rfl
  | cons l pre ih =>
    simp only [List.cons_append, parseLines]
    cases h : parseLine fp l s with
    | next s1 => exact ih s1
    | rejected s1 => rfl
    | thrown => rfl

/-- The loop body in terms of the label and the statement of the line. -/
theorem parseLine_eq (fp : Bool) (raw : Str) (s : ParseState) :
    parseLine fp raw s =
      match labelOfLine raw with
      | none => parseStatement fp (statementOfLine raw) s
      | some label =>
        if validLabel label then
          parseStatement fp (statementOfLine raw)
            (if fp then
              (if ¬ (statementOfLine raw).isEmpty ∧ (statementOfLine raw).head? = some '.' then
                { s with symbolTable := addLabel s.symbolTable label s.dataAddress }
              else { s with symbolTable := addLabel s.symbolTable label s.textAddress })
            else s)
        else .rejected s := by
  unfold parseLine labelOfLine statementOfLine effectiveLine validLabel
  generalize trimWhitespace (removeComments raw) = line
  by_cases he : line.isEmpty = true
  · have hnil : line = [] := List.isEmpty_iff.mp he
    subst hnil
    simp [parseStatement]
  · by_cases hc : ':' ∈ line
    · simp only [he, hc, if_true]
      generalize trimWhitespace (substr line 0 (List.indexOf ':' line)) = label
      by_cases h1 : label.isEmpty = true
      · simp [h1]
      · have hd : label.headD (Char.ofNat 0) = (List.head? label).getD (Char.ofNat 0) := by
          cases label <;> rfl
        rw [hd]
        by_cases h2 : isDigit ((List.head? label).getD (Char.ofNat 0)) = true
        · simp [h1, h2]
        · by_cases hl : List.indexOf ':' line + 1 < line.length
          · cases fp <;> simp [h1, h2, hl]
          · cases fp <;> simp [h1, h2, hl, parseStatement]
    · simp [he, hc]

/-! ## The first pass: addresses and labels -/

theorem dataLoop_table (lo hi : Int) (f : Int → Int) (size fuel : Nat) :
    ∀ (iss : IStream) (st : SymbolTable) (a : Nat),
      (dataLoop lo hi f size fuel iss st a).1.table = st.table := by
  induction fuel with
  | zero => intro iss st a; rfl
  | succ fuel ih =>
    intro iss st a
    unfold dataLoop
    rcases hr : readInt lo hi iss with ⟨_ | v, iss1⟩
    · rfl
    · simp only
      rw [ih]
      rfl

theorem asciizLoop_table (str : Str) :
    ∀ (st : SymbolTable) (a : Nat), (asciizLoop str st a).1.table = st.table := by
  induction str with
  | nil => intro st a; rfl
  | cons ch rest ih =>
    intro st a
    unfold asciizLoop
    simp only
    rw [ih]
    rfl

/-- No directive changes the label map. -/
theorem processDirective_table (directive : Str) (iss : IStream) (st : SymbolTable) (a : Nat) :
    (processDirective directive iss st a).1.table = st.table := by
  unfold processDirective
  split
  · rfl
  split
  · rfl
  split
  · exact dataLoop_table _ _ _ _ _ _ _ _
  split
  · exact dataLoop_table _ _ _ _ _ _ _ _
  split
  · exact dataLoop_table _ _ _ _ _ _ _ _
  split
  · exact dataLoop_table _ _ _ _ _ _ _ _
  split
  · simp only [addDataToCurrentSegment]
    exact asciizLoop_table _ _ _
  split <;> rfl

/-- The first pass on one statement: it never fails, an instruction advances
`textAddress` by 4 and changes nothing else, a directive leaves `textAddress`,
the label map and the instruction vector as they are. -/
theorem parseStatement_true (stmt : Str) (s : ParseState) :
    ∃ s1 : ParseState, parseStatement true stmt s = .next s1 ∧
      s1.textAddress =
        (if isInstruction stmt then (s.textAddress + 4) % 4294967296 else s.textAddress) ∧
      s1.symbolTable.table = s.symbolTable.table ∧
      s1.instructions = s.instructions ∧
      (isInstruction stmt = true → s1.dataAddress = s.dataAddress) := by
  unfold parseStatement isInstruction
  by_cases he : stmt.isEmpty = true
  · simp [he]
  · by_cases hd : ¬ (readWord { rest := stmt, failed := false } []).1.isEmpty = true ∧
        (readWord { rest := stmt, failed := false } []).1.head? = some '.'
    · have hd1 := hd.1
      have hd2 := hd.2
      simp only [he, hd, hd1, hd2]
      refine ⟨_, rfl, ?_, ?_, ?_, ?_⟩
      · simp
      · exact processDirective_table _ _ _ _
      · rfl
      · simp
    · simp only [he, hd, if_false]
      refine ⟨_, rfl, ?_, rfl, rfl, fun _ => rfl⟩
      have : (!(readWord { rest := stmt, failed := false } []).1.isEmpty &&
          decide ((readWord { rest := stmt, failed := false } []).1.head? = some '.')) = false := by
        rw [Bool.and_eq_false_iff]
        by_cases h1 : (readWord { rest := stmt, failed := false } []).1.isEmpty = true
        · left; simp [h1]
        · right
          have : ¬ (readWord { rest := stmt, failed := false } []).1.head? = some '.' :=
            fun h => hd ⟨h1, h⟩
          simp [this]
      simp [this]

/-- The first pass on one line: it is rejected exactly for an invalid label;
otherwise an instruction advances `textAddress` by 4, the label (if any) is
bound to `dataAddress` when the statement starts with `.` and to `textAddress`
otherwise, and every other label keeps its binding. -/
theorem parseLine_true (raw : Str) (s : ParseState) :
    (∀ label, labelOfLine raw = some label → validLabel label = false →
      parseLine true raw s = .rejected s) ∧
    ((∀ label, labelOfLine raw = some label → validLabel label = true) →
      ∃ s1 : ParseState, parseLine true raw s = .next s1 ∧
        s1.textAddress =
          (if (instrText raw).isSome then (s.textAddress + 4) % 4294967296
           else s.textAddress) ∧
        s1.instructions = s.instructions ∧
        ((instrText raw).isSome = true → s1.dataAddress = s.dataAddress) ∧
        (∀ label, labelOfLine raw = some label →
          s1.symbolTable.table label =
            some (if ¬ (statementOfLine raw).isEmpty ∧ (statementOfLine raw).head? = some '.'
                  then s.dataAddress else s.textAddress)) ∧
        (∀ L, labelOfLine raw ≠ some L → s1.symbolTable.table L = s.symbolTable.table L)) := by
  rw [parseLine_eq]
  have hi : (instrText raw).isSome = isInstruction (statementOfLine raw) := by
    unfold instrText
    cases isInstruction (statementOfLine raw) <;> rfl
  rw [hi]
  cases hl : labelOfLine raw with
  | none =>
    refine ⟨fun label h => (by cases h), fun _ => ?_⟩
    obtain ⟨s1, h1, h2, h3, h4, h5⟩ := parseStatement_true (statementOfLine raw) s
    exact ⟨s1, h1, h2, h4, h5, fun label h => (by cases h), fun L _ => (by rw [h3])⟩
  | some label =>
    refine ⟨fun l h hv => ?_, fun hv => ?_⟩
    · cases h
      simp [hv]
    · have hvl := hv label rfl
      simp only [hvl, if_true]
      by_cases hdot : ¬ (statementOfLine raw).isEmpty ∧ (statementOfLine raw).head? = some '.'
      · simp only [hdot, if_true]
        obtain ⟨s1, h1, h2, h3, h4, h5⟩ := parseStatement_true (statementOfLine raw)
          { s with symbolTable := addLabel s.symbolTable label s.dataAddress }
        refine ⟨s1, h1, h2, h4, h5, ?_, ?_⟩
        · intro l h
          cases h
          rw [h3]
          simp [addLabel, hdot]
        · intro L hL
          rw [h3]
          have : L ≠ label := fun h => hL (by rw [h])
          simp [addLabel, this]
      · simp only [hdot, if_false]
        obtain ⟨s1, h1, h2, h3, h4, h5⟩ := parseStatement_true (statementOfLine raw)
          { s with symbolTable := addLabel s.symbolTable label s.textAddress }
        refine ⟨s1, h1, h2, h4, h5, ?_, ?_⟩
        · intro l h
          cases h
          rw [h3]
          simp [addLabel]
        · intro L hL
          rw [h3]
          have : L ≠ label := fun h => hL (by rw [h])
          simp [addLabel, this]

/-- A first pass that is accepted: every label of the lines is valid. -/
theorem parseLine_true_next (raw : Str) (s s1 : ParseState)
    (h : parseLine true raw s = .next s1) :
    ∀ label, labelOfLine raw = some label → validLabel label = true := by
  intro label hl
  by_contra hv
  have hv' : validLabel label = false := by simpa using hv
  rw [(parseLine_true raw s).1 label hl hv'] at h
  cases h

/-- The first pass over a list of lines: `textAddress` has advanced by 4 for
each instruction line, the instruction vector is untouched, and a label that no
line defines keeps its binding. -/
theorem firstPass_lines (lines : List Str) :
    ∀ (s s1 : ParseState), s.textAddress < 4294967296 →
      parseLines true lines s = .next s1 →
      s1.textAddress = (s.textAddress + 4 * (lines.filterMap instrText).length) % 4294967296 ∧
      s1.instructions = s.instructions ∧
      (∀ L, (∀ r ∈ lines, labelOfLine r ≠ some L) →
        s1.symbolTable.table L = s.symbolTable.table L) := by
  induction lines with
  | nil =>
    intro s s1 hs h
    simp only [parseLines, LineResult.next.injEq] at h
    subst h
    refine ⟨?_, rfl, fun L _ => rfl⟩
    simp only [List.filterMap_nil, List.length_nil, Nat.mul_zero, Nat.add_zero]
    omega
  | cons l rest ih =>
    intro s s1 hs h
    simp only [parseLines] at h
    cases hl : parseLine true l s with
    | rejected s2 => rw [hl] at h; cases h
    | thrown => rw [hl] at h; cases h
    | next s2 =>
      rw [hl] at h
      simp only at h
      obtain ⟨s2', h2, ht, hins, -, -, hkeep⟩ :=
        (parseLine_true l s).2 (parseLine_true_next l s s2 hl)
      rw [hl] at h2
      cases h2
      have hs2 : s2.textAddress < 4294967296 := by
        rw [ht]; split <;> omega
      obtain ⟨iht, ihi, ihk⟩ := ih s2 s1 hs2 h
      refine ⟨?_, by rw [ihi, hins], ?_⟩
      · rw [iht, ht]
        simp only [List.filterMap_cons]
        cases hit : instrText l with
        | none => simp
        | some t =>
          simp only [Option.isSome_some, if_true, List.length_cons]
          omega
      · intro L hL
        rw [ihk L (fun r hr => hL r (List.mem_cons_of_mem _ hr)),
          hkeep L (hL l (List.mem_cons_self _ _))]

/-- The binding of a label that is not defined again: the data cursor when the
statement on its line starts with `.`, the text address otherwise, both taken
after the lines before it. -/
theorem label_binding (pre post : List Str) (l L : Str) (s0 s1 : ParseState)
    (hs0 : s0.textAddress < 4294967296)
    (hpass : parseLines true (pre ++ l :: post) s0 = .next s1)
    (hl : labelOfLine l = some L)
    (hpost : ∀ r ∈ post, labelOfLine r ≠ some L) :
    ∃ sp : ParseState, parseLines true pre s0 = .next sp ∧
      sp.textAddress = (s0.textAddress + 4 * (pre.filterMap instrText).length) % 4294967296 ∧
      s1.symbolTable.table L =
        some (if ¬ (statementOfLine l).isEmpty ∧ (statementOfLine l).head? = some '.'
              then sp.dataAddress else sp.textAddress) := by
  rw [parseLines_append] at hpass
  cases hp : parseLines true pre s0 with
  | rejected s2 => rw [hp] at hpass; cases hpass
  | thrown => rw [hp] at hpass; cases hpass
  | next sp =>
    rw [hp] at hpass
    simp only [parseLines] at hpass
    obtain ⟨htp, -, -⟩ := firstPass_lines pre s0 sp hs0 hp
    cases hline : parseLine true l sp with
    | rejected s2 => rw [hline] at hpass; cases hpass
    | thrown => rw [hline] at hpass; cases hpass
    | next s2 =>
      rw [hline] at hpass
      simp only at hpass
      obtain ⟨s2', h2, ht2, -, -, hbind, -⟩ :=
        (parseLine_true l sp).2 (parseLine_true_next l sp s2 hline)
      rw [hline] at h2
      cases h2
      have hs2 : s2.textAddress < 4294967296 := by
        rw [ht2]; split <;> omega
      obtain ⟨-, -, hkeep⟩ := firstPass_lines post s2 s1 hs2 hpass
      exact ⟨sp, rfl, htp, by rw [hkeep L hpost, hbind L hl]⟩

/-! ## The second pass: records and addresses -/

/-- The record of a parsed line holds the line in `line_name`. -/
theorem parseInstructionFields_line_name (line : Str) (i r : Instruction)
    (h : parseInstructionFields line i = some r) : r.line_name = line := by
  unfold parseInstructionFields at h
  simp only at h
  split at h
  · cases h; rfl
  split at h
  · cases h; rfl
  split at h
  · cases h; rfl
  split at h
  · cases h; rfl
  split at h
  · cases h; rfl
  split at h
  · split at h
    · cases h
    · split at h
      · cases h
      · split at h
        · cases h
        · cases h; rfl
  split at h
  · cases h; rfl
  · cases h; rfl

/-- The second pass on one statement that is accepted: the symbol table and
`dataAddress` are untouched; an instruction appends exactly one record, whose
`line_name` is the statement, and advances `textAddress` by 4; anything else
changes nothing. -/
theorem parseStatement_false (stmt : Str) (s s1 : ParseState)
    (h : parseStatement false stmt s = .next s1) :
    s1.symbolTable = s.symbolTable ∧ s1.dataAddress = s.dataAddress ∧
    (isInstruction stmt = true →
      (∃ instr : Instruction, s1.instructions = s.instructions ++ [instr] ∧
        instr.line_name = stmt) ∧
      s1.textAddress = (s.textAddress + 4) % 4294967296) ∧
    (isInstruction stmt = false → s1 = s) := by
  unfold parseStatement at h
  unfold isInstruction
  by_cases he : stmt.isEmpty = true
  · simp only [he, if_true, LineResult.next.injEq] at h
    subst h
    simp [he]
  · by_cases hd : ¬ (readWord { rest := stmt, failed := false } []).1.isEmpty = true ∧
        (readWord { rest := stmt, failed := false } []).1.head? = some '.'
    · have hd1 := hd.1
      have hd2 := hd.2
      simp [he, hd1, hd2] at h
      subst h
      simp [he, hd1, hd2]
    · simp only [he, hd, if_false, Bool.false_eq_true, not_false_eq_true, if_true] at h
      have hins : (!stmt.isEmpty &&
          !(!(readWord { rest := stmt, failed := false } []).1.isEmpty &&
            decide ((readWord { rest := stmt, failed := false } []).1.head? = some '.'))) = true := by
        have h0 : stmt.isEmpty = false := by simpa using he
        rw [h0]
        simp only [Bool.not_false, Bool.true_and, Bool.not_eq_true', Bool.and_eq_false_iff]
        by_cases h1 : (readWord { rest := stmt, failed := false } []).1.isEmpty = true
        · left; simp [h1]
        · right
          have : ¬ (readWord { rest := stmt, failed := false } []).1.head? = some '.' :=
            fun h => hd ⟨h1, h⟩
          simp [this]
      rw [hins]
      cases hp : parseInstructionFields stmt {} with
      | none => rw [hp] at h; cases h
      | some instr =>
        rw [hp] at h
        have hln := parseInstructionFields_line_name stmt {} instr hp
        simp only at h
        split at h
        · split at h
          · split at h
            · cases h
              exact ⟨rfl, rfl, fun _ => ⟨⟨_, rfl, hln⟩, rfl⟩, fun hf => by cases hf⟩
            · cases h
          · cases h
            exact ⟨rfl, rfl, fun _ => ⟨⟨_, rfl, hln⟩, rfl⟩, fun hf => by cases hf⟩
        · cases h
          exact ⟨rfl, rfl, fun _ => ⟨⟨_, rfl, hln⟩, rfl⟩, fun hf => by cases hf⟩

/-- The second pass on one line that is accepted. -/
theorem parseLine_false (raw : Str) (s s1 : ParseState)
    (h : parseLine false raw s = .next s1) :
    s1.symbolTable = s.symbolTable ∧ s1.dataAddress = s.dataAddress ∧
    s1.instructions.map (fun i => i.line_name) =
      s.instructions.map (fun i => i.line_name) ++ (instrText raw).toList ∧
    s1.textAddress =
      (if (instrText raw).isSome then (s.textAddress + 4) % 4294967296 else s.textAddress) := by
  rw [parseLine_eq] at h
  have key : parseStatement false (statementOfLine raw) s = .next s1 := by
    cases hl : labelOfLine raw with
    | none => rw [hl] at h; exact h
    | some label =>
      rw [hl] at h
      simp only at h
      split at h
      · simpa using h
      · cases h
  obtain ⟨h1, h2, h3, h4⟩ := parseStatement_false _ s s1 key
  refine ⟨h1, h2, ?_, ?_⟩
  · unfold instrText
    cases hi : isInstruction (statementOfLine raw) with
    | true =>
      obtain ⟨⟨instr, hins, hln⟩, -⟩ := h3 hi
      simp [hins, hln]
    | false =>
      rw [h4 hi]
      simp
  · unfold instrText
    cases hi : isInstruction (statementOfLine raw) with
    | true => simp [(h3 hi).2]
    | false => rw [h4 hi]; simp

/-- The second pass over a list of lines that is accepted: the symbol table is
untouched, one record is appended per instruction line, in order and holding
the instruction text, and `textAddress` has advanced by 4 for each. -/
theorem secondPass_lines (lines : List Str) :
    ∀ (s s1 : ParseState), s.textAddress < 4294967296 →
      parseLines false lines s = .next s1 →
      s1.symbolTable = s.symbolTable ∧
      s1.instructions.map (fun i => i.line_name) =
        s.instructions.map (fun i => i.line_name) ++ lines.filterMap instrText ∧
      s1.textAddress = (s.textAddress + 4 * (lines.filterMap instrText).length) % 4294967296 := by
  induction lines with
  | nil =>
    intro s s1 hs h
    simp only [parseLines, LineResult.next.injEq] at h
    subst h
    refine ⟨rfl, by simp, ?_⟩
    simp only [List.filterMap_nil, List.length_nil, Nat.mul_zero, Nat.add_zero]
    omega
  | cons l rest ih =>
    intro s s1 hs h
    simp only [parseLines] at h
    cases hl : parseLine false l s with
    | rejected s2 => rw [hl] at h; cases h
    | thrown => rw [hl] at h; cases h
    | next s2 =>
      rw [hl] at h
      simp only at h
      obtain ⟨h1, -, h3, h4⟩ := parseLine_false l s s2 hl
      have hs2 : s2.textAddress < 4294967296 := by
        rw [h4]; split <;> omega
      obtain ⟨i1, i2, i3⟩ := ih s2 s1 hs2 h
      refine ⟨by rw [i1, h1], ?_, ?_⟩
      · rw [i2, h3]
        cases hit : instrText l <;> simp [List.filterMap_cons, hit]
      · rw [i3, h4]
        cases hit : instrText l with
        | none => simp [List.filterMap_cons, hit]
        | some t =>
          simp only [List.filterMap_cons, hit, Option.isSome_some, if_true, List.length_cons]
          omega

/-- The address the listing loop prints in front of instruction `k`. -/
theorem listingAddresses_get (instrs : List Instruction) :
    ∀ (a k : Nat), a < 4294967296 → k < instrs.length →
      (listingAddresses instrs a)[k]? = some ((a + 4 * k) % 4294967296) := by
  induction instrs with
  | nil => intro a k _ hk; simp at hk
  | cons i rest ih =>
    intro a k ha hk
    cases k with
    | zero =>
      simp only [listingAddresses, List.getElem?_cons_zero, Nat.mul_zero, Nat.add_zero]
      congr 1
      omega
    | succ k =>
      simp only [listingAddresses, List.getElem?_cons_succ]
      rw [ih ((a + 4) % 4294967296) k (by omega) (by simpa using hk)]
      congr 1
      omega

/-! ## Labels -/

theorem parseFile_eq (lines : List Str) (instructions : List Instruction)
    (symbolTable : SymbolTable) (fp : Bool) :
    parseFile lines instructions symbolTable fp =
      match parseLines fp lines (parseStart instructions symbolTable) with
      | .next s => .returned true s.symbolTable s.instructions
      | .rejected s => .returned false s.symbolTable s.instructions
      | .thrown => .thrown := rfl

/-- A call of `parseFile` that returns `true` ran its loop to the end. -/
theorem parseFile_true (lines : List Str) (instructions : List Instruction)
    (symbolTable st1 : SymbolTable) (ins1 : List Instruction) (fp : Bool)
    (h : parseFile lines instructions symbolTable fp = .returned true st1 ins1) :
    ∃ s1 : ParseState, parseLines fp lines (parseStart instructions symbolTable) = .next s1 ∧
      s1.symbolTable = st1 ∧ s1.instructions = ins1 := by
  rw [parseFile_eq] at h
  cases hp : parseLines fp lines (parseStart instructions symbolTable) with
  | next s =>
    rw [hp] at h
    simp only [ParseResult.returned.injEq, true_and] at h
    exact ⟨s, rfl, h.1, h.2⟩
  | rejected s => rw [hp] at h; simp at h
  | thrown => rw [hp] at h; cases h

/-- The address of a label that is bound in the table. -/
theorem getAddress_of_table (st : SymbolTable) (L : Str) (a : Nat)
    (h : st.table L = some a) : getAddress st L = a := by
  simp [getAddress, h]

/-- C16 (as amended). Text labels name the next instruction: in a source
accepted by both passes, for a label `L:` that is followed on its line by
nothing or by a statement that does not start with `.`, and that is not defined
again on a later line, `getAddress(L)` after the first pass is `4 * k` (as a
32-bit address), `k` being the number of instruction lines before the label
line; the second pass builds one record per instruction line, in order, so the
first instruction at or after the label line is record `k`, and the listing
loop of `main.cpp` prints that same address in front of it. Blank, comment and
directive lines are no instruction lines and change nothing. -/
theorem text_label_names_next_instruction (pre post : List Str) (l L : Str)
    (st1 st2 : SymbolTable) (ins1 instrs : List Instruction)
    (hp1 : parseFile (pre ++ l :: post) [] emptySymbolTable true = .returned true st1 ins1)
    (hp2 : parseFile (pre ++ l :: post) ins1 st1 false = .returned true st2 instrs)
    (hl : labelOfLine l = some L)
    (hstmt : (statementOfLine l).isEmpty = true ∨ (statementOfLine l).head? ≠ some '.')
    (hpost : ∀ r ∈ post, labelOfLine r ≠ some L) :
    getAddress st1 L = (4 * (pre.filterMap instrText).length) % 4294967296 ∧
    instrs.map (fun i => i.line_name) =
      pre.filterMap instrText ++ (l :: post).filterMap instrText ∧
    (∀ t, ((l :: post).filterMap instrText).head? = some t →
      (instrs.map (fun i => i.line_name))[(pre.filterMap instrText).length]? = some t ∧
      (listingAddresses instrs 0)[(pre.filterMap instrText).length]? =
        some (getAddress st1 L)) := by
  obtain ⟨s1, hs1, hst1, hins1⟩ := parseFile_true _ _ _ _ _ _ hp1
  obtain ⟨s2, hs2, -, hins2⟩ := parseFile_true _ _ _ _ _ _ hp2
  have h0 : (parseStart [] emptySymbolTable).textAddress < 4294967296 := by decide
  obtain ⟨sp, hsp, htp, hbind⟩ := label_binding pre post l L _ s1 h0 hs1 hl hpost
  have hi1 : ins1 = [] := by
    rw [← hins1, (firstPass_lines _ _ s1 h0 hs1).2.1]; rfl
  subst hi1
  have hnd : ¬ (¬ (statementOfLine l).isEmpty = true ∧ (statementOfLine l).head? = some '.') := by
    rintro ⟨h1, h2⟩
    rcases hstmt with h | h
    · exact h1 h
    · exact h h2
  rw [if_neg hnd] at hbind
  rw [hst1] at hbind
  have haddr : getAddress st1 L = (4 * (pre.filterMap instrText).length) % 4294967296 := by
    rw [getAddress_of_table _ _ _ hbind, htp]
    simp [parseStart]
  have h02 : (parseStart [] st1).textAddress < 4294967296 := by
    show 0 < 4294967296
    decide
  obtain ⟨-, hmap, -⟩ := secondPass_lines _ _ s2 h02 hs2
  rw [hins2] at hmap
  have hmap2 : instrs.map (fun i => i.line_name) =
      pre.filterMap instrText ++ (l :: post).filterMap instrText := by
    rw [hmap]
    simp [parseStart, List.filterMap_append]
  refine ⟨haddr, hmap2, ?_⟩
  intro t ht
  have hk : (instrs.map (fun i => i.line_name))[(pre.filterMap instrText).length]? = some t := by
    rw [hmap2, List.getElem?_append_right (le_refl _), Nat.sub_self]
    cases hq : (l :: post).filterMap instrText with
    | nil => rw [hq] at ht; cases ht
    | cons a q =>
      rw [hq] at ht
      simp only [List.head?_cons, Option.some.injEq] at ht
      simp [ht]
  refine ⟨hk, ?_⟩
  have hlen : (pre.filterMap instrText).length < instrs.length := by
    have := List.getElem?_eq_some_iff.mp hk
    obtain ⟨hlt, -⟩ := this
    simpa using hlt
  rw [listingAddresses_get instrs 0 _ (by decide) hlen, haddr]
  simp

/-- Witness of C16: in `labelledSource` the label `loop` stands in front of
the second instruction and `getAddress(loop)` is `4`. -/
theorem text_label_names_next_instruction_witness :
    getAddress (firstPassSymbols labelledSource) "loop".toList = 4 ∧
    ((parseFile labelledSource [] (firstPassSymbols labelledSource) false).instrs.map
      (fun i => i.line_name))[1]? = some "addi x5, x5, 1".toList := by
  have h := text_label_names_next_instruction
    (labelledSource.take 8) ["bne x5, x6, loop".toList] "loop: addi x5, x5, 1".toList
    "loop".toList (firstPassSymbols labelledSource)
    (parseFile labelledSource [] (firstPassSymbols labelledSource) false).symbols []
    (parseFile labelledSource [] (firstPassSymbols labelledSource) false).instrs
    (by rfl) (by rfl) (by decide) (by decide) (by decide)
  have hk : ((labelledSource.take 8).filterMap instrText).length = 1 := by decide
  rw [hk] at h
  exact ⟨h.1, (h.2.2 "addi x5, x5, 1".toList (by decide)).1⟩

/-- C17 (as amended). A label `L:` that is not defined again is bound by the
first pass as follows: when it stands alone on its line, to the text address at
that point (`4 * k` as a 32-bit address, `k` being the number of instruction
lines before it), whatever the next effective line is; when a statement that
starts with `.` follows it on the same line, to the value of the data cursor at
that point, with which the directive is then processed. -/
theorem label_alone_binds_text_address (pre post : List Str) (l L : Str)
    (st1 : SymbolTable) (ins1 : List Instruction)
    (hp1 : parseFile (pre ++ l :: post) [] emptySymbolTable true = .returned true st1 ins1)
    (hl : labelOfLine l = some L)
    (hpost : ∀ r ∈ post, labelOfLine r ≠ some L) :
    ∃ sp : ParseState, parseLines true pre (parseStart [] emptySymbolTable) = .next sp ∧
      sp.textAddress = (4 * (pre.filterMap instrText).length) % 4294967296 ∧
      ((statementOfLine l).isEmpty = true → getAddress st1 L = sp.textAddress) ∧
      ((¬ (statementOfLine l).isEmpty = true ∧ (statementOfLine l).head? = some '.') →
        getAddress st1 L = sp.dataAddress ∧
        parseLine true l sp = parseStatement true (statementOfLine l)
          { sp with symbolTable := addLabel sp.symbolTable L sp.dataAddress }) := by
  obtain ⟨s1, hs1, hst1, -⟩ := parseFile_true _ _ _ _ _ _ hp1
  have h0 : (parseStart [] emptySymbolTable).textAddress < 4294967296 := by decide
  obtain ⟨sp, hsp, htp, hbind⟩ := label_binding pre post l L _ s1 h0 hs1 hl hpost
  rw [hst1] at hbind
  refine ⟨sp, hsp, ?_, ?_, ?_⟩
  · rw [htp]; simp [parseStart]
  · intro he
    have hnd : ¬ (¬ (statementOfLine l).isEmpty = true ∧
        (statementOfLine l).head? = some '.') := fun h => h.1 he
    rw [if_neg hnd] at hbind
    exact getAddress_of_table _ _ _ hbind
  · intro hd
    rw [if_pos hd] at hbind
    refine ⟨getAddress_of_table _ _ _ hbind, ?_⟩
    rw [parseLine_eq, hl]
    have hv : validLabel L = true := by
      rw [parseLines_append, hsp] at hs1
      simp only [parseLines] at hs1
      cases hline : parseLine true l sp with
      | rejected s2 => rw [hline] at hs1; cases hs1
      | thrown => rw [hline] at hs1; cases hs1
      | next s2 => exact parseLine_true_next l sp s2 hline L hl
    simp only [hv, if_true, hd]
    simp

/-- Witness of C17: `arr:` alone before `.word 5` is bound to the text address
`0`; `arr: .word 5` on one line is bound to the data cursor `0x10000000`. -/
theorem label_alone_binds_text_address_witness :
    getAddress (firstPassSymbols dataLabelSource) "arr".toList = 0 ∧
    getAddress (firstPassSymbols dataLabelSameLineSource) "arr".toList = 0x10000000 := by
  obtain ⟨sp, hsp, htext, halone, -⟩ := label_alone_binds_text_address
    [".data".toList] [".word 5".toList] "arr:".toList "arr".toList
    (firstPassSymbols dataLabelSource) [] (by rfl) (by decide) (by decide)
  obtain ⟨sq, hsq, -, -, hsame⟩ := label_alone_binds_text_address
    [".data".toList] [] "arr: .word 5".toList "arr".toList
    (firstPassSymbols dataLabelSameLineSource) [] (by rfl) (by decide) (by decide)
  have e1 : sp = { parseStart [] emptySymbolTable with
      symbolTable := { dataSegments := [{ startAddress := 0x10000000, contents := [] }] } } := by
    have : parseLines true [".data".toList] (parseStart [] emptySymbolTable) = .next
        { parseStart [] emptySymbolTable with
          symbolTable := { dataSegments := [{ startAddress := 0x10000000, contents := [] }] } } :=
      rfl
    rw [this] at hsp
    cases hsp
    rfl
  have e2 : sq = sp := by
    rw [hsp] at hsq
    cases hsq
    rfl
  refine ⟨?_, ?_⟩
  · rw [halone (by decide), htext]
    decide
  · rw [(hsame ⟨by decide, by decide⟩).1, e2, e1]
    rfl

/-! ## Label resolution on the second pass -/

/-- The second pass on a line whose label, if any, is valid. -/
theorem parseLine_false_eq (raw : Str) (s : ParseState)
    (hlabel : ∀ label, labelOfLine raw = some label → validLabel label = true) :
    parseLine false raw s = parseStatement false (statementOfLine raw) s := by
  rw [parseLine_eq]
  cases hl : labelOfLine raw with
  | none => rfl
  | some label =>
    simp only [hlabel label hl, if_true]
    simp

/-- The second pass on an instruction statement, in terms of its record. -/
theorem parseStatement_false_instr (stmt : Str) (s : ParseState) (instr : Instruction)
    (hins : isInstruction stmt = true)
    (hparse : parseInstructionFields stmt {} = some instr) :
    parseStatement false stmt s =
      if (instr.format = "SB".toList ∨ instr.format = "UJ".toList) ∧
          ¬ instr.immediate.isEmpty then
        if ¬ isDigit ((trimWhitespace instr.immediate).headD (Char.ofNat 0)) then
          if getAddress s.symbolTable (trimWhitespace instr.immediate) ≠ 0xFFFFFFFF then
            .next { s with
              instructions := s.instructions ++
                [{ instr with
                    immediate := to_string (wrapI32 (toI32 (getAddress s.symbolTable
                                  (trimWhitespace instr.immediate)) - toI32 s.textAddress)) }]
              textAddress := (s.textAddress + 4) % 4294967296 }
          else .rejected s
        else
          .next { s with
            instructions := s.instructions ++ [instr]
            textAddress := (s.textAddress + 4) % 4294967296 }
      else
        .next { s with
          instructions := s.instructions ++ [instr]
          textAddress := (s.textAddress + 4) % 4294967296 } := by
  unfold isInstruction at hins
  simp only [Bool.and_eq_true, Bool.not_eq_true', Bool.and_eq_false_iff, List.isEmpty_eq_true,
    decide_eq_false_iff_not] at hins
  obtain ⟨h1, h2⟩ := hins
  have he : ¬ stmt.isEmpty = true := by simpa using h1
  have hd : ¬ (¬ (readWord { rest := stmt, failed := false } []).1.isEmpty = true ∧
      (readWord { rest := stmt, failed := false } []).1.head? = some '.') := by
    rintro ⟨a, b⟩
    rcases h2 with h | h
    · simp at h
      exact a (by simpa using h)
    · exact h b
  unfold parseStatement
  simp only [he, hd, if_false, Bool.false_eq_true, not_false_eq_true, if_true, hparse]

/-- The signed 32-bit difference of two 32-bit addresses: the value in
`[-2^31, 2^31)` congruent to `A - t` modulo `2^32`. -/
theorem offset_spec (A t : Nat) :
    -2147483648 ≤ wrapI32 (toI32 A - toI32 t) ∧ wrapI32 (toI32 A - toI32 t) < 2147483648 ∧
    (wrapI32 (toI32 A - toI32 t) - ((A : Int) - (t : Int))) % 4294967296 = 0 := by
  unfold wrapI32 toI32 toU32
  refine ⟨?_, ?_, ?_⟩ <;> (split <;> split <;> split <;> omega)

/-- C18. Label resolution on the second pass: for an instruction line reached
by the second pass at text address `t` (`4 * k` for the `k` instruction lines
before it) whose record has format SB or UJ and whose immediate is a token `L`
that does not start with a digit: if the table of the first pass binds `L` to an
address `A` other than the sentinel `0xFFFFFFFF`, the pass appends the record
with the immediate replaced by the decimal text of the signed 32-bit difference
`A - t` and goes on; if the table does not bind `L`, `parseFile` returns `false`
and the instruction vector holds only the records of the lines before. -/
theorem label_resolution (pre post : List Str) (raw : Str) (symbolTable : SymbolTable)
    (ins0 : List Instruction) (s : ParseState) (instr : Instruction)
    (hpre : parseLines false pre (parseStart ins0 symbolTable) = .next s)
    (hlabel : ∀ label, labelOfLine raw = some label → validLabel label = true)
    (hins : isInstruction (statementOfLine raw) = true)
    (hparse : parseInstructionFields (statementOfLine raw) {} = some instr)
    (hfmt : instr.format = "SB".toList ∨ instr.format = "UJ".toList)
    (himm : instr.immediate ≠ [])
    (hid : isDigit ((trimWhitespace instr.immediate).headD (Char.ofNat 0)) = false) :
    s.symbolTable = symbolTable ∧
    s.textAddress = (4 * (pre.filterMap instrText).length) % 4294967296 ∧
    (∀ A, symbolTable.table (trimWhitespace instr.immediate) = some A → A ≠ 0xFFFFFFFF →
      parseLines false (pre ++ [raw]) (parseStart ins0 symbolTable) = .next { s with
        instructions := s.instructions ++
          [{ instr with immediate := to_string (wrapI32 (toI32 A - toI32 s.textAddress)) }]
        textAddress := (s.textAddress + 4) % 4294967296 } ∧
      -2147483648 ≤ wrapI32 (toI32 A - toI32 s.textAddress) ∧
      wrapI32 (toI32 A - toI32 s.textAddress) < 2147483648 ∧
      (wrapI32 (toI32 A - toI32 s.textAddress) - ((A : Int) - (s.textAddress : Int)))
        % 4294967296 = 0) ∧
    (symbolTable.table (trimWhitespace instr.immediate) = none →
      parseFile (pre ++ raw :: post) ins0 symbolTable false =
        .returned false symbolTable s.instructions) := by
  have h0 : (parseStart ins0 symbolTable).textAddress < 4294967296 := by
    show 0 < 4294967296
    decide
  obtain ⟨hst, -, hta⟩ := secondPass_lines pre _ s h0 hpre
  have hst' : s.symbolTable = symbolTable := hst
  have hcond : (instr.format = "SB".toList ∨ instr.format = "UJ".toList) ∧
      ¬ instr.immediate.isEmpty = true := ⟨hfmt, by simpa using himm⟩
  have hnd : ¬ isDigit ((trimWhitespace instr.immediate).headD (Char.ofNat 0)) = true := by
    rw [hid]; decide
  have hstep := parseStatement_false_instr (statementOfLine raw) s instr hins hparse
  rw [if_pos hcond, if_pos hnd] at hstep
  refine ⟨hst', ?_, ?_, ?_⟩
  · rw [hta]; simp [parseStart]
  · intro A hA hne
    have hga : getAddress s.symbolTable (trimWhitespace instr.immediate) = A := by
      rw [hst']; exact getAddress_of_table _ _ _ hA
    rw [hga, if_pos hne] at hstep
    refine ⟨?_, offset_spec A s.textAddress⟩
    rw [parseLines_append, hpre]
    simp only [parseLines]
    rw [parseLine_false_eq raw s hlabel, hstep]
  · intro hnone
    have hga : getAddress s.symbolTable (trimWhitespace instr.immediate) = 0xFFFFFFFF := by
      rw [hst']; simp [getAddress, hnone]
    rw [hga] at hstep
    simp only [ne_eq, not_true_eq_false, if_false] at hstep
    rw [parseFile_eq, parseLines_append, hpre]
    simp only [parseLines]
    rw [parseLine_false_eq raw s hlabel, hstep]
    simp only [hst']

/-- Witness of C18: in `labelledSource` the line `bne x5, x6, loop` stands at
text address 8 and `loop` is bound to 4, so its record gets the immediate `-4`;
the source `beq x1, x2, nowhere` is rejected by the second pass with no record. -/
theorem label_resolution_witness :
    (∃ s1 : ParseState,
      parseLines false labelledSource (parseStart [] (firstPassSymbols labelledSource))
        = .next s1 ∧
      s1.instructions.map (fun i => i.immediate) = ["0".toList, "1".toList, "-4".toList]) ∧
    parseFile unboundLabelSource [] (firstPassSymbols unboundLabelSource) false =
      .returned false (firstPassSymbols unboundLabelSource) [] := by
  constructor
  · obtain ⟨-, -, hbound, -⟩ := label_resolution (labelledSource.take 9) []
      "bne x5, x6, loop".toList (firstPassSymbols labelledSource) [] _
      { line_name := "bne x5, x6, loop".toList, opcode := "bne".toList, format := "SB".toList,
        rs1 := "x5".toList, rs2 := "x6".toList, immediate := "loop".toList }
      rfl (by decide) (by decide) (by decide) (by decide) (by decide) (by decide)
    exact ⟨_, (hbound 4 (by decide) (by decide)).1, by decide⟩
  · obtain ⟨-, -, -, hunbound⟩ := label_resolution [] []
      "beq x1, x2, nowhere".toList (firstPassSymbols unboundLabelSource) [] _
      { line_name := "beq x1, x2, nowhere".toList, opcode := "beq".toList,
        format := "SB".toList, rs1 := "x1".toList, rs2 := "x2".toList,
        immediate := "nowhere".toList }
      rfl (by decide) (by decide) (by decide) (by decide) (by decide) (by decide)
    exact hunbound (by decide)

/-! ## Unknown mnemonics -/

/-- C20 (as amended). Unknown mnemonics are not rejected by `parseFile`: for a
line whose statement is an instruction and whose first token is none of the
mnemonics that `parseInstructionFields` tests for, the second pass appends a
record that holds only the statement (`line_name`) and that token (`opcode`),
with an empty format and empty operands, advances the text address by 4 and
goes on with the next line. -/
theorem unknown_mnemonic_accepted (raw : Str) (s : ParseState)
    (hlabel : ∀ label, labelOfLine raw = some label → validLabel label = true)
    (hins : isInstruction (statementOfLine raw) = true)
    (hunk : (readWord { rest := statementOfLine raw, failed := false } []).1 ∉
      rMnemonics ++ iMnemonics ++ loadMnemonics ++ storeMnemonics ++ sbMnemonics ++
        uMnemonics ++ ["jal".toList]) :
    parseInstructionFields (statementOfLine raw) {} =
      some { line_name := statementOfLine raw,
             opcode := (readWord { rest := statementOfLine raw, failed := false } []).1 } ∧
    parseLine false raw s = .next { s with
      instructions := s.instructions ++
        [{ line_name := statementOfLine raw,
           opcode := (readWord { rest := statementOfLine raw, failed := false } []).1 }]
      textAddress := (s.textAddress + 4) % 4294967296 } ∧
    (∀ post : List Str, parseLines false (raw :: post) s =
      parseLines false post { s with
        instructions := s.instructions ++
          [{ line_name := statementOfLine raw,
             opcode := (readWord { rest := statementOfLine raw, failed := false } []).1 }]
        textAddress := (s.textAddress + 4) % 4294967296 }) := by
  simp only [List.mem_append, List.mem_singleton, not_or] at hunk
  obtain ⟨⟨⟨⟨⟨⟨h1, h2⟩, h3⟩, h4⟩, h5⟩, h6⟩, h7⟩ := hunk
  have hp : parseInstructionFields (statementOfLine raw) {} =
      some { line_name := statementOfLine raw,
             opcode := (readWord { rest := statementOfLine raw, failed := false } []).1 } := by
    unfold parseInstructionFields
    simp only [h1, h2, h3, h4, h5, h6, h7, if_false]
  have hstep := parseStatement_false_instr (statementOfLine raw) s _ hins hp
  have hfmt : ¬ ((([] : Str) = "SB".toList ∨ ([] : Str) = "UJ".toList) ∧
      ¬ ([] : Str).isEmpty = true) := by decide
  rw [if_neg hfmt] at hstep
  have hline := parseLine_false_eq raw s hlabel
  rw [hstep] at hline
  refine ⟨hp, hline, ?_⟩
  intro post
  simp only [parseLines, hline]

/-- Witness of C20: the line `foo x1, x2, x3`. -/
theorem unknown_mnemonic_accepted_witness :
    parseLine false "foo x1, x2, x3".toList (parseStart [] emptySymbolTable) = .next
      { parseStart [] emptySymbolTable with
        instructions := [{ line_name := "foo x1, x2, x3".toList, opcode := "foo".toList }]
        textAddress := 4 } :=
  (unknown_mnemonic_accepted "foo x1, x2, x3".toList (parseStart [] emptySymbolTable)
    (by decide) (by decide) (by decide)).2.1

/-! ## Decimal text -/

theorem digitChar_isDigit (d : Nat) (h : d < 10) :
    isDigit (digitChar d) = true ∧ digitValue (digitChar d) = d ∧ isSpace (digitChar d) = false := by
  interval_cases d <;> decide

theorem digitsValue_append (base : Nat) (l : Str) (c : Char) :
    digitsValue base (l ++ [c]) = digitsValue base l * base + digitValue c := by
  simp [digitsValue, List.foldl_append]

/-- The decimal digits of `n`: not empty, all digits, and with value `n`. -/
theorem natDigits_spec (fuel : Nat) : ∀ n : Nat, n < fuel →
    natDigits 10 fuel n ≠ [] ∧ (∀ c ∈ natDigits 10 fuel n, isDigit c = true) ∧
    digitsValue 10 (natDigits 10 fuel n) = n := by
  induction fuel with
  | zero => intro n h; omega
  | succ fuel ih =>
    intro n h
    unfold natDigits
    by_cases h10 : n < 10
    · rw [if_pos h10]
      obtain ⟨h1, h2, -⟩ := digitChar_isDigit n h10
      refine ⟨by simp, ?_, ?_⟩
      · intro c hc
        simp only [List.mem_singleton] at hc
        rw [hc]; exact h1
      · simp [digitsValue, h2]
    · rw [if_neg h10]
      obtain ⟨i1, i2, i3⟩ := ih (n / 10) (by omega)
      obtain ⟨h1, h2, -⟩ := digitChar_isDigit (n % 10) (by omega)
      refine ⟨by simp, ?_, ?_⟩
      · intro c hc
        simp only [List.mem_append, List.mem_singleton] at hc
        rcases hc with hc | hc
        · exact i2 c hc
        · rw [hc]; exact h1
      · rw [digitsValue_append, i3, h2]
        omega

theorem dropWhile_append_stop (p : Char → Bool) (l t : Str) (hl : ∀ c ∈ l, p c = true)
    (ht : ∀ c, t.head? = some c → p c = false) : (l ++ t).dropWhile p = t := by
  induction l with
  | nil =>
    cases t with
    | nil => rfl
    | cons a t => simp [List.dropWhile, ht a rfl]
  | cons a l ih =>
    simp only [List.cons_append, List.dropWhile, hl a (List.mem_cons_self _ _)]
    exact ih (fun c hc => hl c (List.mem_cons_of_mem _ hc))

theorem takeWhile_append_stop (p : Char → Bool) (l t : Str) (hl : ∀ c ∈ l, p c = true)
    (ht : ∀ c, t.head? = some c → p c = false) : (l ++ t).takeWhile p = l := by
  induction l with
  | nil =>
    cases t with
    | nil => rfl
    | cons a t => simp [List.takeWhile, ht a rfl]
  | cons a l ih =>
    simp only [List.cons_append, List.takeWhile, hl a (List.mem_cons_self _ _)]
    exact congrArg _ (ih (fun c hc => hl c (List.mem_cons_of_mem _ hc)))

/-- The decimal text of an `int`: an optional `-` and digits. -/
theorem to_string_chars (v : Int) : ∀ c ∈ to_string v, isDigit c = true ∨ c = '-' := by
  intro c hc
  unfold to_string at hc
  split at hc
  · simp only [List.mem_cons] at hc
    rcases hc with hc | hc
    · right; exact hc
    · left; exact (natDigits_spec _ _ (Nat.lt_succ_self _)).2.1 c hc
  · left; exact (natDigits_spec _ _ (Nat.lt_succ_self _)).2.1 c hc

theorem to_string_ne_nil (v : Int) : to_string v ≠ [] := by
  unfold to_string
  split
  · simp
  · exact (natDigits_spec _ _ (Nat.lt_succ_self _)).1

/-- Reading back the decimal text of `v`: the extraction `iss >> value` skips
the white space `sep`, reads the text and stops in front of `rest`, which is
empty or starts with a character that is not a digit. -/
theorem readInt_to_string (lo hi v : Int) (sep rest : Str) (hlo : lo ≤ v) (hhi : v ≤ hi)
    (hsep : ∀ c ∈ sep, isSpace c = true)
    (hrest : ∀ c, rest.head? = some c → isDigit c = false) :
    readInt lo hi { rest := sep ++ (to_string v ++ rest), failed := false } =
      (some v, { rest := rest, failed := false }) := by
  have hds : ∀ n : Nat, natDigits 10 (n + 1) n ≠ [] ∧
      (∀ c ∈ natDigits 10 (n + 1) n, isDigit c = true) ∧
      digitsValue 10 (natDigits 10 (n + 1) n) = n :=
    fun n => natDigits_spec _ _ (Nat.lt_succ_self _)
  have hdig_nospace : ∀ c, isDigit c = true → isSpace c = false := by
    intro c hc
    unfold isDigit at hc
    simp only [Bool.and_eq_true, decide_eq_true_eq] at hc
    unfold isSpace
    have h1 : c ≠ ' ' := by rintro rfl; revert hc; decide
    have h2 : c ≠ Char.ofNat 9 := by rintro rfl; revert hc; decide
    have h3 : c ≠ Char.ofNat 10 := by rintro rfl; revert hc; decide
    have h4 : c ≠ Char.ofNat 11 := by rintro rfl; revert hc; decide
    have h5 : c ≠ Char.ofNat 12 := by rintro rfl; revert hc; decide
    have h6 : c ≠ Char.ofNat 13 := by rintro rfl; revert hc; decide
    simp [h1, h2, h3, h4, h5, h6]
  have hdig_nosign : ∀ c, isDigit c = true → c ≠ '-' ∧ c ≠ '+' := by
    intro c hc
    constructor <;> (rintro rfl; revert hc; decide)
  unfold readInt
  simp only [Bool.false_eq_true, if_false]
  by_cases hneg : v < 0
  · have hts : to_string v = '-' :: natDigits 10 ((-v).toNat + 1) (-v).toNat := by
      unfold to_string; rw [if_pos hneg]
    obtain ⟨d1, d2, d3⟩ := hds (-v).toNat
    have hdrop : (sep ++ (to_string v ++ rest)).dropWhile isSpace = to_string v ++ rest := by
      apply dropWhile_append_stop _ _ _ hsep
      intro c hc
      rw [hts] at hc
      simp only [List.cons_append, List.head?_cons, Option.some.injEq] at hc
      rw [← hc]; decide
    rw [hdrop, hts]
    simp only [List.cons_append, List.head?_cons, List.tail_cons, true_or, if_true,
      decide_True]
    rw [takeWhile_append_stop _ _ _ d2 hrest, dropWhile_append_stop _ _ _ d2 hrest]
    have hne : (natDigits 10 ((-v).toNat + 1) (-v).toNat).isEmpty = false := by
      cases hq : natDigits 10 ((-v).toNat + 1) (-v).toNat with
      | nil => exact absurd hq d1
      | cons a q => rfl
    rw [hne, d3]
    have hv : -(((-v).toNat : Nat) : Int) = v := by omega
    simp only [Bool.false_eq_true, if_false, if_true, hv]
    rw [if_pos ⟨hlo, hhi⟩]
  · have hts : to_string v = natDigits 10 (v.toNat + 1) v.toNat := by
      unfold to_string; rw [if_neg hneg]
    obtain ⟨d1, d2, d3⟩ := hds v.toNat
    obtain ⟨a, q, hq⟩ : ∃ a q, natDigits 10 (v.toNat + 1) v.toNat = a :: q := by
      cases hq : natDigits 10 (v.toNat + 1) v.toNat with
      | nil => exact absurd hq d1
      | cons a q => exact ⟨a, q, rfl⟩
    have ha : isDigit a = true := d2 a (by rw [hq]; exact List.mem_cons_self _ _)
    have hdrop : (sep ++ (to_string v ++ rest)).dropWhile isSpace = to_string v ++ rest := by
      apply dropWhile_append_stop _ _ _ hsep
      intro c hc
      rw [hts, hq] at hc
      simp only [List.cons_append, List.head?_cons, Option.some.injEq] at hc
      rw [← hc]; exact hdig_nospace a ha
    rw [hdrop, hts]
    have hhead : (natDigits 10 (v.toNat + 1) v.toNat ++ rest).head? = some a := by
      rw [hq]; rfl
    have hs1 : ¬ (some a = some '-') := by
      intro h; exact (hdig_nosign a ha).1 (Option.some.inj h)
    have hs2 : ¬ (some a = some '+') := by
      intro h; exact (hdig_nosign a ha).2 (Option.some.inj h)
    simp only [hhead, hs1, hs2, or_self, if_false, decide_False]
    rw [takeWhile_append_stop _ _ _ d2 hrest, dropWhile_append_stop _ _ _ d2 hrest]
    have hne : (natDigits 10 (v.toNat + 1) v.toNat).isEmpty = false := by
      rw [hq]; rfl
    rw [hne, d3]
    have hv : ((v.toNat : Nat) : Int) = v := by omega
    simp only [Bool.false_eq_true, if_false, hv]
    rw [if_pos ⟨hlo, hhi⟩]

/-! ## The `.word` directive -/

theorem isSpace_not_digit (c : Char) (h : isSpace c = true) :
    isDigit c = false ∧ c ≠ '#' ∧ c ≠ ':' ∧ c ≠ '.' := by
  unfold isSpace at h
  simp only [Bool.or_eq_true, decide_eq_true_eq] at h
  rcases h with ((((h | h) | h) | h) | h) | h <;> subst h <;> decide

theorem isDigit_plain (c : Char) (h : isDigit c = true) :
    isBlank c = false ∧ c ≠ '#' ∧ c ≠ ':' := by
  unfold isDigit at h
  simp only [Bool.and_eq_true, decide_eq_true_eq] at h
  refine ⟨?_, ?_, ?_⟩
  · unfold isBlank
    have h1 : c ≠ ' ' := by rintro rfl; revert h; decide
    have h2 : c ≠ Char.ofNat 9 := by rintro rfl; revert h; decide
    simp [h1, h2]
  · rintro rfl; revert h; decide
  · rintro rfl; revert h; decide

/-- The characters of the operands of a `.word` line. -/
theorem wordLine_chars (items : List (Str × Int))
    (hsep : ∀ p ∈ items, p.1 ≠ [] ∧ ∀ c ∈ p.1, isSpace c = true) :
    ∀ c ∈ wordLine items, c ≠ '#' ∧ c ≠ ':' := by
  induction items with
  | nil => intro c hc; simp [wordLine] at hc
  | cons item rest ih =>
    intro c hc
    simp only [wordLine, List.mem_append] at hc
    rcases hc with hc | hc | hc
    · have := isSpace_not_digit c ((hsep item (List.mem_cons_self _ _)).2 c hc)
      exact ⟨this.2.1, this.2.2.1⟩
    · rcases to_string_chars item.2 c hc with h | h
      · exact (isDigit_plain c h).2
      · subst h; decide
    · exact ih (fun p hp => hsep p (List.mem_cons_of_mem _ hp)) c hc

/-- The operands start with white space. -/
theorem wordLine_head (items : List (Str × Int))
    (hsep : ∀ p ∈ items, p.1 ≠ [] ∧ ∀ c ∈ p.1, isSpace c = true) :
    ∀ c, (wordLine items).head? = some c → isSpace c = true := by
  intro c hc
  cases items with
  | nil => simp [wordLine] at hc
  | cons item rest =>
    obtain ⟨hne, hall⟩ := hsep item (List.mem_cons_self _ _)
    cases hq : item.1 with
    | nil => exact absurd hq hne
    | cons a q =>
      simp only [wordLine, hq, List.cons_append, List.head?_cons, Option.some.injEq] at hc
      rw [← hc]
      exact hall a (by rw [hq]; exact List.mem_cons_self _ _)

/-- The operands of a non-empty list end with a digit. -/
theorem wordLine_last (items : List (Str × Int)) (hne : items ≠ []) :
    ∃ z, (wordLine items).getLast? = some z ∧ isDigit z = true := by
  induction items with
  | nil => exact absurd rfl hne
  | cons item rest ih =>
    have hts : ∃ z, (to_string item.2).getLast? = some z ∧ isDigit z = true := by
      unfold to_string
      split
      · obtain ⟨d1, d2, -⟩ := natDigits_spec ((-item.2).toNat + 1) (-item.2).toNat
          (Nat.lt_succ_self _)
        cases hq : natDigits 10 ((-item.2).toNat + 1) (-item.2).toNat with
        | nil => exact absurd hq d1
        | cons a q =>
          rw [List.getLast?_cons_cons]
          have hl := List.getLast?_eq_getLast (a :: q) (by simp)
          exact ⟨_, hl, d2 _ (by rw [hq]; exact List.getLast_mem _)⟩
      · obtain ⟨d1, d2, -⟩ := natDigits_spec (item.2.toNat + 1) item.2.toNat
          (Nat.lt_succ_self _)
        have hl := List.getLast?_eq_getLast _ d1
        exact ⟨_, hl, d2 _ (List.getLast_mem _)⟩
    obtain ⟨z, hz, hzd⟩ := hts
    simp only [wordLine, List.getLast?_append]
    cases rest with
    | nil =>
      refine ⟨z, ?_, hzd⟩
      simp [wordLine, hz]
    | cons r rest' =>
      obtain ⟨y, hy, hyd⟩ := ih (by simp)
      refine ⟨y, ?_, hyd⟩
      simp [hy]

theorem dropWhile_id (p : Char → Bool) (l : Str) (h : ∀ c, l.head? = some c → p c = false) :
    l.dropWhile p = l := by
  cases l with
  | nil => rfl
  | cons a t => simp [List.dropWhile, h a rfl]

/-- A string that neither starts nor ends with a space or tab is its own trimming. -/
theorem trimWhitespace_id (l : Str) (hh : ∀ c, l.head? = some c → isBlank c = false)
    (hl : ∀ c, l.getLast? = some c → isBlank c = false) : trimWhitespace l = l := by
  unfold trimWhitespace
  rw [dropWhile_id _ _ hh, dropWhile_id _ _ (by rw [List.head?_reverse]; exact hl),
    List.reverse_reverse]

/-- The loop body of `parseFile` sees the `.word` line as it is, without label. -/
theorem wordLine_effective (items : List (Str × Int))
    (hsep : ∀ p ∈ items, p.1 ≠ [] ∧ ∀ c ∈ p.1, isSpace c = true) :
    effectiveLine (".word".toList ++ wordLine items) = ".word".toList ++ wordLine items ∧
    ':' ∉ ".word".toList ++ wordLine items := by
  have hch := wordLine_chars items hsep
  have hc1 : ∀ c ∈ ".word".toList ++ wordLine items, c ≠ '#' ∧ c ≠ ':' := by
    intro c hc
    rw [List.mem_append] at hc
    rcases hc with hc | hc
    · revert c; decide
    · exact hch c hc
  refine ⟨?_, fun h => (hc1 _ h).2 rfl⟩
  unfold effectiveLine removeComments
  have : (".word".toList ++ wordLine items).takeWhile (fun c => c != '#') =
      ".word".toList ++ wordLine items := by
    rw [List.takeWhile_eq_self_iff]
    intro c hc
    simpa using (hc1 c hc).1
  rw [this]
  apply trimWhitespace_id
  · intro c hc
    have : c = '.' := by
      have h2 : (".word".toList ++ wordLine items).head? = some '.' := rfl
      rw [h2] at hc
      exact (Option.some.inj hc).symm
    subst this; decide
  · intro c hc
    by_cases hi : items = []
    · subst hi
      have h2 : (".word".toList ++ wordLine []).getLast? = some 'd' := by decide
      rw [h2] at hc
      have : c = 'd' := (Option.some.inj hc).symm
      subst this; decide
    · obtain ⟨z, hz, hzd⟩ := wordLine_last items hi
      rw [List.getLast?_append, hz] at hc
      simp only [Option.or_some, Option.some.injEq] at hc
      subst hc
      exact (isDigit_plain _ hzd).1

/-- The first word of the `.word` line is the directive. -/
theorem wordLine_readWord (items : List (Str × Int))
    (hsep : ∀ p ∈ items, p.1 ≠ [] ∧ ∀ c ∈ p.1, isSpace c = true) :
    readWord { rest := ".word".toList ++ wordLine items, failed := false } [] =
      (".word".toList, { rest := wordLine items, failed := false }) := by
  have hhead := wordLine_head items hsep
  unfold readWord
  simp only [Bool.false_eq_true, if_false]
  have h1 : (".word".toList ++ wordLine items).dropWhile isSpace =
      ".word".toList ++ wordLine items := by
    apply dropWhile_id
    intro c hc
    have h2 : (".word".toList ++ wordLine items).head? = some '.' := rfl
    rw [h2] at hc
    have : c = '.' := (Option.some.inj hc).symm
    subst this; decide
  rw [h1]
  have h3 : (".word".toList ++ wordLine items).isEmpty = false := rfl
  rw [h3]
  simp only [Bool.false_eq_true, if_false]
  rw [takeWhile_append_stop (fun c => !isSpace c) _ _ (by decide)
      (fun c hc => by simp [hhead c hc]),
    dropWhile_append_stop (fun c => !isSpace c) _ _ (by decide)
      (fun c hc => by simp [hhead c hc])]

theorem wordLine_length (items : List (Str × Int)) : items.length ≤ (wordLine items).length := by
  induction items with
  | nil => simp
  | cons item rest ih =>
    have := to_string_ne_nil item.2
    have hpos : 0 < (to_string item.2).length := List.length_pos.mpr this
    simp only [wordLine, List.length_cons, List.length_append]
    omega

/-- The loop of `.word` over the operands: one entry of size 4 is appended to
the open segment for each value, in order, and the data cursor advances by 4
for each. -/
theorem dataLoop_wordLine (items : List (Str × Int))
    (hsep : ∀ p ∈ items, p.1 ≠ [] ∧ ∀ c ∈ p.1, isSpace c = true)
    (hrange : ∀ p ∈ items, -2147483648 ≤ p.2 ∧ p.2 ≤ 2147483647) :
    ∀ (fuel : Nat) (table : List Char → Option Nat) (seg : DataSegment) (a : Nat),
      items.length < fuel → a < 4294967296 →
      dataLoop (-2147483648) 2147483647 (fun v => v) 4 fuel
          { rest := wordLine items, failed := false }
          { dataSegments := [seg], table := table } a =
        ({ dataSegments :=
            [{ seg with
                contents := seg.contents ++ items.map (fun p => { value := p.2, size := 4 }) }],
           table := table },
         (a + 4 * items.length) % 4294967296) := by
  induction items with
  | nil =>
    intro fuel table seg a hf ha
    cases fuel with
    | zero => simp at hf
    | succ fuel =>
      have hr : readInt (-2147483648) 2147483647 { rest := wordLine [], failed := false } =
          (none, { rest := [], failed := true }) := rfl
      unfold dataLoop
      rw [hr]
      simp only [List.map_nil, List.append_nil, List.length_nil, Nat.mul_zero, Nat.add_zero]
      congr 1
      omega
  | cons item rest ih =>
    intro fuel table seg a hf ha
    cases fuel with
    | zero => simp at hf
    | succ fuel =>
      have hsep' : ∀ p ∈ rest, p.1 ≠ [] ∧ ∀ c ∈ p.1, isSpace c = true :=
        fun p hp => hsep p (List.mem_cons_of_mem _ hp)
      have hrange' : ∀ p ∈ rest, -2147483648 ≤ p.2 ∧ p.2 ≤ 2147483647 :=
        fun p hp => hrange p (List.mem_cons_of_mem _ hp)
      have hr : readInt (-2147483648) 2147483647
          { rest := wordLine (item :: rest), failed := false } =
          (some item.2, { rest := wordLine rest, failed := false }) := by
        have e : wordLine (item :: rest) = item.1 ++ (to_string item.2 ++ wordLine rest) := rfl
        rw [e]
        exact readInt_to_string _ _ _ _ _ (hrange item (List.mem_cons_self _ _)).1
          (hrange item (List.mem_cons_self _ _)).2 (hsep item (List.mem_cons_self _ _)).2
          (fun c hc => (isSpace_not_digit c (wordLine_head rest hsep' c hc)).1)
      unfold dataLoop
      rw [hr]
      simp only [addDataToCurrentSegment, ensureSegment, List.isEmpty_cons, Bool.false_eq_true,
        if_false, pushEntry, List.getLast?_singleton, List.dropLast_single, List.nil_append]
      rw [ih hsep' hrange' fuel table _ _ (by simpa using hf) (by omega)]
      simp only [List.map_cons, List.append_assoc, List.singleton_append, List.length_cons]
      congr 1
      omega

/-- The first pass over `.data` / `.word v_0 .. v_{n-1}`: one segment at
`0x10000000` holding the values as entries of size 4. -/
theorem firstPass_wordSource (items : List (Str × Int))
    (hsep : ∀ p ∈ items, p.1 ≠ [] ∧ ∀ c ∈ p.1, isSpace c = true)
    (hrange : ∀ p ∈ items, -2147483648 ≤ p.2 ∧ p.2 ≤ 2147483647) :
    parseFile (wordSource items) [] emptySymbolTable true =
      .returned true
        { dataSegments := [{ startAddress := 0x10000000,
                             contents := items.map (fun p => { value := p.2, size := 4 }) }],
          table := fun _ => none } [] := by
  have h1 : parseLine true ".data".toList (parseStart [] emptySymbolTable) = .next
      { textAddress := 0, dataAddress := 0x10000000,
        symbolTable := { dataSegments := [{ startAddress := 0x10000000, contents := [] }],
                         table := fun _ => none },
        instructions := [] } := rfl
  obtain ⟨he, hc⟩ := wordLine_effective items hsep
  have hlab : labelOfLine (".word".toList ++ wordLine items) = none := by
    unfold labelOfLine
    rw [he, if_neg hc]
  have hstmt : statementOfLine (".word".toList ++ wordLine items) =
      ".word".toList ++ wordLine items := by
    unfold statementOfLine
    rw [he, if_neg hc]
  have h2 : ∀ s : ParseState, parseLine true (".word".toList ++ wordLine items) s = .next
      { s with
        symbolTable := (processDirective ".word".toList
          { rest := wordLine items, failed := false } s.symbolTable s.dataAddress).1
        dataAddress := (processDirective ".word".toList
          { rest := wordLine items, failed := false } s.symbolTable s.dataAddress).2 } := by
    intro s
    rw [parseLine_eq, hlab]
    simp only [hstmt]
    unfold parseStatement
    rw [wordLine_readWord items hsep]
    have : (".word".toList ++ wordLine items).isEmpty = false := rfl
    simp only [this]
    simp
  rw [parseFile_eq]
  unfold wordSource
  simp only [parseLines, h1, h2]
  have hd : processDirective ".word".toList { rest := wordLine items, failed := false }
      { dataSegments := [{ startAddress := 0x10000000, contents := [] }],
        table := fun _ => none } 0x10000000 =
      dataLoop (-2147483648) 2147483647 (fun v => v) 4 ((wordLine items).length + 1)
        { rest := wordLine items, failed := false }
        { dataSegments := [{ startAddress := 0x10000000, contents := [] }],
          table := fun _ => none } 0x10000000 := by
    unfold processDirective
    simp
  rw [hd, dataLoop_wordLine items hsep hrange _ _ _ _
    (by have := wordLine_length items; omega) (by decide)]
  simp

/-! ## Words in the initialised memory -/

theorem storeByte_eq (m : Memory) (a b : Nat) :
    storeByte m a b =
      memSet m (a &&& 0xFFFFFFFC) (laneSet (memGet m (a &&& 0xFFFFFFFC)) (a &&& 0x3) b) := by
  unfold storeByte laneSet
  have : (if (m (a &&& 0xFFFFFFFC)).isSome = true then memGet m (a &&& 0xFFFFFFFC) else 0) =
      memGet m (a &&& 0xFFFFFFFC) := by
    cases h : m (a &&& 0xFFFFFFFC) <;> simp [memGet, h]
  simp only [this]

theorem laneSet_lt (w o b : Nat) : laneSet w o b < 4294967296 := by
  unfold laneSet
  have e : (4294967296 : Nat) = 2 ^ 32 := by norm_num
  rw [e]
  apply Nat.or_lt_two_pow
  · apply Nat.and_lt_two_pow
    unfold not32
    omega
  · rw [← e]; exact shl32_lt _ _

theorem laneSet_read (w b o o' : Nat) (ho : o < 4) (ho' : o' < 4) :
    (laneSet w o b >>> (o' * 8)) &&& 0xFF =
      if o' = o then b &&& 0xFF else (w >>> (o' * 8)) &&& 0xFF :=
  lane_read w b o o' ho ho'

/-- A 32-bit word is determined by its four bytes. -/
theorem word_of_bytes (w u : Nat) (hw : w < 4294967296) (hu : u < 4294967296)
    (h0 : (w >>> (0 * 8)) &&& 0xFF = (u >>> (0 * 8)) &&& 0xFF)
    (h1 : (w >>> (1 * 8)) &&& 0xFF = (u >>> (1 * 8)) &&& 0xFF)
    (h2 : (w >>> (2 * 8)) &&& 0xFF = (u >>> (2 * 8)) &&& 0xFF)
    (h3 : (w >>> (3 * 8)) &&& 0xFF = (u >>> (3 * 8)) &&& 0xFF) : w = u := by
  simp only [and_255, Nat.shiftRight_eq_div_pow] at h0 h1 h2 h3
  omega

/-- Byte `o` of the 32-bit pattern of `v` is the low byte of `v >> 8o`. -/
theorem byte_of_value (v : Int) (o : Nat) (ho : o < 4) :
    (toU32 (v >>> (o * 8)) &&& 0xFF) &&& 0xFF = (toU32 v >>> (o * 8)) &&& 0xFF := by
  simp only [and_255, Nat.shiftRight_eq_div_pow, Int.shiftRight_eq_div_pow]
  unfold toU32
  interval_cases o <;> omega

/-- The four iterations for an entry of size 4 at an aligned address replace
the word under that key by the 32-bit pattern of the value. -/
theorem initEntryFrom_word (v : Int) (a : Nat) (m : Memory) (ha : a % 4 = 0)
    (hfit : a + 4 ≤ 4294967296) :
    initEntryFrom v a 4 0 m = some (memSet m a (toU32 v)) := by
  have k0 : ((a + 0) % 4294967296) &&& 0xFFFFFFFC = a := by
    rw [and_clear_low2 _ (by omega)]; omega
  have k1 : ((a + 1) % 4294967296) &&& 0xFFFFFFFC = a := by
    rw [and_clear_low2 _ (by omega)]; omega
  have k2 : ((a + 2) % 4294967296) &&& 0xFFFFFFFC = a := by
    rw [and_clear_low2 _ (by omega)]; omega
  have k3 : ((a + 3) % 4294967296) &&& 0xFFFFFFFC = a := by
    rw [and_clear_low2 _ (by omega)]; omega
  have o0 : ((a + 0) % 4294967296) &&& 0x3 = 0 := by rw [and_3]; omega
  have o1 : ((a + 1) % 4294967296) &&& 0x3 = 1 := by rw [and_3]; omega
  have o2 : ((a + 2) % 4294967296) &&& 0x3 = 2 := by rw [and_3]; omega
  have o3 : ((a + 3) % 4294967296) &&& 0x3 = 3 := by rw [and_3]; omega
  have hget : ∀ (m' : Memory) (w : Nat), memGet (memSet m' a w) a = w := by
    intro m' w; simp [memGet, memSet]
  have hset : ∀ (m' : Memory) (w w' : Nat), memSet (memSet m' a w) a w' = memSet m' a w' := by
    intro m' w w'
    funext k
    simp only [memSet]
    split <;> rfl
  have e : initEntryFrom v a 4 0 m = some
      (storeByte (storeByte (storeByte (storeByte m ((a + 0) % 4294967296)
        (toU32 (v >>> ((0 : Nat) * 8)) &&& 0xFF)) ((a + 1) % 4294967296)
        (toU32 (v >>> ((1 : Nat) * 8)) &&& 0xFF)) ((a + 2) % 4294967296)
        (toU32 (v >>> ((2 : Nat) * 8)) &&& 0xFF)) ((a + 3) % 4294967296)
        (toU32 (v >>> ((3 : Nat) * 8)) &&& 0xFF)) := rfl
  rw [e]
  simp only [storeByte_eq, k0, k1, k2, k3, o0, o1, o2, o3, hget, hset]
  have hword : laneSet (laneSet (laneSet (laneSet (memGet m a) 0
      (toU32 (v >>> ((0 : Nat) * 8)) &&& 255)) 1 (toU32 (v >>> ((1 : Nat) * 8)) &&& 255)) 2
      (toU32 (v >>> ((2 : Nat) * 8)) &&& 255)) 3 (toU32 (v >>> ((3 : Nat) * 8)) &&& 255) = toU32 v := by
    apply word_of_bytes _ _ (laneSet_lt _ _ _) (toU32_lt v)
    · rw [laneSet_read _ _ _ _ (by decide) (by decide), if_neg (by decide),
        laneSet_read _ _ _ _ (by decide) (by decide), if_neg (by decide),
        laneSet_read _ _ _ _ (by decide) (by decide), if_neg (by decide),
        laneSet_read _ _ _ _ (by decide) (by decide), if_pos rfl]
      exact byte_of_value v 0 (by decide)
    · rw [laneSet_read _ _ _ _ (by decide) (by decide), if_neg (by decide),
        laneSet_read _ _ _ _ (by decide) (by decide), if_neg (by decide),
        laneSet_read _ _ _ _ (by decide) (by decide), if_pos rfl]
      exact byte_of_value v 1 (by decide)
    · rw [laneSet_read _ _ _ _ (by decide) (by decide), if_neg (by decide),
        laneSet_read _ _ _ _ (by decide) (by decide), if_pos rfl]
      exact byte_of_value v 2 (by decide)
    · rw [laneSet_read _ _ _ _ (by decide) (by decide), if_pos rfl]
      exact byte_of_value v 3 (by decide)
  rw [hword]

/-- The entries of a `.word` list placed from an aligned address: the word
under key `a + 4i` becomes the 32-bit pattern of value `i`, the keys outside
`[a, a + 4n)` keep what they held. -/
theorem initEntries_words (items : List (Str × Int)) :
    ∀ (a : Nat) (m : Memory), a % 4 = 0 → a + 4 * items.length ≤ 4294967296 →
      ∃ m1 : Memory,
        initEntries (items.map (fun p => { value := p.2, size := 4 })) a m = some m1 ∧
        (∀ (i : Nat) (hi : i < items.length),
          m1 (a + 4 * i) = some (toU32 (items.get ⟨i, hi⟩).2)) ∧
        (∀ k : Nat, (k < a ∨ a + 4 * items.length ≤ k) → m1 k = m k) := by
  induction items with
  | nil =>
    intro a m _ _
    exact ⟨m, rfl, fun i hi => absurd hi (by simp), fun k _ => rfl⟩
  | cons item rest ih =>
    intro a m ha hfit
    simp only [List.length_cons] at hfit
    have hw := initEntryFrom_word item.2 a m ha (by omega)
    simp only [List.map_cons, initEntries, hw]
    cases hrest : rest with
    | nil =>
      refine ⟨memSet m a (toU32 item.2), by simp [initEntries], ?_, ?_⟩
      · intro i hi
        simp only [List.length_singleton, Nat.lt_one_iff] at hi
        subst hi
        simp [memSet]
      · intro k hk
        simp only [List.length_singleton] at hk
        have : k ≠ a := by omega
        simp [memSet, this]
    | cons r rest' =>
      rw [← hrest]
      have hlen : 1 ≤ rest.length := by rw [hrest]; simp
      have hmod : (a + 4) % 4294967296 = a + 4 := by omega
      rw [hmod]
      obtain ⟨m1, h1, h2, h3⟩ := ih (a + 4) (memSet m a (toU32 item.2)) (by omega) (by omega)
      refine ⟨m1, h1, ?_, ?_⟩
      · intro i hi
        cases i with
        | zero =>
          rw [Nat.mul_zero, Nat.add_zero, h3 a (by omega)]
          simp [memSet]
        | succ i =>
          have := h2 i (by simpa using hi)
          have e : a + 4 * (i + 1) = a + 4 + 4 * i := by omega
          rw [e, this]
          rfl
      · intro k hk
        simp only [List.length_cons] at hk
        rw [h3 k (by omega)]
        have : k ≠ a := by omega
        simp [memSet, this]

/-- The value `lw` leaves in `rd`: the word under the key of the (unaligned)
effective address. -/
theorem load_word (code : Code) (c : CPU) (w : Nat) (hf : code c.PC = some w)
    (hop : opcodeOf (w % 4294967296) = 0x03) (hf3 : funct3Of (w % 4294967296) = 2)
    (hrd : rdOf (w % 4294967296) ≠ 0) :
    ∃ c2 : CPU, cycle code c = .commit c2 ∧
      c2.regFile (rdOf (w % 4294967296)) =
        toI32 (memGet c.memory
          (toU32 (c.regFile (rs1Of (w % 4294967296)) + getITypeImm (w % 4294967296)))) := by
  refine ⟨_, cycle_load code c w hf hop, ?_⟩
  simp [hrd, setReg, loadStage, hop, hf3, toU32_toI32_toU32]

/-- Scenario 2 run by `simulate`: `lui x11, 0x10000`, `lw x10, 0(x11)`, then no
instruction at `PC = 8`. -/
theorem scenario2_run (n : Nat) :
    ∃ c : CPU, simulate (n + 3) scenario2Code initialCPU (firstPassSymbols scenario2Source) =
        some (.noInstruction c) ∧ c.regFile 10 = 1 := by
  have hdata : ∃ cpu1 : CPU, initializeMemoryFromDataSegments initialCPU
      (firstPassSymbols scenario2Source) = some cpu1 ∧ memGet cpu1.memory 0x10000000 = 1 ∧
      cpu1.regFile = initialCPU.regFile ∧ cpu1.PC = 0 := ⟨_, rfl, by decide, rfl, rfl⟩
  obtain ⟨cpu1, hinit, hmem, hreg, hpc⟩ := hdata
  have hinit2 := initialise_eq initialCPU cpu1 _ hinit
  obtain ⟨c1, hc1, hc1pc, hc1reg, hc1mem⟩ : ∃ c1 : CPU,
      cycle scenario2Code { cpu1 with
        regFile := setReg cpu1.regFile 2 (toI32 STACK_BASE)
        memory := zeroStack STACK_END cpu1.memory } = .commit c1 ∧ c1.PC = 4 ∧
      c1.regFile 11 = 0x10000000 ∧ c1.memory = zeroStack STACK_END cpu1.memory := by
    have hf : scenario2Code ({ cpu1 with
        regFile := setReg cpu1.regFile 2 (toI32 STACK_BASE)
        memory := zeroStack STACK_END cpu1.memory } : CPU).PC = some 0x100005B7 := by
      show scenario2Code cpu1.PC = _
      rw [hpc]; rfl
    have he : execute { ({ cpu1 with
        regFile := setReg cpu1.regFile 2 (toI32 STACK_BASE)
        memory := zeroStack STACK_END cpu1.memory } : CPU) with IR := 0x100005B7 % 4294967296 }
        = .next ⟨0x10000000, false, 4, true⟩ := by
      have h1 : opcodeOf (0x100005B7 % 4294967296) = 0x37 := by decide
      have h2 : getUTypeImm (0x100005B7 % 4294967296) = 0x10000000 := by decide
      simp [execute, h1, decodeImm, h2, hpc]
    refine ⟨_, cycle_commit _ _ _ _ hf he (by decide) (by decide), rfl, ?_, rfl⟩
    have h3 : rdOf (0x100005B7 % 4294967296) = 11 := by decide
    simp [writebackCommit, h3, setReg]
  obtain ⟨c2, hc2, hc2reg⟩ := load_word scenario2Code c1 0x0005A503 (by rw [hc1pc]; rfl)
    (by decide) (by decide) (by decide)
  have hr10 : c2.regFile 10 = 1 := by
    have h1 : rdOf (0x0005A503 % 4294967296) = 10 := by decide
    have h2 : rs1Of (0x0005A503 % 4294967296) = 11 := by decide
    have h3 : getITypeImm (0x0005A503 % 4294967296) = 0 := by decide
    rw [h1, h2, h3, hc1reg, hc1mem] at hc2reg
    have h4 : toU32 (0x10000000 + 0) = 0x10000000 := by decide
    rw [h4] at hc2reg
    have h5 : memGet (zeroStack STACK_END cpu1.memory) 0x10000000 = memGet cpu1.memory 0x10000000 := by
      rw [zeroStack_STACK_END]
      simp [memGet]
    rw [h5, hmem] at hc2reg
    rw [hc2reg]
    decide
  have hc2pc : c2.PC = 8 := by
    have := cycle_load scenario2Code c1 0x0005A503 (by rw [hc1pc]; rfl) (by decide)
    rw [this] at hc2
    cases hc2
    simp [hc1pc]
  have hc3 : cycle scenario2Code c2 = .noInstruction c2 := by
    have : scenario2Code c2.PC = none := by rw [hc2pc]; rfl
    simp [cycle, this]
  refine ⟨c2, ?_, hr10⟩
  simp only [simulate, hinit2, runLoop, hc1, hc2, hc3]

/-- C15. Data words declared with `.word` are what `lw` reads: for values
`v_0 .. v_{n-1}` in the range of a 32-bit `int`, each written in decimal after
white space, with `0x10000000 + 4n ≤ 2^32`, the first pass over `.data` /
`.word v_0 .. v_{n-1}` returns `true` with one segment at `0x10000000` holding
the values as entries of size 4; `initializeMemoryFromDataSegments` then has a
result from every CPU, and in every state whose memory holds the resulting word
under the key `0x10000000 + 4i`, a cycle executing `lw` (opcode `0x03`,
`funct3 = 2`, `rd ≠ 0`) from that address writes `v_i` to `rd`. Scenario 2
(`.data` / `.word 1 2 3`, `lui x11, 0x10000`, `lw x10, 0(x11)`) run by `simulate`
ends with `x10 = 1`. -/
theorem word_directive_lw :
    (∀ (items : List (Str × Int)),
      (∀ p ∈ items, p.1 ≠ [] ∧ ∀ c ∈ p.1, isSpace c = true) →
      (∀ p ∈ items, -2147483648 ≤ p.2 ∧ p.2 ≤ 2147483647) →
      0x10000000 + 4 * items.length ≤ 4294967296 →
      ∃ st : SymbolTable,
        parseFile (wordSource items) [] emptySymbolTable true = .returned true st [] ∧
        st.dataSegments = [{ startAddress := 0x10000000,
                             contents := items.map (fun p => { value := p.2, size := 4 }) }] ∧
        ∀ cpu0 : CPU, ∃ c0 : CPU, initializeMemoryFromDataSegments cpu0 st = some c0 ∧
          ∀ (i : Nat) (hi : i < items.length) (code : Code) (c : CPU) (w : Nat),
            c.memory (0x10000000 + 4 * i) = c0.memory (0x10000000 + 4 * i) →
            code c.PC = some w → opcodeOf (w % 4294967296) = 0x03 →
            funct3Of (w % 4294967296) = 2 → rdOf (w % 4294967296) ≠ 0 →
            toU32 (c.regFile (rs1Of (w % 4294967296)) + getITypeImm (w % 4294967296)) =
              0x10000000 + 4 * i →
            ∃ c2 : CPU, cycle code c = .commit c2 ∧
              c2.regFile (rdOf (w % 4294967296)) = (items.get ⟨i, hi⟩).2) ∧
    (∀ n : Nat, ∃ c : CPU,
      simulate (n + 3) scenario2Code initialCPU (firstPassSymbols scenario2Source) =
        some (.noInstruction c) ∧ c.regFile 10 = 1) := by
  refine ⟨?_, scenario2_run⟩
  intro items hsep hrange hfit
  refine ⟨_, firstPass_wordSource items hsep hrange, rfl, ?_⟩
  intro cpu0
  obtain ⟨m1, hm1, hwords, -⟩ := initEntries_words items 0x10000000 cpu0.memory (by decide) hfit
  refine ⟨{ cpu0 with memory := m1 }, ?_, ?_⟩
  · simp [initializeMemoryFromDataSegments, initSegments, hm1]
  · intro i hi code c w hmem hf hop hf3 hrd haddr
    obtain ⟨c2, hc2, hval⟩ := load_word code c w hf hop hf3 hrd
    refine ⟨c2, hc2, ?_⟩
    rw [hval, haddr]
    have hg : memGet c.memory (0x10000000 + 4 * i) = toU32 (items.get ⟨i, hi⟩).2 := by
      simp only [memGet, hmem]
      have := hwords i hi
      simp only at this ⊢
      rw [this]
      rfl
    rw [hg]
    have hr := hrange (items.get ⟨i, hi⟩) (List.get_mem _ _ _)
    exact toI32_toU32 _ hr.1 (by omega)

/-- Witness of C15: the values `7, -2` written as ` 7` and a tab before `-2`;
`lw x10, 4(x11)` (`0x0045A503`) with `x11 = 0x10000000` reads `-2`. -/
theorem word_directive_lw_witness :
    ∃ st : SymbolTable,
      parseFile (wordSource [(" ".toList, 7), ([Char.ofNat 9], -2)]) [] emptySymbolTable true =
        .returned true st [] ∧
      ∃ c0 : CPU, initializeMemoryFromDataSegments initialCPU st = some c0 ∧
        ∃ c2 : CPU,
          cycle (fun a => if a = 0 then some 0x0045A503 else none)
            { c0 with regFile := setReg c0.regFile 11 0x10000000 } = .commit c2 ∧
          c2.regFile 10 = -2 := by
  obtain ⟨st, hst, -, hinit⟩ := word_directive_lw.1 [(" ".toList, 7), ([Char.ofNat 9], -2)]
    (by decide) (by decide) (by decide)
  obtain ⟨c0, hc0, hlw⟩ := hinit initialCPU
  have hreg : c0.regFile = initialCPU.regFile := by
    simp only [initializeMemoryFromDataSegments] at hc0
    split at hc0
    · cases hc0
    · cases hc0; rfl
  have hpc : c0.PC = 0 := by
    simp only [initializeMemoryFromDataSegments] at hc0
    split at hc0
    · cases hc0
    · cases hc0; rfl
  obtain ⟨c2, hc2, hv⟩ := hlw 1 (by decide)
    (fun a => if a = 0 then some 0x0045A503 else none)
    { c0 with regFile := setReg c0.regFile 11 0x10000000 } 0x0045A503 rfl
    (by show (if c0.PC = 0 then some 0x0045A503 else none) = _; rw [hpc]; rfl)
    (by decide) (by decide) (by decide)
    (by show toU32 (setReg c0.regFile 11 0x10000000 (rs1Of (0x0045A503 % 4294967296)) +
          getITypeImm (0x0045A503 % 4294967296)) = _
        rw [hreg]; decide)
  exact ⟨st, hst, c0, hc0, c2, hc2, hv⟩

/-! ## The program counter stays even -/

/-- The B-type immediate is even. -/
theorem getBTypeImm_even (IR : Nat) (h : IR < 4294967296) : toU32 (getBTypeImm IR) % 2 = 0 := by
  rw [getBTypeImm_arith IR h, signExtend_13 _ (by omega)]
  unfold toU32
  split <;> omega

/-- The J-type immediate is even. -/
theorem getJTypeImm_even (IR : Nat) (h : IR < 4294967296) : toU32 (getJTypeImm IR) % 2 = 0 := by
  rw [getJTypeImm_arith IR h, signExtend_21 _ (by omega)]
  unfold toU32
  split <;> omega

/-- The execute step started at an even `PC` leaves an even `newPC`. -/
theorem execute_newPC_even (cpu : CPU) (e : Exec) (hIR : cpu.IR < 4294967296)
    (hpc : cpu.PC % 2 = 0) (he : execute cpu = .next e) : e.newPC % 2 = 0 := by
  have h4 : (cpu.PC + 4) % 4294967296 % 2 = 0 := by omega
  have hB : (cpu.PC + toU32 (getBTypeImm cpu.IR)) % 4294967296 % 2 = 0 := by
    have := getBTypeImm_even cpu.IR hIR
    omega
  have hJ : (cpu.PC + toU32 (getJTypeImm cpu.IR)) % 4294967296 % 2 = 0 := by
    have := getJTypeImm_even cpu.IR hIR
    omega
  by_cases o1 : opcodeOf cpu.IR = 0x33
  · rw [execute_R cpu o1] at he
    split at he
    · cases he
    · cases he; exact h4
  · by_cases o2 : opcodeOf cpu.IR = 0x63
    · rw [execute_branch cpu o2] at he
      cases he
      simp only
      split
      · exact hB
      · exact h4
    · by_cases o3 : opcodeOf cpu.IR = 0x6F
      · rw [execute_jal cpu o3] at he
        cases he
        exact hJ
      · by_cases o4 : opcodeOf cpu.IR = 0x67
        · rw [execute_jalr cpu o4] at he
          cases he
          simp only
          rw [and_clear_bit0 _ (toU32_lt _)]
          omega
        · unfold execute at he
          simp only [o1, o2, o3, o4, if_false] at he
          split_ifs at he <;> (cases he; exact h4)

/-- Whatever the outcome of a cycle started at an even `PC`, the `PC` it leaves is even. -/
theorem cycle_PC_even (code : Code) (cpu : CPU) (h : cpu.PC % 2 = 0) :
    (cycle code cpu).cpu.PC % 2 = 0 := by
  unfold cycle
  cases hc : code cpu.PC with
  | none => exact h
  | some w =>
    simp only
    cases he : execute { cpu with IR := w % 4294967296 } with
    | halt => exact h
    | fatal => exact h
    | undefined => exact h
    | next e =>
      simp only [Outcome.cpu, writebackCommit]
      exact execute_newPC_even { cpu with IR := w % 4294967296 } e
        (Nat.mod_lt _ (by norm_num)) h he

/-- C27. The program counter stays even: a cycle of `simulate` started with an
even `PC` ends, whatever word is fetched and however the cycle ends, with an
even `PC`; a cycle that commits leaves `PC + 4`, `PC` plus the (even) B-type or
J-type immediate, or the `jalr` target with bit 0 cleared, all modulo `2^32`.
Hence `PC` is even in every state reachable from the initial CPU (`PC = 0`). -/
theorem pc_stays_even (code : Code) :
    (∀ cpu : CPU, cpu.PC % 2 = 0 → (cycle code cpu).cpu.PC % 2 = 0) ∧
    (∀ (cpu : CPU) (w : Nat) (c : CPU), cpu.PC % 2 = 0 → code cpu.PC = some w →
      cycle code cpu = .commit c →
      c.PC % 2 = 0 ∧
      (c.PC = (cpu.PC + 4) % 4294967296 ∨
       c.PC = (cpu.PC + toU32 (getBTypeImm (w % 4294967296))) % 4294967296 ∨
       c.PC = (cpu.PC + toU32 (getJTypeImm (w % 4294967296))) % 4294967296 ∨
       c.PC = toU32 (cpu.regFile (rs1Of (w % 4294967296)) + getITypeImm (w % 4294967296))
                &&& 0xFFFFFFFE)) ∧
    (∀ w : Nat, toU32 (getBTypeImm (w % 4294967296)) % 2 = 0 ∧
      toU32 (getJTypeImm (w % 4294967296)) % 2 = 0) ∧
    (∀ (symbolTable : SymbolTable) (c : CPU), Reachable code symbolTable c →
      c.PC % 2 = 0) := by
  refine ⟨fun cpu h => cycle_PC_even code cpu h, ?_, ?_, ?_⟩
  · intro cpu w c hpc hf hc
    have hev := cycle_PC_even code cpu hpc
    rw [hc] at hev
    refine ⟨hev, ?_⟩
    rw [cycle_fetch code cpu w hf] at hc
    by_cases o1 : opcodeOf (w % 4294967296) = 0x33
    · rw [execute_R _ o1] at hc
      generalize execR _ _ _ _ = x at hc
      cases x with
      | none => simp at hc
      | some v =>
        simp only [Outcome.commit.injEq] at hc
        subst hc
        exact Or.inl rfl
    · by_cases o2 : opcodeOf (w % 4294967296) = 0x63
      · rw [execute_branch _ o2] at hc
        simp only [Outcome.commit.injEq] at hc
        subst hc
        simp only [writebackCommit]
        split
        · exact Or.inr (Or.inl rfl)
        · exact Or.inl rfl
      · by_cases o3 : opcodeOf (w % 4294967296) = 0x6F
        · rw [execute_jal _ o3] at hc
          simp only [Outcome.commit.injEq] at hc
          subst hc
          exact Or.inr (Or.inr (Or.inl rfl))
        · by_cases o4 : opcodeOf (w % 4294967296) = 0x67
          · rw [execute_jalr _ o4] at hc
            simp only [Outcome.commit.injEq] at hc
            subst hc
            exact Or.inr (Or.inr (Or.inr rfl))
          · unfold execute at hc
            simp only [o1, o2, o3, o4, if_false] at hc
            split_ifs at hc <;>
              (simp only [Outcome.commit.injEq] at hc; subst hc; exact Or.inl rfl)
  · intro w
    exact ⟨getBTypeImm_even _ (Nat.mod_lt _ (by norm_num)),
      getJTypeImm_even _ (Nat.mod_lt _ (by norm_num))⟩
  · intro st c hr
    induction hr with
    | init c h =>
      unfold initialise at h
      cases hi : initializeMemoryFromDataSegments initialCPU st with
      | none => rw [hi] at h; cases h
      | some c1 =>
        rw [hi] at h
        simp only [Option.some.injEq] at h
        unfold initializeMemoryFromDataSegments at hi
        cases hs : initSegments st.dataSegments initialCPU.memory with
        | none => rw [hs] at hi; cases hi
        | some m =>
          rw [hs] at hi
          simp only [Option.some.injEq] at hi
          subst hi
          subst h
          rfl
    | step c _ ih => exact cycle_PC_even code c ih

/-- Witness of C27: `jalr x1, 5(x1)` fetched at `PC = 8` with `x1 = 16` commits
`PC = (16 + 5) & ~1 = 20`; the state after the initialisation and one cycle is
reachable. -/
theorem pc_stays_even_witness :
    jalrStart.PC % 2 = 0 ∧ (cycle jalrCode jalrStart).cpu.PC = 20 ∧
    (cycle jalrCode jalrStart).cpu.PC % 2 = 0 ∧
    (cycle scenario4Code
      { initialCPU with regFile := setReg initialCPU.regFile 2 (toI32 STACK_BASE)
                        memory := zeroStack STACK_END initialCPU.memory }).cpu.PC % 2 = 0 :=
  ⟨by decide, rfl, (pc_stays_even jalrCode).1 jalrStart (by decide),
   (pc_stays_even scenario4Code).2.2.2 noData _ (Reachable.step _ (Reachable.init _ rfl))⟩

/-! ## Signed division -/

/-- The remainder of the truncating division changes sign with the dividend. -/
theorem neg_tmod_eq (a b : Int) : (-a).tmod b = -(a.tmod b) := by
  rw [Int.tmod_def, Int.tmod_def, Int.neg_tdiv]
  ring

/-- The truncating quotient and its remainder: the division identity, the
bound on the remainder and its sign. -/
theorem tdiv_tmod_spec (a b : Int) (hb0 : b ≠ 0) :
    a = a.tdiv b * b + a.tmod b ∧ |a.tmod b| < |b| ∧
    (a.tmod b = 0 ∨ (0 < a.tmod b ∧ 0 < a) ∨ (a.tmod b < 0 ∧ a < 0)) := by
  have h1 : a = a.tdiv b * b + a.tmod b := (Int.tdiv_add_tmod' a b).symm
  have hpos : ∀ x : Int, 0 ≤ x → 0 ≤ x.tmod b ∧ x.tmod b < |b| := by
    intro x hx
    refine ⟨Int.tmod_nonneg b hx, ?_⟩
    rcases lt_or_gt_of_ne hb0 with hb | hb
    · rw [abs_of_neg hb, ← Int.tmod_neg]
      exact Int.tmod_lt_of_pos x (by omega)
    · rw [abs_of_pos hb]
      exact Int.tmod_lt_of_pos x hb
  refine ⟨h1, ?_, ?_⟩
  · rcases le_total 0 a with ha | ha
    · have := hpos a ha
      rw [abs_of_nonneg this.1]
      exact this.2
    · have := hpos (-a) (by omega)
      rw [neg_tmod_eq] at this
      rw [abs_of_nonpos (by omega)]
      exact this.2
  · rcases lt_trichotomy a 0 with ha | ha | ha
    · have := hpos (-a) (by omega)
      rw [neg_tmod_eq] at this
      omega
    · subst ha
      left
      simp
    · have := hpos a (by omega)
      omega

/-- The truncating quotient of a 32-bit dividend is a 32-bit value, except for
the overflow pair. -/
theorem tdiv_range (a b : Int) (ha1 : -2147483648 ≤ a) (ha2 : a ≤ 2147483647)
    (hb0 : b ≠ 0) (hov : ¬ (a = -2147483648 ∧ b = -1)) :
    -2147483648 ≤ a.tdiv b ∧ a.tdiv b ≤ 2147483647 := by
  rcases le_total 0 a with ha | ha <;> rcases lt_or_gt_of_ne hb0 with hb | hb
  · have e : a.tdiv b = -(a / (-b)) := by
      rw [← Int.tdiv_eq_ediv ha (by omega), Int.tdiv_neg, neg_neg]
    have := Int.ediv_le_self (-b) ha
    have := Int.ediv_nonneg ha (show 0 ≤ -b by omega)
    omega
  · have e : a.tdiv b = a / b := Int.tdiv_eq_ediv ha (by omega)
    have := Int.ediv_le_self b ha
    have := Int.ediv_nonneg ha (show 0 ≤ b by omega)
    omega
  · have e : a.tdiv b = (-a) / (-b) := by
      rw [← Int.tdiv_eq_ediv (by omega) (by omega), Int.neg_tdiv_neg]
    have h1 := Int.ediv_le_self (-b) (show 0 ≤ -a by omega)
    have h2 := Int.ediv_nonneg (show 0 ≤ -a by omega) (show 0 ≤ -b by omega)
    by_cases hb1 : b = -1
    · have : a ≠ -2147483648 := fun h => hov ⟨h, hb1⟩
      omega
    · have h3 : (-a) / (-b) * (-b) ≤ -a := Int.ediv_mul_le (-a) (by omega)
      have h4 : (-a) / (-b) * 2 ≤ (-a) / (-b) * (-b) :=
        Int.mul_le_mul_of_nonneg_left (by omega) h2
      omega
  · have e : a.tdiv b = -((-a) / b) := by
      rw [← Int.tdiv_eq_ediv (by omega) (by omega), Int.neg_tdiv, neg_neg]
    have := Int.ediv_le_self b (show 0 ≤ -a by omega)
    have := Int.ediv_nonneg (show 0 ≤ -a by omega) (show 0 ≤ b by omega)
    omega

/-- The cycle on a `div` or `rem` word (`funct7 = 0x01`, `rd ≠ 0`) whose
divisor is not zero and whose operands are not the overflow pair: it commits
with the quotient, or the remainder, of the truncating division in `reg[rd]`. -/
theorem cycle_div_rem (code : Code) (cpu : CPU) (w : Nat)
    (hf : code cpu.PC = some w)
    (hop : opcodeOf (w % 4294967296) = 0x33)
    (hf7 : funct7Of (w % 4294967296) = 0x01)
    (hrd : rdOf (w % 4294967296) ≠ 0)
    (hb0 : cpu.regFile (rs2Of (w % 4294967296)) ≠ 0)
    (hov : ¬ (cpu.regFile (rs1Of (w % 4294967296)) = -2147483648 ∧
              cpu.regFile (rs2Of (w % 4294967296)) = -1)) :
    (funct3Of (w % 4294967296) = 4 → ∃ c : CPU, cycle code cpu = .commit c ∧
      c.regFile (rdOf (w % 4294967296)) =
        (cpu.regFile (rs1Of (w % 4294967296))).tdiv (cpu.regFile (rs2Of (w % 4294967296)))) ∧
    (funct3Of (w % 4294967296) = 6 → ∃ c : CPU, cycle code cpu = .commit c ∧
      c.regFile (rdOf (w % 4294967296)) =
        (cpu.regFile (rs1Of (w % 4294967296))).tmod (cpu.regFile (rs2Of (w % 4294967296)))) := by
  have he := execute_R { cpu with IR := w % 4294967296 } hop
  simp only [hf7] at he
  constructor
  · intro h4
    simp [execR, h4, hb0, sdiv32, hov] at he
    refine ⟨_, cycle_commit code cpu w _ hf he (by rw [hop]; decide) (by rw [hop]; decide), ?_⟩
    simp [writebackCommit, setReg, hrd]
  · intro h6
    simp [execR, h6, hb0, srem32, hov] at he
    refine ⟨_, cycle_commit code cpu w _ hf he (by rw [hop]; decide) (by rw [hop]; decide), ?_⟩
    simp [writebackCommit, setReg, hrd]

/-- C29. Signed division truncates toward zero: for 32-bit values `a` and `b`
with `b ≠ 0` and `(a, b) ≠ (-2^31, -1)` there are 32-bit values `q` and `r`
with `a = q * b + r`, `|r| < |b|` and `r = 0` or `r` of the sign of `a`, such
that every cycle that executes `div` (`opcode 0x33`, `funct7 = 0x01`,
`funct3 = 4`, `rd ≠ 0`) with `reg[rs1] = a` and `reg[rs2] = b` commits with
`reg[rd] = q`, and every such cycle that executes `rem` (`funct3 = 6`) commits
with `reg[rd] = r`. -/
theorem div_rem_truncate (a b : Int)
    (ha1 : -2147483648 ≤ a) (ha2 : a ≤ 2147483647)
    (hb1 : -2147483648 ≤ b) (hb2 : b ≤ 2147483647)
    (hb0 : b ≠ 0) (hov : ¬ (a = -2147483648 ∧ b = -1)) :
    ∃ q r : Int,
      a = q * b + r ∧ |r| < |b| ∧ (r = 0 ∨ (0 < r ∧ 0 < a) ∨ (r < 0 ∧ a < 0)) ∧
      (-2147483648 ≤ q ∧ q ≤ 2147483647) ∧ (-2147483648 ≤ r ∧ r ≤ 2147483647) ∧
      ∀ (code : Code) (cpu : CPU) (w : Nat), code cpu.PC = some w →
        opcodeOf (w % 4294967296) = 0x33 → funct7Of (w % 4294967296) = 0x01 →
        rdOf (w % 4294967296) ≠ 0 →
        cpu.regFile (rs1Of (w % 4294967296)) = a → cpu.regFile (rs2Of (w % 4294967296)) = b →
        (funct3Of (w % 4294967296) = 4 →
          ∃ c : CPU, cycle code cpu = .commit c ∧ c.regFile (rdOf (w % 4294967296)) = q) ∧
        (funct3Of (w % 4294967296) = 6 →
          ∃ c : CPU, cycle code cpu = .commit c ∧ c.regFile (rdOf (w % 4294967296)) = r) := by
  obtain ⟨h1, h2, h3⟩ := tdiv_tmod_spec a b hb0
  refine ⟨a.tdiv b, a.tmod b, h1, h2, h3, tdiv_range a b ha1 ha2 hb0 hov, ?_, ?_⟩
  · have hb : |b| ≤ 2147483648 := abs_le.mpr ⟨by omega, by omega⟩
    have := abs_lt.mp (lt_of_lt_of_le h2 hb)
    omega
  · intro code cpu w hf hop hf7 hrd hra hrb
    have := cycle_div_rem code cpu w hf hop hf7 hrd (by rw [hrb]; exact hb0)
      (by rw [hra, hrb]; exact hov)
    rw [hra, hrb] at this
    exact this

/-- Witness of C29: `div x5, x10, x11` and `rem x6, x10, x11` with `x10 = -7`
and `x11 = 2` write `q = -3` and `r = -1`. -/
theorem div_rem_truncate_witness :
    ∃ q r : Int, q = -3 ∧ r = -1 ∧ (-7 : Int) = q * 2 + r ∧ |r| < |(2 : Int)| ∧
      (∃ c : CPU, cycle divRemCode divRemNegStart = .commit c ∧ c.regFile 5 = q) ∧
      (∃ c : CPU, cycle divRemCode { divRemNegStart with PC := 4 } = .commit c ∧
        c.regFile 6 = r) := by
  obtain ⟨q, r, h1, h2, -, -, -, h⟩ :=
    div_rem_truncate (-7) 2 (by decide) (by decide) (by decide) (by decide) (by decide)
      (by decide)
  obtain ⟨c1, hc1, hq⟩ :=
    (h divRemCode divRemNegStart 0x02B542B3 rfl (by decide) (by decide) (by decide) rfl rfl).1
      (by decide)
  obtain ⟨c2, hc2, hr⟩ :=
    (h divRemCode { divRemNegStart with PC := 4 } 0x02B56333 rfl (by decide) (by decide)
      (by decide) rfl rfl).2 (by decide)
  have e1 : (cycle divRemCode divRemNegStart).cpu.regFile 5 = -3 := by rfl
  have e2 : (cycle divRemCode { divRemNegStart with PC := 4 }).cpu.regFile 6 = -1 := by rfl
  rw [hc1] at e1
  rw [hc2] at e2
  have hq3 : q = -3 := by rw [← hq]; exact e1
  have hr1 : r = -1 := by rw [← hr]; exact e2
  exact ⟨q, r, hq3, hr1, h1, h2, ⟨c1, hc1, hq⟩, ⟨c2, hc2, hr⟩⟩

/-- C30 (the code at the failing input). `div x5, x10, x11` and
`rem x6, x10, x11` fetched with `x10 = -2^31` and `x11 = -1`: the divisor is not
zero, so the guard of the code does not apply and `reg[rs1] / reg[rs2]`
(`reg[rs1] % reg[rs2]`) is evaluated on the overflow pair, whose quotient
`2^31` is not an `int32_t`: the expression has no defined value and the cycle
does not reach the commit, whereas `-2^31` and `0` are claimed. -/
theorem div_overflow_undefined :
    opcodeOf 0x02B542B3 = 0x33 ∧ funct7Of 0x02B542B3 = 0x01 ∧ funct3Of 0x02B542B3 = 4 ∧
    rs1Of 0x02B542B3 = 10 ∧ rs2Of 0x02B542B3 = 11 ∧ funct3Of 0x02B56333 = 6 ∧
    divOverflowStart.regFile 10 = -2147483648 ∧ divOverflowStart.regFile 11 = -1 ∧
    Int.tdiv (-2147483648) (-1) = 2147483648 ∧
    execR 0x01 4 (-2147483648) (-1) = none ∧ execR 0x01 6 (-2147483648) (-1) = none ∧
    (∃ c : CPU, cycle divRemCode divOverflowStart = .undefined c) ∧
    (∀ c : CPU, cycle divRemCode divOverflowStart ≠ .commit c) ∧
    (∃ c : CPU, cycle divRemCode { divOverflowStart with PC := 4 } = .undefined c) ∧
    (∀ c : CPU, cycle divRemCode { divOverflowStart with PC := 4 } ≠ .commit c) := by
  have e1 : ∃ c : CPU, cycle divRemCode divOverflowStart = .undefined c := ⟨_, rfl⟩
  have e2 : ∃ c : CPU, cycle divRemCode { divOverflowStart with PC := 4 } = .undefined c :=
    ⟨_, rfl⟩
  refine ⟨by decide, by decide, by decide, by decide, by decide, by decide, rfl, rfl,
    by decide, by decide, by decide, e1, ?_, e2, ?_⟩
  · intro c hc
    obtain ⟨c0, h0⟩ := e1
    rw [h0] at hc
    cases hc
  · intro c hc
    obtain ⟨c0, h0⟩ := e2
    rw [h0] at hc
    cases hc

/-! ## Keys of the memory map -/

/-- The two cycles of `unalignedWordCode` from the registers of the initialised
CPU and any memory: the store writes under the key `1`, the load touches the key `3`. -/
theorem unaligned_cycles (m : Memory) :
    ∃ c1 c2 : CPU,
      cycle unalignedWordCode
        { initialCPU with regFile := setReg initialCPU.regFile 2 (toI32 STACK_BASE)
                          memory := m } = .commit c1 ∧
      cycle unalignedWordCode c1 = .commit c2 ∧
      c1.memory = memSet m 1 0 ∧ c2.memory = memTouch (memSet m 1 0) 3 := by
  refine ⟨_, _, cycle_store _ _ 0x000020A3 rfl (by decide),
    cycle_load _ _ 0x00302283 rfl (by decide), rfl, rfl⟩

/-- C26 (the code at the failing input). After the initialisation with no data
segments no key below the stack is present. `sw x0, 1(x0)` (`opcode 0x23`,
`funct3 = 2`, offset 1) then executes `cpu.memory[addr] = data` with
`addr = 1` and leaves the key `1` in the map; `lw x5, 3(x0)` (`opcode 0x03`,
`funct3 = 2`, offset 3) evaluates `cpu.memory[addr]` with `addr = 3` and leaves
the key `3`. Both states are reachable and neither key is a multiple of 4. -/
theorem unaligned_word_keys :
    opcodeOf 0x000020A3 = 0x23 ∧ funct3Of 0x000020A3 = 2 ∧ getSTypeImm 0x000020A3 = 1 ∧
    rs1Of 0x000020A3 = 0 ∧
    opcodeOf 0x00302283 = 0x03 ∧ funct3Of 0x00302283 = 2 ∧ getITypeImm 0x00302283 = 3 ∧
    rs1Of 0x00302283 = 0 ∧
    initialise initialCPU noData = some startNoData ∧
    startNoData.memory 1 = none ∧ startNoData.memory 3 = none ∧
    ∃ c1 c2 : CPU,
      cycle unalignedWordCode startNoData = .commit c1 ∧
      cycle unalignedWordCode c1 = .commit c2 ∧
      c1.memory 1 = some 0 ∧ 1 % 4 ≠ 0 ∧
      c1.memory 3 = none ∧ c2.memory 3 = some 0 ∧ 3 % 4 ≠ 0 ∧
      Reachable unalignedWordCode noData c1 ∧ Reachable unalignedWordCode noData c2 := by
  have hz : ∀ a : Nat, a < 0x7FF00000 → startNoData.memory a = none := by
    intro a ha
    show zeroStack STACK_END initialCPU.memory a = none
    rw [zeroStack_STACK_END]
    simp only
    rw [if_neg (by omega)]
    rfl
  obtain ⟨c1, c2, hc1, hc2, hm1, hm2⟩ :=
    unaligned_cycles (zeroStack STACK_END initialCPU.memory)
  have hc1' : cycle unalignedWordCode startNoData = .commit c1 := hc1
  have h0 : Reachable unalignedWordCode noData startNoData := Reachable.init _ rfl
  have h1 : Reachable unalignedWordCode noData c1 := by
    have := Reachable.step _ h0
    rw [hc1'] at this
    exact this
  have h2 : Reachable unalignedWordCode noData c2 := by
    have := Reachable.step _ h1
    rw [hc2] at this
    exact this
  have e3 : startNoData.memory 3 = none := hz 3 (by decide)
  refine ⟨by decide, by decide, by decide, by decide, by decide, by decide, by decide,
    by decide, rfl, hz 1 (by decide), e3, c1, c2, hc1', hc2, ?_, by decide, ?_,
    ?_, by decide, h1, h2⟩
  · rw [hm1]
    simp [memSet]
  · rw [hm1]
    show (if 3 = 1 then some 0 else startNoData.memory 3) = none
    rw [if_neg (by decide)]
    exact e3
  · rw [hm2]
    show (if 3 = 3 then some (memGet (memSet startNoData.memory 1 0) 3) else _) = some 0
    rw [if_pos rfl]
    have : memSet startNoData.memory 1 0 3 = none := by
      show (if 3 = 1 then some 0 else startNoData.memory 3) = none
      rw [if_neg (by decide)]
      exact e3
    simp only [memGet, this, Option.getD_none]

/-! ## Tokens of a line -/

/-- The extraction `iss >> s` on a stream that holds white space, a token and a
rest that is empty or starts with white space: the token is read. -/
theorem readWord_token (sep tok rest s : Str) (hsep : ∀ c ∈ sep, isSpace c = true)
    (hne : tok ≠ []) (htok : ∀ c ∈ tok, isSpace c = false)
    (hrest : ∀ c, rest.head? = some c → isSpace c = true) :
    readWord { rest := sep ++ (tok ++ rest), failed := false } s =
      (tok, { rest := rest, failed := false }) := by
  obtain ⟨a, q, rfl⟩ : ∃ a q, tok = a :: q := by
    cases tok with
    | nil => exact absurd rfl hne
    | cons a q => exact ⟨a, q, rfl⟩
  unfold readWord
  simp only [Bool.false_eq_true, if_false]
  have h1 : (sep ++ (a :: q ++ rest)).dropWhile isSpace = a :: q ++ rest := by
    apply dropWhile_append_stop _ _ _ hsep
    intro c hc
    simp only [List.cons_append, List.head?_cons, Option.some.injEq] at hc
    rw [← hc]; exact htok a (List.mem_cons_self _ _)
  rw [h1]
  have h2 : (a :: q ++ rest).isEmpty = false := rfl
  rw [h2]
  simp only [Bool.false_eq_true, if_false]
  rw [takeWhile_append_stop (fun c => !isSpace c) _ _ (fun c hc => by simp [htok c hc])
        (fun c hc => by simp [hrest c hc]),
      dropWhile_append_stop (fun c => !isSpace c) _ _ (fun c hc => by simp [htok c hc])
        (fun c hc => by simp [hrest c hc])]

/-- The extraction `iss >> s` on a stream that holds only white space fails
and leaves `s` as it was. -/
theorem readWord_end (sep s : Str) (hsep : ∀ c ∈ sep, isSpace c = true) :
    readWord { rest := sep, failed := false } s = (s, { rest := [], failed := true }) := by
  unfold readWord
  have : sep.dropWhile isSpace = [] := by
    rw [List.dropWhile_eq_nil_iff]
    exact hsep
  simp [this]

/-- An extraction from a failed stream does nothing. -/
theorem readWord_failed (r s : Str) :
    readWord { rest := r, failed := true } s = (s, { rest := r, failed := true }) := rfl

/-- Dropping the trailing comma of an operand. -/
theorem popComma_comma (a : Str) : popComma (a ++ [',']) = a := by
  simp [popComma]

/-- An operand that does not end with a comma is left as it is. -/
theorem popComma_plain (a : Str) (h : a.getLast? ≠ some ',') : popComma a = a := by
  simp [popComma, h]

/-- A string that starts with a token character is not empty and starts with no white space. -/
theorem head_append_token (tok rest : Str) (hne : tok ≠ [])
    (htok : ∀ c ∈ tok, isSpace c = false) :
    ∀ c, (tok ++ rest).head? = some c → isSpace c = false := by
  intro c hc
  cases tok with
  | nil => exact absurd rfl hne
  | cons a q =>
    simp only [List.cons_append, List.head?_cons, Option.some.injEq] at hc
    rw [← hc]; exact htok a (List.mem_cons_self _ _)

/-- A string that starts with a non-empty run of white space starts with white space. -/
theorem head_append_space (sep rest : Str) (hne : sep ≠ [])
    (hsep : ∀ c ∈ sep, isSpace c = true) :
    ∀ c, (sep ++ rest).head? = some c → isSpace c = true := by
  intro c hc
  cases sep with
  | nil => exact absurd rfl hne
  | cons a q =>
    simp only [List.cons_append, List.head?_cons, Option.some.injEq] at hc
    rw [← hc]; exact hsep a (List.mem_cons_self _ _)

/-- The three extractions `iss >> x >> y >> z` on a stream that holds three
tokens, each after white space. -/
theorem readWord_three (s1 x s2 y s3 z tail d1 d2 d3 : Str)
    (h1 : ∀ c ∈ s1, isSpace c = true)
    (h2 : s2 ≠ [] ∧ ∀ c ∈ s2, isSpace c = true)
    (h3 : s3 ≠ [] ∧ ∀ c ∈ s3, isSpace c = true)
    (hx : x ≠ [] ∧ ∀ c ∈ x, isSpace c = false)
    (hy : y ≠ [] ∧ ∀ c ∈ y, isSpace c = false)
    (hz : z ≠ [] ∧ ∀ c ∈ z, isSpace c = false)
    (htail : ∀ c, tail.head? = some c → isSpace c = true) :
    readWord { rest := s1 ++ (x ++ (s2 ++ (y ++ (s3 ++ (z ++ tail))))), failed := false } d1 =
      (x, { rest := s2 ++ (y ++ (s3 ++ (z ++ tail))), failed := false }) ∧
    readWord { rest := s2 ++ (y ++ (s3 ++ (z ++ tail))), failed := false } d2 =
      (y, { rest := s3 ++ (z ++ tail), failed := false }) ∧
    readWord { rest := s3 ++ (z ++ tail), failed := false } d3 =
      (z, { rest := tail, failed := false }) :=
  ⟨readWord_token s1 x _ d1 h1 hx.1 hx.2 (head_append_space s2 _ h2.1 h2.2),
   readWord_token s2 y _ d2 h2.2 hy.1 hy.2 (head_append_space s3 _ h3.1 h3.2),
   readWord_token s3 z _ d3 h3.2 hz.1 hz.2 htail⟩

/-- The mnemonics are tokens, and each belongs to one branch only. -/
theorem mnemonics_disjoint :
    (∀ m ∈ rMnemonics, m ≠ [] ∧ ∀ c ∈ m, isSpace c = false) ∧
    (∀ m ∈ sbMnemonics, (m ≠ [] ∧ ∀ c ∈ m, isSpace c = false) ∧ m ∉ rMnemonics ∧
      m ∉ iMnemonics ∧ m ∉ loadMnemonics ∧ m ∉ storeMnemonics) ∧
    (∀ m ∈ uMnemonics, (m ≠ [] ∧ ∀ c ∈ m, isSpace c = false) ∧ m ∉ rMnemonics ∧
      m ∉ iMnemonics ∧ m ∉ loadMnemonics ∧ m ∉ storeMnemonics ∧ m ∉ sbMnemonics) := by
  decide

/-! ## Branch lines -/

/-- C21 (counterexample). The line `bltu x1, x2, loop` is parsed to a record
that holds the line and the mnemonic only: the format is empty, not `SB`, and
`rs1`, `rs2` and the immediate are empty; the same line with `blt` is parsed
to an `SB` record. -/
theorem bltu_not_parsed_as_SB :
    parseInstructionFields "bltu x1, x2, loop".toList {} =
      some { line_name := "bltu x1, x2, loop".toList, opcode := "bltu".toList } ∧
    (∀ r, parseInstructionFields "bltu x1, x2, loop".toList {} = some r →
      r.format ≠ "SB".toList ∧ r.rs1 ≠ "x1".toList ∧ r.rs2 ≠ "x2".toList ∧
      r.immediate ≠ "loop".toList) ∧
    parseInstructionFields "bgeu x1, x2, loop".toList {} =
      some { line_name := "bgeu x1, x2, loop".toList, opcode := "bgeu".toList } ∧
    parseInstructionFields "blt x1, x2, loop".toList {} =
      some { line_name := "blt x1, x2, loop".toList, opcode := "blt".toList,
             format := "SB".toList, rs1 := "x1".toList, rs2 := "x2".toList,
             immediate := "loop".toList } := by
  have h : parseInstructionFields "bltu x1, x2, loop".toList {} =
      some { line_name := "bltu x1, x2, loop".toList, opcode := "bltu".toList } := by decide
  refine ⟨h, ?_, by decide, by decide⟩
  intro r hr
  rw [h] at hr
  cases hr
  decide

/-- C21 (as amended). The four branch mnemonics `beq`, `bne`, `blt`, `bge`
parse as SB: for a line `m rs1, rs2, target` (tokens separated by white space,
the first two followed by a comma) `parseInstructionFields` yields
`format = "SB"`, `rs1` and `rs2` equal to the two register operands without
their trailing commas, and `immediate` equal to the target token. For `bltu`
and `bgeu` the record keeps only the line and the mnemonic. -/
theorem branch_mnemonics_parse (m a b t s1 s2 s3 tail : Str) (instr : Instruction)
    (hs1 : s1 ≠ [] ∧ ∀ c ∈ s1, isSpace c = true)
    (hs2 : s2 ≠ [] ∧ ∀ c ∈ s2, isSpace c = true)
    (hs3 : s3 ≠ [] ∧ ∀ c ∈ s3, isSpace c = true)
    (ha : ∀ c ∈ a, isSpace c = false) (hb : ∀ c ∈ b, isSpace c = false)
    (ht : t ≠ [] ∧ ∀ c ∈ t, isSpace c = false)
    (htail : ∀ c, tail.head? = some c → isSpace c = true) :
    sbMnemonics = ["beq".toList, "bne".toList, "blt".toList, "bge".toList] ∧
    (m ∈ sbMnemonics →
      parseInstructionFields
          (m ++ s1 ++ a ++ [','] ++ s2 ++ b ++ [','] ++ s3 ++ t ++ tail) instr =
        some { instr with
          line_name := m ++ s1 ++ a ++ [','] ++ s2 ++ b ++ [','] ++ s3 ++ t ++ tail
          opcode := m, format := "SB".toList, rs1 := a, rs2 := b, immediate := t }) ∧
    (m ∈ unsignedBranchMnemonics →
      parseInstructionFields
          (m ++ s1 ++ a ++ [','] ++ s2 ++ b ++ [','] ++ s3 ++ t ++ tail) instr =
        some { instr with
          line_name := m ++ s1 ++ a ++ [','] ++ s2 ++ b ++ [','] ++ s3 ++ t ++ tail
          opcode := m }) := by
  have hline : m ++ s1 ++ a ++ [','] ++ s2 ++ b ++ [','] ++ s3 ++ t ++ tail =
      m ++ (s1 ++ ((a ++ [',']) ++ (s2 ++ ((b ++ [',']) ++ (s3 ++ (t ++ tail)))))) := by
    simp only [List.append_assoc]
  have hac : a ++ [','] ≠ [] ∧ ∀ c ∈ a ++ [','], isSpace c = false := by
    refine ⟨by simp, ?_⟩
    intro c hc
    rw [List.mem_append, List.mem_singleton] at hc
    rcases hc with hc | hc
    · exact ha c hc
    · subst hc; decide
  have hbc : b ++ [','] ≠ [] ∧ ∀ c ∈ b ++ [','], isSpace c = false := by
    refine ⟨by simp, ?_⟩
    intro c hc
    rw [List.mem_append, List.mem_singleton] at hc
    rcases hc with hc | hc
    · exact hb c hc
    · subst hc; decide
  refine ⟨rfl, ?_, ?_⟩
  · intro hm
    obtain ⟨⟨hm1, hm2⟩, n1, n2, n3, n4⟩ := mnemonics_disjoint.2.1 m hm
    have hw : readWord
        { rest := m ++ (s1 ++ ((a ++ [',']) ++ (s2 ++ ((b ++ [',']) ++ (s3 ++ (t ++ tail)))))),
          failed := false } instr.opcode =
        (m, { rest := s1 ++ ((a ++ [',']) ++ (s2 ++ ((b ++ [',']) ++ (s3 ++ (t ++ tail))))),
              failed := false }) :=
      readWord_token [] m _ _ (by simp) hm1 hm2 (head_append_space s1 _ hs1.1 hs1.2)
    obtain ⟨r1, r2, r3⟩ := readWord_three s1 (a ++ [',']) s2 (b ++ [',']) s3 t tail
      instr.rs1 instr.rs2 instr.immediate hs1.2 hs2 hs3 hac hbc ht htail
    rw [hline]
    unfold parseInstructionFields
    simp only [hw, if_neg n1, if_neg n2, if_neg n3, if_neg n4, if_pos hm, r1, r2, r3,
      popComma_comma]
  · intro hm
    have hall : ∀ m ∈ unsignedBranchMnemonics, (m ≠ [] ∧ ∀ c ∈ m, isSpace c = false) ∧
        m ∉ rMnemonics ∧ m ∉ iMnemonics ∧ m ∉ loadMnemonics ∧ m ∉ storeMnemonics ∧
        m ∉ sbMnemonics ∧ m ∉ uMnemonics ∧ m ≠ "jal".toList := by decide
    obtain ⟨⟨hm1, hm2⟩, n1, n2, n3, n4, n5, n6, n7⟩ := hall m hm
    have hw : readWord
        { rest := m ++ (s1 ++ ((a ++ [',']) ++ (s2 ++ ((b ++ [',']) ++ (s3 ++ (t ++ tail)))))),
          failed := false } instr.opcode =
        (m, { rest := s1 ++ ((a ++ [',']) ++ (s2 ++ ((b ++ [',']) ++ (s3 ++ (t ++ tail))))),
              failed := false }) :=
      readWord_token [] m _ _ (by simp) hm1 hm2 (head_append_space s1 _ hs1.1 hs1.2)
    rw [hline]
    unfold parseInstructionFields
    simp only [hw, if_neg n1, if_neg n2, if_neg n3, if_neg n4, if_neg n5, if_neg n6, if_neg n7]

/-- Witness of C21: the line `bne x5, x6, loop`. -/
theorem branch_mnemonics_parse_witness :
    parseInstructionFields "bne x5, x6, loop".toList {} =
      some { line_name := "bne x5, x6, loop".toList, opcode := "bne".toList,
             format := "SB".toList, rs1 := "x5".toList, rs2 := "x6".toList,
             immediate := "loop".toList } :=
  (branch_mnemonics_parse "bne".toList "x5".toList "x6".toList "loop".toList " ".toList
    " ".toList " ".toList [] {} (by decide) (by decide) (by decide) (by decide) (by decide)
    (by decide) (by decide)).2.1 (by decide)

/-! ## Operand separators -/

/-- C22 (counterexample). The line `add x1,x2,x3` is one token after the
mnemonic: it is parsed to a record with `rd = "x1,x2,x3"` and empty `rs1` and
`rs2`, whereas `add x1, x2, x3` and `add x1 x2 x3` are parsed to
`rd = x1`, `rs1 = x2`, `rs2 = x3`. -/
theorem commas_alone_one_operand :
    parseInstructionFields "add x1,x2,x3".toList {} =
      some { line_name := "add x1,x2,x3".toList, opcode := "add".toList, format := "R".toList,
             rd := "x1,x2,x3".toList, rs1 := [], rs2 := [] } ∧
    parseInstructionFields "add x1, x2, x3".toList {} =
      some { line_name := "add x1, x2, x3".toList, opcode := "add".toList,
             format := "R".toList, rd := "x1".toList, rs1 := "x2".toList, rs2 := "x3".toList } ∧
    parseInstructionFields "add x1 x2 x3".toList {} =
      some { line_name := "add x1 x2 x3".toList, opcode := "add".toList,
             format := "R".toList, rd := "x1".toList, rs1 := "x2".toList, rs2 := "x3".toList } ∧
    (∀ r1 r2, parseInstructionFields "add x1,x2,x3".toList {} = some r1 →
      parseInstructionFields "add x1, x2, x3".toList {} = some r2 →
      r1.rd ≠ r2.rd ∧ r1.rs1 ≠ r2.rs1 ∧ r1.rs2 ≠ r2.rs2) := by
  have h1 : parseInstructionFields "add x1,x2,x3".toList {} =
      some { line_name := "add x1,x2,x3".toList, opcode := "add".toList, format := "R".toList,
             rd := "x1,x2,x3".toList, rs1 := [], rs2 := [] } := by decide
  have h2 : parseInstructionFields "add x1, x2, x3".toList {} =
      some { line_name := "add x1, x2, x3".toList, opcode := "add".toList,
             format := "R".toList, rd := "x1".toList, rs1 := "x2".toList, rs2 := "x3".toList } := by
    decide
  refine ⟨h1, h2, by decide, ?_⟩
  intro r1 r2 e1 e2
  rw [h1] at e1
  rw [h2] at e2
  cases e1
  cases e2
  decide

/-- C22 (as amended). The operands of an R-format line are separated by white
space, and a comma at the end of an operand is dropped: for an R-format
mnemonic `m` and register names `a`, `b`, `c` the lines `m a, b, c` and
`m a b c` are parsed to records with format `R`, `rd = a`, `rs1 = b`,
`rs2 = c` (which differ in `line_name` only); the line `m a,b,c`, with commas
and no white space, is parsed to a record whose `rd` is the whole text `a,b,c`
and whose `rs1` and `rs2` are empty. -/
theorem r_operands_by_whitespace (m a b c s1 s2 s3 tail : Str) (instr : Instruction)
    (hm : m ∈ rMnemonics)
    (hs1 : s1 ≠ [] ∧ ∀ ch ∈ s1, isSpace ch = true)
    (hs2 : s2 ≠ [] ∧ ∀ ch ∈ s2, isSpace ch = true)
    (hs3 : s3 ≠ [] ∧ ∀ ch ∈ s3, isSpace ch = true)
    (ha : a ≠ [] ∧ ∀ ch ∈ a, isSpace ch = false ∧ ch ≠ ',')
    (hb : b ≠ [] ∧ ∀ ch ∈ b, isSpace ch = false ∧ ch ≠ ',')
    (hc : c ≠ [] ∧ ∀ ch ∈ c, isSpace ch = false ∧ ch ≠ ',')
    (htail : ∀ ch, tail.head? = some ch → isSpace ch = true) :
    parseInstructionFields (m ++ s1 ++ a ++ [','] ++ s2 ++ b ++ [','] ++ s3 ++ c ++ tail) instr =
      some { instr with
        line_name := m ++ s1 ++ a ++ [','] ++ s2 ++ b ++ [','] ++ s3 ++ c ++ tail
        opcode := m, format := "R".toList, rd := a, rs1 := b, rs2 := c } ∧
    parseInstructionFields (m ++ s1 ++ a ++ s2 ++ b ++ s3 ++ c ++ tail) instr =
      some { instr with
        line_name := m ++ s1 ++ a ++ s2 ++ b ++ s3 ++ c ++ tail
        opcode := m, format := "R".toList, rd := a, rs1 := b, rs2 := c } ∧
    parseInstructionFields (m ++ s1 ++ a ++ [','] ++ b ++ [','] ++ c) {} =
      some { line_name := m ++ s1 ++ a ++ [','] ++ b ++ [','] ++ c, opcode := m,
             format := "R".toList, rd := a ++ [','] ++ b ++ [','] ++ c,
             rs1 := [], rs2 := [] } := by
  obtain ⟨hm1, hm2⟩ := mnemonics_disjoint.1 m hm
  have tokc : ∀ x : Str, (∀ ch ∈ x, isSpace ch = false ∧ ch ≠ ',') →
      x ++ [','] ≠ [] ∧ ∀ ch ∈ x ++ [','], isSpace ch = false := by
    intro x hx
    refine ⟨by simp, ?_⟩
    intro ch hch
    rw [List.mem_append, List.mem_singleton] at hch
    rcases hch with hch | hch
    · exact (hx ch hch).1
    · subst hch; decide
  have plain : ∀ x : Str, x ≠ [] → (∀ ch ∈ x, isSpace ch = false ∧ ch ≠ ',') →
      popComma x = x := by
    intro x hne hx
    apply popComma_plain
    intro hl
    have hmem : ',' ∈ x := List.mem_of_getLast?_eq_some hl
    exact (hx ',' hmem).2 rfl
  have hw : ∀ (rest d : Str), readWord { rest := m ++ (s1 ++ rest), failed := false } d =
      (m, { rest := s1 ++ rest, failed := false }) := fun rest d =>
    readWord_token [] m _ _ (by simp) hm1 hm2 (head_append_space s1 _ hs1.1 hs1.2)
  refine ⟨?_, ?_, ?_⟩
  · have hline : m ++ s1 ++ a ++ [','] ++ s2 ++ b ++ [','] ++ s3 ++ c ++ tail =
        m ++ (s1 ++ ((a ++ [',']) ++ (s2 ++ ((b ++ [',']) ++ (s3 ++ (c ++ tail)))))) := by
      simp only [List.append_assoc]
    obtain ⟨r1, r2, r3⟩ := readWord_three s1 (a ++ [',']) s2 (b ++ [',']) s3 c tail
      instr.rd instr.rs1 instr.rs2 hs1.2 hs2 hs3 (tokc a ha.2) (tokc b hb.2)
      ⟨hc.1, fun ch h => (hc.2 ch h).1⟩ htail
    rw [hline]
    unfold parseInstructionFields
    simp only [hw, if_pos hm, r1, r2, r3, popComma_comma, plain c hc.1 hc.2]
  · have hline : m ++ s1 ++ a ++ s2 ++ b ++ s3 ++ c ++ tail =
        m ++ (s1 ++ (a ++ (s2 ++ (b ++ (s3 ++ (c ++ tail)))))) := by
      simp only [List.append_assoc]
    obtain ⟨r1, r2, r3⟩ := readWord_three s1 a s2 b s3 c tail
      instr.rd instr.rs1 instr.rs2 hs1.2 hs2 hs3 ⟨ha.1, fun ch h => (ha.2 ch h).1⟩
      ⟨hb.1, fun ch h => (hb.2 ch h).1⟩ ⟨hc.1, fun ch h => (hc.2 ch h).1⟩ htail
    rw [hline]
    unfold parseInstructionFields
    simp only [hw, if_pos hm, r1, r2, r3, plain a ha.1 ha.2, plain b hb.1 hb.2,
      plain c hc.1 hc.2]
  · have hline : m ++ s1 ++ a ++ [','] ++ b ++ [','] ++ c =
        m ++ (s1 ++ (a ++ [','] ++ b ++ [','] ++ c)) := by
      simp only [List.append_assoc]
    have htok : a ++ [','] ++ b ++ [','] ++ c ≠ [] ∧
        ∀ ch ∈ a ++ [','] ++ b ++ [','] ++ c, isSpace ch = false := by
      refine ⟨by simp [ha.1], ?_⟩
      intro ch hch
      simp only [List.mem_append, List.mem_singleton] at hch
      rcases hch with (((hch | hch) | hch) | hch) | hch
      · exact (ha.2 ch hch).1
      · subst hch; decide
      · exact (hb.2 ch hch).1
      · subst hch; decide
      · exact (hc.2 ch hch).1
    have hlast : (a ++ [','] ++ b ++ [','] ++ c).getLast? ≠ some ',' := by
      intro hl
      rw [List.getLast?_append_of_ne_nil _ hc.1] at hl
      exact (hc.2 ',' (List.mem_of_getLast?_eq_some hl)).2 rfl
    have r1 : readWord
        { rest := s1 ++ ((a ++ [','] ++ b ++ [','] ++ c) ++ []), failed := false } ([] : Str) =
        (a ++ [','] ++ b ++ [','] ++ c, { rest := [], failed := false }) :=
      readWord_token s1 _ [] _ hs1.2 htok.1 htok.2 (by simp)
    rw [List.append_nil] at r1
    have r2 : readWord { rest := [], failed := false } ([] : Str) =
        ([], { rest := [], failed := true }) := rfl
    have r3 : readWord { rest := [], failed := true } ([] : Str) =
        ([], { rest := [], failed := true }) := rfl
    have p0 : popComma ([] : Str) = [] := rfl
    rw [hline]
    unfold parseInstructionFields
    simp only [hw, if_pos hm, r1, r2, r3, popComma_plain _ hlast, p0]

/-- Witness of C22: the mnemonic `sub` with the operands `x7`, `x8`, `x9`. -/
theorem r_operands_by_whitespace_witness :
    parseInstructionFields "sub x7, x8, x9".toList {} =
      some { line_name := "sub x7, x8, x9".toList, opcode := "sub".toList,
             format := "R".toList, rd := "x7".toList, rs1 := "x8".toList, rs2 := "x9".toList } ∧
    parseInstructionFields "sub x7 x8 x9".toList {} =
      some { line_name := "sub x7 x8 x9".toList, opcode := "sub".toList,
             format := "R".toList, rd := "x7".toList, rs1 := "x8".toList, rs2 := "x9".toList } ∧
    parseInstructionFields "sub x7,x8,x9".toList {} =
      some { line_name := "sub x7,x8,x9".toList, opcode := "sub".toList,
             format := "R".toList, rd := "x7,x8,x9".toList, rs1 := [], rs2 := [] } :=
  r_operands_by_whitespace "sub".toList "x7".toList "x8".toList "x9".toList " ".toList
    " ".toList " ".toList [] {} (by decide) (by decide) (by decide) (by decide) (by decide)
    (by decide) (by decide) (by decide)

/-! ## Hexadecimal text and `std::stoi` -/

theorem digitChar_isHexDigit (d : Nat) (h : d < 16) :
    isHexDigit (digitChar d) = true ∧ digitValue (digitChar d) = d ∧
    isSpace (digitChar d) = false ∧
    (isDigit (digitChar d) = true ∨
      (97 ≤ (digitChar d).toNat ∧ (digitChar d).toNat ≤ 102)) := by
  interval_cases d <;> decide

/-- The hexadecimal digits of `n`: not empty, lower-case hexadecimal digits,
and with value `n`. -/
theorem natDigits_hex_spec (fuel : Nat) : ∀ n : Nat, n < fuel →
    natDigits 16 fuel n ≠ [] ∧
    (∀ c ∈ natDigits 16 fuel n, isHexDigit c = true ∧ isSpace c = false ∧
      (isDigit c = true ∨ (97 ≤ c.toNat ∧ c.toNat ≤ 102))) ∧
    digitsValue 16 (natDigits 16 fuel n) = n := by
  induction fuel with
  | zero => intro n h; omega
  | succ fuel ih =>
    intro n h
    unfold natDigits
    by_cases h16 : n < 16
    · rw [if_pos h16]
      obtain ⟨h1, h2, h3, h4⟩ := digitChar_isHexDigit n h16
      refine ⟨by simp, ?_, ?_⟩
      · intro c hc
        simp only [List.mem_singleton] at hc
        rw [hc]; exact ⟨h1, h3, h4⟩
      · simp [digitsValue, h2]
    · rw [if_neg h16]
      obtain ⟨i1, i2, i3⟩ := ih (n / 16) (by omega)
      obtain ⟨h1, h2, h3, h4⟩ := digitChar_isHexDigit (n % 16) (by omega)
      refine ⟨by simp, ?_, ?_⟩
      · intro c hc
        simp only [List.mem_append, List.mem_singleton] at hc
        rcases hc with hc | hc
        · exact i2 c hc
        · rw [hc]; exact ⟨h1, h3, h4⟩
      · rw [digitsValue_append, i3, h2]
        omega

/-- A digit is no white space and no sign. -/
theorem isDigit_token (c : Char) (hc : isDigit c = true) :
    isSpace c = false ∧ c ≠ '-' ∧ c ≠ '+' ∧ c ≠ 'x' ∧ isHexDigit c = true := by
  have hh : isHexDigit c = true := by simp [isHexDigit, hc]
  unfold isDigit at hc
  simp only [Bool.and_eq_true, decide_eq_true_eq] at hc
  have h1 : c ≠ ' ' := by rintro rfl; revert hc; decide
  have h2 : c ≠ Char.ofNat 9 := by rintro rfl; revert hc; decide
  have h3 : c ≠ Char.ofNat 10 := by rintro rfl; revert hc; decide
  have h4 : c ≠ Char.ofNat 11 := by rintro rfl; revert hc; decide
  have h5 : c ≠ Char.ofNat 12 := by rintro rfl; revert hc; decide
  have h6 : c ≠ Char.ofNat 13 := by rintro rfl; revert hc; decide
  refine ⟨by simp [isSpace, h1, h2, h3, h4, h5, h6], ?_, ?_, ?_, hh⟩
  · rintro rfl; revert hc; decide
  · rintro rfl; revert hc; decide
  · rintro rfl; revert hc; decide

/-- The call `std::stoi(ds)` on a string of decimal digits. -/
theorem stoi_decimal (ds : Str) (n : Nat) (hne : ds ≠ []) (hd : ∀ c ∈ ds, isDigit c = true)
    (hv : digitsValue 10 ds = n) (hn : n < 2147483648) : stoi ds 10 = some (n : Int) := by
  obtain ⟨a, q, rfl⟩ : ∃ a q, ds = a :: q := by
    cases ds with
    | nil => exact absurd rfl hne
    | cons a q => exact ⟨a, q, rfl⟩
  have ha := isDigit_token a (hd a (List.mem_cons_self _ _))
  unfold stoi
  have h1 : (a :: q).dropWhile isSpace = a :: q := by
    simp [List.dropWhile, ha.1]
  have hs1 : ¬ (some a = some '-') := fun h => ha.2.1 (Option.some.inj h)
  have hs2 : ¬ (some a = some '+') := fun h => ha.2.2.1 (Option.some.inj h)
  have h2 : (a :: q).takeWhile isDigit = a :: q := by
    rw [List.takeWhile_eq_self_iff]
    exact hd
  simp only [h1, List.head?_cons, hs1, hs2, or_self, if_false, decide_False,
    show ¬ (10 = 16) by decide, false_and, h2, hv]
  simp only [List.cons_ne_nil, if_false, Bool.false_eq_true]
  rw [if_pos (by constructor <;> omega)]

/-- The call `std::stoi("0x" + hs, nullptr, 16)` on a string of hexadecimal digits. -/
theorem stoi_hex (hs : Str) (n : Nat) (hne : hs ≠ []) (hd : ∀ c ∈ hs, isHexDigit c = true)
    (hv : digitsValue 16 hs = n) (hn : n < 2147483648) :
    stoi ("0x".toList ++ hs) 16 = some (n : Int) := by
  obtain ⟨a, q, rfl⟩ : ∃ a q, hs = a :: q := by
    cases hs with
    | nil => exact absurd rfl hne
    | cons a q => exact ⟨a, q, rfl⟩
  have ha := hd a (List.mem_cons_self _ _)
  unfold stoi
  have e : "0x".toList ++ a :: q = '0' :: 'x' :: a :: q := rfl
  have h1 : ('0' :: 'x' :: a :: q).dropWhile isSpace = '0' :: 'x' :: a :: q := by
    simp [List.dropWhile, show isSpace '0' = false by decide]
  have hs1 : ¬ (some '0' = some '-') := by decide
  have hs2 : ¬ (some '0' = some '+') := by decide
  have h2 : (a :: q).takeWhile isHexDigit = a :: q := by
    rw [List.takeWhile_eq_self_iff]
    exact hd
  rw [e]
  simp only [h1, List.head?_cons, hs1, hs2, or_self, if_false, decide_False, List.drop,
    Option.map_some', ha, true_and, true_or, and_self, if_true, h2, hv]
  simp only [List.cons_ne_nil, if_false, Bool.false_eq_true]
  rw [if_pos (by constructor <;> omega)]

/-- The U branch of `parseInstructionFields` on the tokens `rd` and `imm`, once
the two calls of `std::stoi` are known. -/
theorem u_fields (m rtok imm s1 s2 tail : Str) (instr : Instruction) (v : Int) (hexText : Str)
    (hm : m ∈ uMnemonics)
    (hs1 : s1 ≠ [] ∧ ∀ c ∈ s1, isSpace c = true)
    (hs2 : s2 ≠ [] ∧ ∀ c ∈ s2, isSpace c = true)
    (hr : rtok ≠ [] ∧ ∀ c ∈ rtok, isSpace c = false)
    (hi : imm ≠ [] ∧ ∀ c ∈ imm, isSpace c = false)
    (htail : ∀ c, tail.head? = some c → isSpace c = true)
    (hhex : (if (imm.drop 1).head? ≠ some 'x' then
              match stoi imm 10 with
              | none => none
              | some v => some ("0x".toList ++ decimalToHex v)
            else some imm) = some hexText)
    (hv : stoi hexText 16 = some v) :
    parseInstructionFields (m ++ (s1 ++ (rtok ++ (s2 ++ (imm ++ tail))))) instr =
      some { instr with
        line_name := m ++ (s1 ++ (rtok ++ (s2 ++ (imm ++ tail))))
        opcode := m, format := "U".toList, rd := popComma rtok, immediate := to_string v } := by
  obtain ⟨⟨hm1, hm2⟩, n1, n2, n3, n4, n5⟩ := mnemonics_disjoint.2.2 m hm
  have hw : readWord { rest := m ++ (s1 ++ (rtok ++ (s2 ++ (imm ++ tail)))), failed := false }
      instr.opcode = (m, { rest := s1 ++ (rtok ++ (s2 ++ (imm ++ tail))), failed := false }) :=
    readWord_token [] m _ _ (by simp) hm1 hm2 (head_append_space s1 _ hs1.1 hs1.2)
  have r1 : readWord { rest := s1 ++ (rtok ++ (s2 ++ (imm ++ tail))), failed := false }
      instr.rd = (rtok, { rest := s2 ++ (imm ++ tail), failed := false }) :=
    readWord_token s1 rtok _ _ hs1.2 hr.1 hr.2 (head_append_space s2 _ hs2.1 hs2.2)
  have r2 : readWord { rest := s2 ++ (imm ++ tail), failed := false } instr.immediate =
      (imm, { rest := tail, failed := false }) :=
    readWord_token s2 imm _ _ hs2.2 hi.1 hi.2 htail
  have he : imm.isEmpty = false := by
    cases imm with
    | nil => exact absurd rfl hi.1
    | cons a q => rfl
  unfold parseInstructionFields
  simp only [hw, if_neg n1, if_neg n2, if_neg n3, if_neg n4, if_neg n5, if_pos hm, r1, r2, he,
    Bool.false_eq_true, if_false, hhex, hv]

/-- C23. U-format immediates are normalised independently of their radix: for
`m` one of `lui`, `auipc` and `0 ≤ n < 2^31`, the line `m rd, <n in decimal>`
and the line `m rd, 0x<n in lower-case hexadecimal>` (tokens separated by
white space) are parsed to records with format `U`, `rd` without its trailing
comma and `immediate` equal to the decimal text of `n`; the two records differ
only in `line_name`, which holds each line as it was written. The hexadecimal
text is the one `decimalToHex` prints: lower-case hexadecimal digits with
value `n`. -/
theorem u_immediate_radix (m r s1 s2 tail : Str) (n : Nat) (instr : Instruction)
    (hm : m ∈ uMnemonics)
    (hs1 : s1 ≠ [] ∧ ∀ c ∈ s1, isSpace c = true)
    (hs2 : s2 ≠ [] ∧ ∀ c ∈ s2, isSpace c = true)
    (hr : ∀ c ∈ r, isSpace c = false)
    (hn : n < 2147483648)
    (htail : ∀ c, tail.head? = some c → isSpace c = true) :
    uMnemonics = ["lui".toList, "auipc".toList] ∧
    digitsValue 10 (to_string (n : Int)) = n ∧
    (digitsValue 16 (decimalToHex (n : Int)) = n ∧
      ∀ c ∈ decimalToHex (n : Int), isDigit c = true ∨ (97 ≤ c.toNat ∧ c.toNat ≤ 102)) ∧
    parseInstructionFields (m ++ s1 ++ r ++ [','] ++ s2 ++ to_string (n : Int) ++ tail) instr =
      some { instr with
        line_name := m ++ s1 ++ r ++ [','] ++ s2 ++ to_string (n : Int) ++ tail
        opcode := m, format := "U".toList, rd := r, immediate := to_string (n : Int) } ∧
    parseInstructionFields
        (m ++ s1 ++ r ++ [','] ++ s2 ++ "0x".toList ++ decimalToHex (n : Int) ++ tail) instr =
      some { instr with
        line_name := m ++ s1 ++ r ++ [','] ++ s2 ++ "0x".toList ++ decimalToHex (n : Int) ++ tail
        opcode := m, format := "U".toList, rd := r, immediate := to_string (n : Int) } := by
  have hts : to_string (n : Int) = natDigits 10 (n + 1) n := by
    unfold to_string
    rw [if_neg (by omega)]
    simp
  have hdh : decimalToHex (n : Int) = natDigits 16 (n + 1) n := by
    have : toU32 (n : Int) = n := by unfold toU32; omega
    unfold decimalToHex
    rw [this]
  obtain ⟨d1, d2, d3⟩ := natDigits_spec (n + 1) n (Nat.lt_succ_self _)
  obtain ⟨x1, x2, x3⟩ := natDigits_hex_spec (n + 1) n (Nat.lt_succ_self _)
  have hrc : r ++ [','] ≠ [] ∧ ∀ c ∈ r ++ [','], isSpace c = false := by
    refine ⟨by simp, ?_⟩
    intro c hc
    rw [List.mem_append, List.mem_singleton] at hc
    rcases hc with hc | hc
    · exact hr c hc
    · subst hc; decide
  have hstoi16 : stoi ("0x".toList ++ natDigits 16 (n + 1) n) 16 = some (n : Int) :=
    stoi_hex _ n x1 (fun c hc => (x2 c hc).1) x3 hn
  refine ⟨rfl, by rw [hts]; exact d3, ⟨by rw [hdh]; exact x3,
    fun c hc => (x2 c (by rw [← hdh]; exact hc)).2.2⟩, ?_, ?_⟩
  · have hline : m ++ s1 ++ r ++ [','] ++ s2 ++ to_string (n : Int) ++ tail =
        m ++ (s1 ++ ((r ++ [',']) ++ (s2 ++ (to_string (n : Int) ++ tail)))) := by
      simp only [List.append_assoc]
    rw [hline]
    have hx : ((to_string (n : Int)).drop 1).head? ≠ some 'x' := by
      intro hx
      have hmem : 'x' ∈ (to_string (n : Int)).drop 1 := List.mem_of_mem_head? hx
      have hmem2 : 'x' ∈ natDigits 10 (n + 1) n := by
        rw [← hts]; exact List.mem_of_mem_drop hmem
      exact (isDigit_token _ (d2 _ hmem2)).2.2.2.1 rfl
    have h := u_fields m (r ++ [',']) (to_string (n : Int)) s1 s2 tail instr (n : Int)
      ("0x".toList ++ decimalToHex (n : Int)) hm hs1 hs2 hrc
      ⟨by rw [hts]; exact d1, fun c hc => (isDigit_token c (d2 c (by rw [← hts]; exact hc))).1⟩
      htail
      (by rw [if_pos hx, hts, stoi_decimal _ n d1 d2 d3 hn])
      (by rw [hdh]; exact hstoi16)
    rw [popComma_comma] at h
    exact h
  · have hline : m ++ s1 ++ r ++ [','] ++ s2 ++ "0x".toList ++ decimalToHex (n : Int) ++ tail =
        m ++ (s1 ++ ((r ++ [',']) ++
          (s2 ++ (("0x".toList ++ decimalToHex (n : Int)) ++ tail)))) := by
      simp only [List.append_assoc]
    rw [hline]
    have hx : ¬ ((("0x".toList ++ decimalToHex (n : Int)).drop 1).head? ≠ some 'x') := by
      intro h; exact h rfl
    have htok : "0x".toList ++ decimalToHex (n : Int) ≠ [] ∧
        ∀ c ∈ "0x".toList ++ decimalToHex (n : Int), isSpace c = false := by
      refine ⟨by simp, ?_⟩
      intro c hc
      rw [List.mem_append] at hc
      rcases hc with hc | hc
      · revert c; decide
      · rw [hdh] at hc; exact (x2 c hc).2.1
    have h := u_fields m (r ++ [',']) ("0x".toList ++ decimalToHex (n : Int)) s1 s2 tail instr
      (n : Int) ("0x".toList ++ decimalToHex (n : Int)) hm hs1 hs2 hrc htok htail
      (by rw [if_neg hx])
      (by rw [hdh]; exact hstoi16)
    rw [popComma_comma] at h
    exact h

/-- Witness of C23: `lui x11, 65536` and `lui x11, 0x10000`. -/
theorem u_immediate_radix_witness :
    parseInstructionFields "lui x11, 65536".toList {} =
      some { line_name := "lui x11, 65536".toList, opcode := "lui".toList,
             format := "U".toList, rd := "x11".toList, immediate := "65536".toList } ∧
    parseInstructionFields "lui x11, 0x10000".toList {} =
      some { line_name := "lui x11, 0x10000".toList, opcode := "lui".toList,
             format := "U".toList, rd := "x11".toList, immediate := "65536".toList } :=
  (u_immediate_radix "lui".toList "x11".toList " ".toList " ".toList [] 65536 {} (by decide)
    (by decide) (by decide) (by decide) (by decide) (by decide)).2.2.2

/-! ## The layout of the data segments -/

theorem entryAddresses_append (l1 l2 : List DataEntry) : ∀ a : Nat,
    entryAddresses (l1 ++ l2) a = entryAddresses l1 a ++ entryAddresses l2 (advance l1 a) := by
  induction l1 with
  | nil => intro a; rfl
  | cons e l1 ih =>
    intro a
    simp only [List.cons_append, entryAddresses, advance, ih, List.append_eq]

theorem advance_append (l1 l2 : List DataEntry) : ∀ a : Nat,
    advance (l1 ++ l2) a = advance l2 (advance l1 a) := by
  induction l1 with
  | nil => intro a; rfl
  | cons e l1 ih =>
    intro a
    simp only [List.cons_append, advance, ih, List.append_eq]

/-- The running address wraps around like the data cursor: it is the start
plus the sum of the sizes, modulo `2^32`. -/
theorem advance_eq (l : List DataEntry) : ∀ a : Nat, a < 4294967296 →
    advance l a = (a + (l.map (fun e => e.size)).sum) % 4294967296 := by
  induction l with
  | nil =>
    intro a h
    simp only [advance, List.map_nil, List.sum_nil, Nat.add_zero]
    omega
  | cons e l ih =>
    intro a h
    simp only [advance, List.map_cons, List.sum_cons]
    rw [ih _ (Nat.mod_lt _ (by norm_num))]
    generalize (l.map (fun e => e.size)).sum = t
    omega

theorem segmentEnd_lt (seg : DataSegment) : segmentEnd seg < 4294967296 :=
  Nat.mod_lt _ (by norm_num)

theorem dataEnd_lt (segs : List DataSegment) : ∀ a : Nat, a < 4294967296 →
    dataEnd a segs < 4294967296 := by
  induction segs with
  | nil => intro a h; exact h
  | cons seg rest ih => intro a _; exact ih _ (segmentEnd_lt seg)

theorem contiguousFrom_append (segs : List DataSegment) (seg : DataSegment) : ∀ a : Nat,
    contiguousFrom a (segs ++ [seg]) =
      (contiguousFrom a segs && decide (seg.startAddress = dataEnd a segs)) := by
  induction segs with
  | nil => intro a; simp [contiguousFrom, dataEnd]
  | cons s rest ih =>
    intro a
    simp only [List.cons_append, contiguousFrom, dataEnd, ih, Bool.and_assoc, List.append_eq]

theorem dataEnd_append (segs : List DataSegment) (seg : DataSegment) : ∀ a : Nat,
    dataEnd a (segs ++ [seg]) = segmentEnd seg := by
  induction segs with
  | nil => intro a; rfl
  | cons s rest ih =>
    intro a
    simp only [List.cons_append, dataEnd, ih, List.append_eq]

theorem allEntries_append (segs : List DataSegment) (seg : DataSegment) :
    allEntries (segs ++ [seg]) = allEntries segs ++ seg.contents := by
  induction segs with
  | nil => simp [allEntries]
  | cons s rest ih =>
    simp only [List.cons_append, allEntries, ih, List.append_assoc, List.append_eq]

theorem placedAddresses_append (segs : List DataSegment) (seg : DataSegment) :
    placedAddresses (segs ++ [seg]) =
      placedAddresses segs ++ entryAddresses seg.contents seg.startAddress := by
  induction segs with
  | nil => simp [placedAddresses]
  | cons s rest ih =>
    simp only [List.cons_append, placedAddresses, ih, List.append_assoc, List.append_eq]

theorem pushEntry_append (segs : List DataSegment) (seg : DataSegment) (e : DataEntry) :
    pushEntry (segs ++ [seg]) e = segs ++ [{ seg with contents := seg.contents ++ [e] }] := by
  simp [pushEntry]

theorem ensureSegment_append (segs : List DataSegment) (seg : DataSegment) (d : Nat) :
    ensureSegment (segs ++ [seg]) d = segs ++ [seg] := by
  simp [ensureSegment]

theorem ensureSegment_idem (segs : List DataSegment) (d : Nat) :
    ensureSegment (ensureSegment segs d) d = ensureSegment segs d := by
  cases segs with
  | nil => rfl
  | cons s rest => rfl

/-- Every layout extends itself. -/
theorem ExtendsLayout.refl (segs : List DataSegment) (d : Nat) (h : DataLayout segs d) :
    ExtendsLayout segs d segs d :=
  ⟨h, [], by simp, by simp [entryAddresses], rfl⟩

theorem ExtendsLayout.trans (segs segs1 segs2 : List DataSegment) (d d1 d2 : Nat)
    (h1 : ExtendsLayout segs d segs1 d1) (h2 : ExtendsLayout segs1 d1 segs2 d2) :
    ExtendsLayout segs d segs2 d2 := by
  obtain ⟨-, m1, a1, p1, e1⟩ := h1
  obtain ⟨inv, m2, a2, p2, e2⟩ := h2
  refine ⟨inv, m1 ++ m2, ?_, ?_, ?_⟩
  · rw [a2, a1, List.append_assoc]
  · rw [p2, p1, entryAddresses_append, ← e1, List.append_assoc]
  · rw [advance_append, ← e1, e2]

/-- The statement `.data`: a new, empty segment at the cursor. -/
theorem data_directive_layout (segs : List DataSegment) (d : Nat) (h : DataLayout segs d) :
    ExtendsLayout segs d (segs ++ [{ startAddress := d, contents := [] }]) d := by
  obtain ⟨hc, he, hd⟩ := h
  refine ⟨⟨?_, ?_, hd⟩, [], ?_, ?_, rfl⟩
  · rw [contiguousFrom_append, hc, he]
    simp
  · rw [dataEnd_append]
    simp only [segmentEnd, List.map_nil, List.sum_nil, Nat.add_zero]
    omega
  · rw [allEntries_append]
  · rw [placedAddresses_append]

/-- The method `addDataToCurrentSegment` (after the check for an open
segment): the entry is appended to the last segment, where
`initializeMemoryFromDataSegments` places it at the cursor value `d`. -/
theorem add_entry_layout (segs : List DataSegment) (d : Nat) (e : DataEntry)
    (h : DataLayout segs d) :
    ExtendsLayout segs d (pushEntry (ensureSegment segs d) e) ((d + e.size) % 4294967296) ∧
    allEntries (pushEntry (ensureSegment segs d) e) = allEntries segs ++ [e] ∧
    placedAddresses (pushEntry (ensureSegment segs d) e) = placedAddresses segs ++ [d] := by
  obtain ⟨hc, he, hd⟩ := h
  have key : contiguousFrom 0x10000000 (pushEntry (ensureSegment segs d) e) = true ∧
      dataEnd 0x10000000 (pushEntry (ensureSegment segs d) e) = (d + e.size) % 4294967296 ∧
      allEntries (pushEntry (ensureSegment segs d) e) = allEntries segs ++ [e] ∧
      placedAddresses (pushEntry (ensureSegment segs d) e) = placedAddresses segs ++ [d] := by
    rcases List.eq_nil_or_concat segs with hnil | ⟨init, last, hcat⟩
    · subst hnil
      have hd0 : d = 0x10000000 := by simpa [dataEnd] using he.symm
      have e1 : pushEntry (ensureSegment [] d) e = [{ startAddress := d, contents := [e] }] := rfl
      rw [e1]
      refine ⟨by simp [contiguousFrom, hd0], ?_, by simp [allEntries], ?_⟩
      · simp [dataEnd, segmentEnd]
      · simp [placedAddresses, entryAddresses]
    · rw [List.concat_eq_append] at hcat
      subst hcat
      rw [ensureSegment_append, pushEntry_append]
      rw [contiguousFrom_append] at hc
      rw [dataEnd_append] at he
      simp only [Bool.and_eq_true, decide_eq_true_eq] at hc
      have hstart : last.startAddress < 4294967296 := by
        rw [hc.2]; exact dataEnd_lt _ _ (by norm_num)
      have hadv : advance last.contents last.startAddress = d := by
        rw [advance_eq _ _ hstart, ← he]
        rfl
      refine ⟨?_, ?_, ?_, ?_⟩
      · rw [contiguousFrom_append]
        simp [hc.1, hc.2]
      · rw [dataEnd_append, ← he]
        simp only [segmentEnd, List.map_append, List.sum_append, List.map_cons, List.map_nil,
          List.sum_cons, List.sum_nil, Nat.add_zero]
        generalize (last.contents.map (fun e => e.size)).sum = t
        omega
      · rw [allEntries_append, allEntries_append, List.append_assoc]
      · rw [placedAddresses_append, placedAddresses_append]
        simp only [entryAddresses_append, entryAddresses, hadv, List.append_assoc]
  obtain ⟨k1, k2, k3, k4⟩ := key
  refine ⟨⟨⟨k1, k2, Nat.mod_lt _ (by norm_num)⟩, [e], k3, ?_, rfl⟩, k3, k4⟩
  rw [k4]
  rfl

/-- The loop of a numeric directive keeps the layout invariant: the entries it
appends are placed where the cursor was. -/
theorem dataLoop_layout (lo hi : Int) (f : Int → Int) (size : Nat) (fuel : Nat) :
    ∀ (iss : IStream) (st : SymbolTable) (d : Nat), DataLayout st.dataSegments d →
      ExtendsLayout st.dataSegments d
        (dataLoop lo hi f size fuel iss st d).1.dataSegments
        (dataLoop lo hi f size fuel iss st d).2 := by
  induction fuel with
  | zero => intro iss st d h; exact ExtendsLayout.refl _ _ h
  | succ fuel ih =>
    intro iss st d h
    unfold dataLoop
    rcases hr : readInt lo hi iss with ⟨_ | v, iss1⟩
    · exact ExtendsLayout.refl _ _ h
    · simp only
      have h1 := (add_entry_layout st.dataSegments d ⟨f v, size⟩ h).1
      have e1 : (addDataToCurrentSegment
          { st with dataSegments := ensureSegment st.dataSegments d } d (f v) size).1.dataSegments
          = pushEntry (ensureSegment st.dataSegments d) ⟨f v, size⟩ := by
        simp only [addDataToCurrentSegment, ensureSegment_idem]
      have e2 : (addDataToCurrentSegment
          { st with dataSegments := ensureSegment st.dataSegments d } d (f v) size).2
          = (d + size) % 4294967296 := rfl
      have h2 := ih iss1 (addDataToCurrentSegment
          { st with dataSegments := ensureSegment st.dataSegments d } d (f v) size).1
          ((d + size) % 4294967296) (by rw [e1]; exact h1.1)
      rw [e2]
      rw [e1] at h2
      exact ExtendsLayout.trans _ _ _ _ _ _ h1 h2

/-- The loop of `.asciiz` over the characters keeps the layout invariant. -/
theorem asciizLoop_layout (str : Str) :
    ∀ (st : SymbolTable) (d : Nat), DataLayout st.dataSegments d →
      ExtendsLayout st.dataSegments d
        (asciizLoop str st d).1.dataSegments (asciizLoop str st d).2 := by
  induction str with
  | nil => intro st d h; exact ExtendsLayout.refl _ _ h
  | cons ch rest ih =>
    intro st d h
    unfold asciizLoop
    simp only
    have h1 := (add_entry_layout st.dataSegments d ⟨charValue ch, 1⟩ h).1
    have e1 : (addDataToCurrentSegment
        { st with dataSegments := ensureSegment st.dataSegments d } d (charValue ch)
          1).1.dataSegments
        = pushEntry (ensureSegment st.dataSegments d) ⟨charValue ch, 1⟩ := by
      simp only [addDataToCurrentSegment, ensureSegment_idem]
    have e2 : (addDataToCurrentSegment
        { st with dataSegments := ensureSegment st.dataSegments d } d (charValue ch) 1).2
        = (d + 1) % 4294967296 := rfl
    have h2 := ih (addDataToCurrentSegment
        { st with dataSegments := ensureSegment st.dataSegments d } d (charValue ch) 1).1
        ((d + 1) % 4294967296) (by rw [e1]; exact h1.1)
    rw [e2]
    rw [e1] at h2
    exact ExtendsLayout.trans _ _ _ _ _ _ h1 h2

/-- The characters of `.asciiz` followed by the terminator keep the layout invariant. -/
theorem asciiz_layout (str1 : Str) (st : SymbolTable) (d : Nat)
    (h : DataLayout st.dataSegments d) :
    ExtendsLayout st.dataSegments d
      (addDataToCurrentSegment
        { (asciizLoop str1 st d).1 with
          dataSegments := ensureSegment (asciizLoop str1 st d).1.dataSegments
            (asciizLoop str1 st d).2 } (asciizLoop str1 st d).2 0 1).1.dataSegments
      (addDataToCurrentSegment
        { (asciizLoop str1 st d).1 with
          dataSegments := ensureSegment (asciizLoop str1 st d).1.dataSegments
            (asciizLoop str1 st d).2 } (asciizLoop str1 st d).2 0 1).2 := by
  have h1 := asciizLoop_layout str1 st d h
  have h2 := (add_entry_layout (asciizLoop str1 st d).1.dataSegments (asciizLoop str1 st d).2
    ⟨0, 1⟩ h1.1).1
  have e1 : (addDataToCurrentSegment
      { (asciizLoop str1 st d).1 with
        dataSegments := ensureSegment (asciizLoop str1 st d).1.dataSegments
          (asciizLoop str1 st d).2 } (asciizLoop str1 st d).2 0 1).1.dataSegments
      = pushEntry (ensureSegment (asciizLoop str1 st d).1.dataSegments
          (asciizLoop str1 st d).2) ⟨0, 1⟩ := by
    simp only [addDataToCurrentSegment, ensureSegment_idem]
  rw [e1]
  exact ExtendsLayout.trans _ _ _ _ _ _ h1 h2

/-- Every directive keeps the layout invariant. -/
theorem processDirective_layout (directive : Str) (iss : IStream) (st : SymbolTable) (d : Nat)
    (h : DataLayout st.dataSegments d) :
    ExtendsLayout st.dataSegments d
      (processDirective directive iss st d).1.dataSegments
      (processDirective directive iss st d).2 := by
  unfold processDirective
  split
  · exact ExtendsLayout.refl _ _ h
  split
  · exact data_directive_layout _ _ h
  split
  · exact dataLoop_layout _ _ _ _ _ _ _ _ h
  split
  · exact dataLoop_layout _ _ _ _ _ _ _ _ h
  split
  · exact dataLoop_layout _ _ _ _ _ _ _ _ h
  split
  · exact dataLoop_layout _ _ _ _ _ _ _ _ h
  split
  · exact asciiz_layout _ _ _ h
  split <;> exact ExtendsLayout.refl _ _ h

/-- The first pass on one statement keeps the layout invariant. -/
theorem parseStatement_layout (stmt : Str) (s s1 : ParseState)
    (h : DataLayout s.symbolTable.dataSegments s.dataAddress)
    (hp : parseStatement true stmt s = .next s1) :
    ExtendsLayout s.symbolTable.dataSegments s.dataAddress
      s1.symbolTable.dataSegments s1.dataAddress := by
  unfold parseStatement at hp
  by_cases he : stmt.isEmpty = true
  · simp only [he, if_true] at hp
    cases hp
    exact ExtendsLayout.refl _ _ h
  · by_cases hd : ¬ (readWord { rest := stmt, failed := false } []).1.isEmpty = true ∧
        (readWord { rest := stmt, failed := false } []).1.head? = some '.'
    · simp only [he, hd, if_true, if_false] at hp
      simp at hp
      subst hp
      exact processDirective_layout _ _ _ _ h
    · simp only [he, hd, if_false] at hp
      simp at hp
      subst hp
      exact ExtendsLayout.refl _ _ h

/-- The loop body on the first pass, in terms of the label and the statement. -/
theorem parseLine_true_eq (raw : Str) (s : ParseState) :
    parseLine true raw s =
      match labelOfLine raw with
      | none => parseStatement true (statementOfLine raw) s
      | some label =>
        if validLabel label then
          parseStatement true (statementOfLine raw)
            { s with
              symbolTable := addLabel s.symbolTable label
                (if ¬ (statementOfLine raw).isEmpty ∧ (statementOfLine raw).head? = some '.'
                 then s.dataAddress else s.textAddress) }
        else .rejected s := by
  rw [parseLine_eq]
  cases labelOfLine raw with
  | none => rfl
  | some label =>
    simp only [if_true]
    split_ifs <;> rfl

/-- The first pass on one line: it keeps the layout invariant, and a rejected
line leaves the state as it was. -/
theorem parseLine_layout (raw : Str) (s : ParseState)
    (h : DataLayout s.symbolTable.dataSegments s.dataAddress) :
    (∀ s1, parseLine true raw s = .next s1 →
      ExtendsLayout s.symbolTable.dataSegments s.dataAddress
        s1.symbolTable.dataSegments s1.dataAddress) ∧
    (∀ s1, parseLine true raw s = .rejected s1 → s1 = s) ∧
    parseLine true raw s ≠ .thrown := by
  rw [parseLine_true_eq]
  cases hl : labelOfLine raw with
  | none =>
    simp only
    obtain ⟨s2, h2, -⟩ := parseStatement_true (statementOfLine raw) s
    refine ⟨fun s1 hp => parseStatement_layout (statementOfLine raw) s s1 h hp, ?_, ?_⟩
    · intro s1 hp; rw [h2] at hp; cases hp
    · rw [h2]; intro hp; cases hp
  | some label =>
    simp only
    by_cases hv : validLabel label = true
    · simp only [hv, if_true]
      generalize (if ¬ (statementOfLine raw).isEmpty ∧ (statementOfLine raw).head? = some '.'
                 then s.dataAddress else s.textAddress) = a
      obtain ⟨s2, h2, -⟩ := parseStatement_true (statementOfLine raw)
        { s with symbolTable := addLabel s.symbolTable label a }
      refine ⟨fun s1 hp => ?_, ?_, ?_⟩
      · exact parseStatement_layout (statementOfLine raw)
          { s with symbolTable := addLabel s.symbolTable label a } s1 h hp
      · intro s1 hp; rw [h2] at hp; cases hp
      · rw [h2]; intro hp; cases hp
    · simp only [hv, if_false, Bool.false_eq_true]
      refine ⟨fun s1 hp => (by cases hp), fun s1 hp => ?_, fun hp => (by cases hp)⟩
      cases hp
      rfl

/-- The first pass over any lines: it returns (with `true` or `false`), and
the state it leaves extends the layout it started from. -/
theorem parseLines_layout (lines : List Str) : ∀ s : ParseState,
    DataLayout s.symbolTable.dataSegments s.dataAddress →
    ∃ s1 : ParseState,
      (parseLines true lines s = .next s1 ∨ parseLines true lines s = .rejected s1) ∧
      ExtendsLayout s.symbolTable.dataSegments s.dataAddress
        s1.symbolTable.dataSegments s1.dataAddress := by
  induction lines with
  | nil => intro s h; exact ⟨s, Or.inl rfl, ExtendsLayout.refl _ _ h⟩
  | cons l rest ih =>
    intro s h
    obtain ⟨hn, hr, ht⟩ := parseLine_layout l s h
    simp only [parseLines]
    cases hp : parseLine true l s with
    | next s1 =>
      have h1 := hn s1 hp
      obtain ⟨s2, h2, h3⟩ := ih s1 h1.1
      exact ⟨s2, h2, ExtendsLayout.trans _ _ _ _ _ _ h1 h3⟩
    | rejected s1 =>
      have := hr s1 hp
      subst this
      exact ⟨s1, Or.inr rfl, ExtendsLayout.refl _ _ h⟩
    | thrown => exact absurd hp ht

theorem entryAddresses_length (l : List DataEntry) : ∀ a : Nat,
    (entryAddresses l a).length = l.length := by
  induction l with
  | nil => intro a; rfl
  | cons e l ih => intro a; simp only [entryAddresses, List.length_cons, ih]

theorem unpackAt_append (l1 l2 : List (DataEntry × Nat)) : ∀ m : Memory,
    unpackAt (l1 ++ l2) m =
      match unpackAt l1 m with
      | none => none
      | some m1 => unpackAt l2 m1 := by
  induction l1 with
  | nil => intro m; rfl
  | cons p l1 ih =>
    intro m
    simp only [List.cons_append, unpackAt, List.append_eq]
    cases initEntryFrom p.1.value p.2 p.1.size 0 m with
    | none => rfl
    | some m1 => exact ih m1

/-- The loop over the entries of one segment unpacks each entry at its address
of `entryAddresses`. -/
theorem initEntries_addresses (l : List DataEntry) : ∀ (a : Nat) (m : Memory),
    initEntries l a m = unpackAt (l.zip (entryAddresses l a)) m := by
  induction l with
  | nil => intro a m; rfl
  | cons e l ih =>
    intro a m
    simp only [initEntries, entryAddresses, List.zip_cons_cons, unpackAt]
    cases initEntryFrom e.value a e.size 0 m with
    | none => rfl
    | some m1 => exact ih _ m1

/-- The loops of `initializeMemoryFromDataSegments` unpack the entries of all
segments, in order, at the addresses of `placedAddresses`. -/
theorem initSegments_addresses (segs : List DataSegment) : ∀ m : Memory,
    initSegments segs m = unpackAt ((allEntries segs).zip (placedAddresses segs)) m := by
  induction segs with
  | nil => intro m; rfl
  | cons seg rest ih =>
    intro m
    simp only [initSegments, allEntries, placedAddresses]
    rw [List.zip_append (by rw [entryAddresses_length]), unpackAt_append,
      ← initEntries_addresses]
    cases initEntries seg.contents seg.startAddress m with
    | none => rfl
    | some m1 => exact ih m1

/-- Contiguous segments, one by one. -/
theorem contiguousFrom_spec (segs : List DataSegment) : ∀ a : Nat,
    contiguousFrom a segs = true →
    (∀ seg, segs.head? = some seg → seg.startAddress = a) ∧
    (∀ (i : Nat) (seg1 seg2 : DataSegment), segs[i]? = some seg1 → segs[i + 1]? = some seg2 →
      seg2.startAddress = segmentEnd seg1) := by
  induction segs with
  | nil =>
    intro a _
    exact ⟨fun seg h => (by cases h), fun i seg1 seg2 h => (by cases h)⟩
  | cons s rest ih =>
    intro a h
    simp only [contiguousFrom, Bool.and_eq_true, decide_eq_true_eq] at h
    obtain ⟨i1, i2⟩ := ih _ h.2
    refine ⟨?_, ?_⟩
    · intro seg hs
      simp only [List.head?_cons, Option.some.injEq] at hs
      rw [← hs]; exact h.1
    · intro i seg1 seg2 h1 h2
      cases i with
      | zero =>
        simp only [List.getElem?_cons_zero, Option.some.injEq] at h1
        simp only [Nat.zero_add, List.getElem?_cons_succ] at h2
        rw [← h1]
        exact i1 seg2 (by rw [← h2]; cases rest <;> simp)
      | succ i =>
        simp only [List.getElem?_cons_succ] at h1 h2
        exact i2 i seg1 seg2 h1 h2

/-- For contiguous segments the addresses of the entries are the values a
cursor takes that starts at the first address and advances by each size. -/
theorem placedAddresses_contiguous (segs : List DataSegment) : ∀ a : Nat, a < 4294967296 →
    contiguousFrom a segs = true →
    placedAddresses segs = entryAddresses (allEntries segs) a := by
  induction segs with
  | nil => intro a _ _; rfl
  | cons s rest ih =>
    intro a ha h
    simp only [contiguousFrom, Bool.and_eq_true, decide_eq_true_eq] at h
    simp only [placedAddresses, allEntries, entryAddresses_append]
    have hend : segmentEnd s = advance s.contents a := by
      rw [advance_eq _ _ ha, ← h.1]
      rfl
    rw [ih _ (segmentEnd_lt s) h.2, hend, h.1]

/-- The state a first pass ends in is determined by its result. -/
theorem lineResult_state (r : LineResult) (s s1 : ParseState)
    (h : r = .next s ∨ r = .rejected s) (h1 : r = .next s1 ∨ r = .rejected s1) : s1 = s := by
  rcases h with h | h <;> rcases h1 with h1 | h1 <;> rw [h] at h1 <;> cases h1 <;> rfl

/-- The layout in which the first pass starts. -/
theorem parseStart_layout :
    DataLayout (parseStart [] emptySymbolTable).symbolTable.dataSegments
      (parseStart [] emptySymbolTable).dataAddress :=
  ⟨rfl, rfl, by decide⟩

/-- C28. Data segments are contiguous and agree with the data cursor. The
first pass of `parseFile` over any lines returns (`true` or `false`), and in
the state it leaves: the first data segment, if any, starts at `0x10000000`;
each later segment starts at the start of the segment before it plus the sum
of the sizes of that segment's entries, modulo `2^32`; the data cursor is the
end of the last segment. `initializeMemoryFromDataSegments` unpacks the entries
at the addresses `placedAddresses`, which are the values a cursor takes that
starts at `0x10000000` and advances by the size of each entry; the entries
appended after any prefix of the lines are placed at the values the parser's
cursor takes from its value after that prefix on, and that value is the
address bound to a label in front of a directive on the next line. Every call
of `addDataToCurrentSegment` in a state of this layout appends one entry, which
is placed at the value the cursor has at the call. -/
theorem data_segments_contiguous (lines : List Str) :
    ∃ s : ParseState,
      (parseLines true lines (parseStart [] emptySymbolTable) = .next s ∨
        parseLines true lines (parseStart [] emptySymbolTable) = .rejected s) ∧
      (parseFile lines [] emptySymbolTable true).symbols.dataSegments =
        s.symbolTable.dataSegments ∧
      (∀ seg, s.symbolTable.dataSegments.head? = some seg → seg.startAddress = 0x10000000) ∧
      (∀ (i : Nat) (seg1 seg2 : DataSegment), s.symbolTable.dataSegments[i]? = some seg1 →
        s.symbolTable.dataSegments[i + 1]? = some seg2 →
        seg2.startAddress = segmentEnd seg1) ∧
      s.dataAddress = dataEnd 0x10000000 s.symbolTable.dataSegments ∧
      (∀ m : Memory, initSegments s.symbolTable.dataSegments m =
        unpackAt ((allEntries s.symbolTable.dataSegments).zip
          (placedAddresses s.symbolTable.dataSegments)) m) ∧
      placedAddresses s.symbolTable.dataSegments =
        entryAddresses (allEntries s.symbolTable.dataSegments) 0x10000000 ∧
      (∀ (pre post : List Str) (sp : ParseState), lines = pre ++ post →
        parseLines true pre (parseStart [] emptySymbolTable) = .next sp →
        (∃ more : List DataEntry,
          allEntries s.symbolTable.dataSegments =
            allEntries sp.symbolTable.dataSegments ++ more ∧
          placedAddresses s.symbolTable.dataSegments =
            placedAddresses sp.symbolTable.dataSegments ++
              entryAddresses more sp.dataAddress ∧
          s.dataAddress = advance more sp.dataAddress) ∧
        (∀ (raw : Str) (rest : List Str) (L : Str), post = raw :: rest →
          labelOfLine raw = some L → validLabel L = true →
          (¬ (statementOfLine raw).isEmpty ∧ (statementOfLine raw).head? = some '.') →
          ∃ sq : ParseState, parseLine true raw sp = .next sq ∧
            getAddress sq.symbolTable L = sp.dataAddress ∧
            ∃ added : List DataEntry,
              allEntries sq.symbolTable.dataSegments =
                allEntries sp.symbolTable.dataSegments ++ added ∧
              placedAddresses sq.symbolTable.dataSegments =
                placedAddresses sp.symbolTable.dataSegments ++
                  entryAddresses added sp.dataAddress)) ∧
      (∀ (st : SymbolTable) (d : Nat) (value : Int) (size : Nat),
        DataLayout st.dataSegments d →
        allEntries (addDataToCurrentSegment st d value size).1.dataSegments =
          allEntries st.dataSegments ++ [{ value := value, size := size }] ∧
        placedAddresses (addDataToCurrentSegment st d value size).1.dataSegments =
          placedAddresses st.dataSegments ++ [d] ∧
        DataLayout (addDataToCurrentSegment st d value size).1.dataSegments
          (addDataToCurrentSegment st d value size).2) := by
  obtain ⟨s, hs, ⟨⟨hc, he, hd⟩, -⟩⟩ :=
    parseLines_layout lines (parseStart [] emptySymbolTable) parseStart_layout
  obtain ⟨c1, c2⟩ := contiguousFrom_spec _ _ hc
  refine ⟨s, hs, ?_, c1, c2, he.symm, initSegments_addresses _,
    placedAddresses_contiguous _ _ (by norm_num) hc, ?_, ?_⟩
  · rw [parseFile_eq]
    rcases hs with hs | hs <;> rw [hs] <;> rfl
  · intro pre post sp hlines hpre
    obtain ⟨sp1, hsp1, hext⟩ :=
      parseLines_layout pre (parseStart [] emptySymbolTable) parseStart_layout
    have hsp : sp1 = sp := by
      rcases hsp1 with h | h
      · rw [hpre] at h; cases h; rfl
      · rw [hpre] at h; cases h
    subst hsp
    have hlay := hext.1
    refine ⟨?_, ?_⟩
    · obtain ⟨s2, hs2, -, more, m1, m2, m3⟩ := parseLines_layout post sp1 hlay
      have hrun : parseLines true lines (parseStart [] emptySymbolTable) =
          parseLines true post sp1 := by
        rw [hlines, parseLines_append, hpre]
      rw [hrun] at hs
      have : s2 = s := lineResult_state _ s s2 hs hs2
      subst this
      exact ⟨more, m1, m2, m3⟩
    · intro raw rest L _ hl hv hdot
      obtain ⟨sq, hq, -, -, -, hbind, -⟩ := (parseLine_true raw sp1).2 (by
        intro label hlab
        rw [hl] at hlab
        cases hlab
        exact hv)
      obtain ⟨-, added, a1, a2, -⟩ := (parseLine_layout raw sp1 hlay).1 sq hq
      refine ⟨sq, hq, ?_, added, a1, a2⟩
      apply getAddress_of_table
      rw [hbind L hl, if_pos hdot]
  · intro st d value size hlay
    obtain ⟨h1, h2, h3⟩ := add_entry_layout st.dataSegments d ⟨value, size⟩ hlay
    exact ⟨h2, h3, h1.1⟩

/-- Witness of C28: the source `.data` / `a: .word 1 2` / `.half 3` /
`add x1, x2, x3` / `.data` / `b: .byte 4` / `c: .word 5` leaves the segments
`0x10000000: 1, 2 (size 4), 3 (size 2)` and `0x1000000A: 4 (size 1), 5 (size 4)`;
the entries are placed at `0x10000000`, `0x10000004`, `0x10000008`,
`0x1000000A`, `0x1000000B`, and the labels are bound to `0x10000000`,
`0x1000000A` and `0x1000000B`. -/
theorem data_segments_contiguous_witness :
    (firstPassSymbols layoutSource).dataSegments =
      [{ startAddress := 0x10000000,
         contents := [{ value := 1, size := 4 }, { value := 2, size := 4 },
                      { value := 3, size := 2 }] },
       { startAddress := 0x1000000A,
         contents := [{ value := 4, size := 1 }, { value := 5, size := 4 }] }] ∧
    placedAddresses (firstPassSymbols layoutSource).dataSegments =
      [0x10000000, 0x10000004, 0x10000008, 0x1000000A, 0x1000000B] ∧
    placedAddresses (firstPassSymbols layoutSource).dataSegments =
      entryAddresses (allEntries (firstPassSymbols layoutSource).dataSegments) 0x10000000 ∧
    getAddress (firstPassSymbols layoutSource) "a".toList = 0x10000000 ∧
    getAddress (firstPassSymbols layoutSource) "b".toList = 0x1000000A ∧
    getAddress (firstPassSymbols layoutSource) "c".toList = 0x1000000B ∧
    (∃ sp sq : ParseState,
      parseLines true (layoutSource.take 5) (parseStart [] emptySymbolTable) = .next sp ∧
      sp.dataAddress = 0x1000000A ∧
      parseLine true "b: .byte 4".toList sp = .next sq ∧
      getAddress sq.symbolTable "b".toList = sp.dataAddress) := by
  obtain ⟨s, -, hpf, -, -, -, -, hplaced, hpre, -⟩ := data_segments_contiguous layoutSource
  have hseg : (firstPassSymbols layoutSource).dataSegments = s.symbolTable.dataSegments := hpf
  refine ⟨by rfl, by rfl, by rw [hseg]; exact hplaced, by decide, by decide, by decide, ?_⟩
  obtain ⟨sq, hq, hb, -⟩ := (hpre (layoutSource.take 5) (layoutSource.drop 5) _
    (List.take_append_drop 5 layoutSource).symm rfl).2 "b: .byte 4".toList ["c: .word 5".toList]
    "b".toList rfl (by decide) (by decide) (by decide)
  exact ⟨_, sq, rfl, rfl, hq, hb⟩

/-! ## Directive lines -/

/-- A line that consists of a directive name and operands without `#` and `:`
is seen by the loop body of `parseFile` as it is: it has no label, it is its
own statement, and its first word is the directive name. -/
theorem directive_line (dir ops : Str) (hdot : dir.head? = some '.')
    (hdir : ∀ c ∈ dir, c ≠ '#' ∧ c ≠ ':' ∧ isSpace c = false)
    (hops : ∀ c ∈ ops, c ≠ '#' ∧ c ≠ ':')
    (hhead : ∀ c, ops.head? = some c → isSpace c = true)
    (hlast : ∀ c, (dir ++ ops).getLast? = some c → isBlank c = false) :
    labelOfLine (dir ++ ops) = none ∧ statementOfLine (dir ++ ops) = dir ++ ops ∧
    readWord { rest := dir ++ ops, failed := false } [] = (dir, { rest := ops, failed := false }) := by
  obtain ⟨a, q, rfl⟩ : ∃ a q, dir = a :: q := by
    cases dir with
    | nil => cases hdot
    | cons a q => exact ⟨a, q, rfl⟩
  have ha : a = '.' := by simpa using hdot
  have hc1 : ∀ c ∈ a :: q ++ ops, c ≠ '#' ∧ c ≠ ':' := by
    intro c hc
    rw [List.mem_append] at hc
    rcases hc with hc | hc
    · exact ⟨(hdir c hc).1, (hdir c hc).2.1⟩
    · exact hops c hc
  have hcolon : ':' ∉ a :: q ++ ops := fun h => (hc1 _ h).2 rfl
  have he : effectiveLine (a :: q ++ ops) = a :: q ++ ops := by
    unfold effectiveLine removeComments
    have : (a :: q ++ ops).takeWhile (fun c => c != '#') = a :: q ++ ops := by
      rw [List.takeWhile_eq_self_iff]
      intro c hc
      simpa using (hc1 c hc).1
    rw [this]
    apply trimWhitespace_id
    · intro c hc
      simp only [List.cons_append, List.head?_cons, Option.some.injEq] at hc
      rw [← hc, ha]; decide
    · exact hlast
  refine ⟨?_, ?_, ?_⟩
  · unfold labelOfLine
    rw [he, if_neg hcolon]
  · unfold statementOfLine
    rw [he, if_neg hcolon]
  · exact readWord_token [] (a :: q) ops [] (by simp) (by simp)
      (fun c hc => (hdir c hc).2.2) hhead

/-- The first pass on a directive line: the directive is processed on the
operands, and nothing else changes. -/
theorem parseLine_directive (dir ops : Str) (s : ParseState) (hdot : dir.head? = some '.')
    (hdir : ∀ c ∈ dir, c ≠ '#' ∧ c ≠ ':' ∧ isSpace c = false)
    (hops : ∀ c ∈ ops, c ≠ '#' ∧ c ≠ ':')
    (hhead : ∀ c, ops.head? = some c → isSpace c = true)
    (hlast : ∀ c, (dir ++ ops).getLast? = some c → isBlank c = false) :
    parseLine true (dir ++ ops) s = .next
      { s with
        symbolTable :=
          (processDirective dir { rest := ops, failed := false } s.symbolTable s.dataAddress).1
        dataAddress :=
          (processDirective dir { rest := ops, failed := false } s.symbolTable s.dataAddress).2 } := by
  obtain ⟨hlab, hstmt, hw⟩ := directive_line dir ops hdot hdir hops hhead hlast
  rw [parseLine_eq, hlab]
  simp only [hstmt]
  unfold parseStatement
  rw [hw]
  have hne : (dir ++ ops).isEmpty = false := by
    cases dir with
    | nil => cases hdot
    | cons a q => rfl
  have hne2 : dir.isEmpty = false := by
    cases dir with
    | nil => cases hdot
    | cons a q => rfl
  simp only [hne, hne2, hdot]
  simp

/-- The decimal text of an integer ends with a digit. -/
theorem to_string_last (v : Int) :
    ∃ z, (to_string v).getLast? = some z ∧ isDigit z = true := by
  unfold to_string
  split
  · obtain ⟨d1, d2, -⟩ := natDigits_spec ((-v).toNat + 1) (-v).toNat (Nat.lt_succ_self _)
    cases hq : natDigits 10 ((-v).toNat + 1) (-v).toNat with
    | nil => exact absurd hq d1
    | cons a q =>
      rw [List.getLast?_cons_cons]
      have hl := List.getLast?_eq_getLast (a :: q) (by simp)
      exact ⟨_, hl, d2 _ (by rw [hq]; exact List.getLast_mem _)⟩
  · obtain ⟨d1, d2, -⟩ := natDigits_spec (v.toNat + 1) v.toNat (Nat.lt_succ_self _)
    have hl := List.getLast?_eq_getLast _ d1
    exact ⟨_, hl, d2 _ (List.getLast_mem _)⟩

/-- The loop of a numeric directive on a single operand: one entry is appended. -/
theorem dataLoop_single (lo hi : Int) (f : Int → Int) (size : Nat) (v : Int) (sep : Str)
    (st : SymbolTable) (d : Nat) (hlo : lo ≤ v) (hhi : v ≤ hi)
    (hsep : ∀ c ∈ sep, isSpace c = true) :
    dataLoop lo hi f size ((sep ++ to_string v).length + 1)
        { rest := sep ++ to_string v, failed := false } st d =
      ({ st with dataSegments :=
          pushEntry (ensureSegment st.dataSegments d) { value := f v, size := size } },
       (d + size) % 4294967296) := by
  have hr : readInt lo hi { rest := sep ++ to_string v, failed := false } =
      (some v, { rest := [], failed := false }) := by
    have := readInt_to_string lo hi v sep [] hlo hhi hsep (fun c hc => (by cases hc))
    rw [List.append_nil] at this
    exact this
  obtain ⟨k, hk⟩ : ∃ k, (sep ++ to_string v).length = k + 1 := by
    have hpos : 0 < (to_string v).length := List.length_pos.mpr (to_string_ne_nil v)
    refine ⟨(sep ++ to_string v).length - 1, ?_⟩
    rw [List.length_append]
    omega
  rw [hk]
  have hr2 : readInt lo hi { rest := [], failed := false } =
      (none, { rest := [], failed := true }) := rfl
  simp only [dataLoop, hr, hr2, addDataToCurrentSegment, ensureSegment_idem]

/-- C24 (as amended). The directive `.dword v` keeps the low 32 bits of the
value: for every signed 64-bit integer `v`, the first pass on the line
`.dword v` appends one data entry of size 8 to the open segment (opening one at
the data cursor if there is none) whose value is `(int) v`, the signed 32-bit
integer congruent to `v` modulo `2^32`, and advances the data cursor by 8;
the value is `v` itself exactly when `v` is a signed 32-bit integer. -/
theorem dword_keeps_low_word (v : Int) (sep : Str) (s : ParseState)
    (hv1 : -9223372036854775808 ≤ v) (hv2 : v ≤ 9223372036854775807)
    (hsep : sep ≠ [] ∧ ∀ c ∈ sep, isSpace c = true) :
    parseLine true (".dword".toList ++ sep ++ to_string v) s = .next
      { s with
        symbolTable :=
          { s.symbolTable with
            dataSegments :=
              pushEntry (ensureSegment s.symbolTable.dataSegments s.dataAddress)
                { value := wrapI32 v, size := 8 } }
        dataAddress := (s.dataAddress + 8) % 4294967296 } ∧
    (-2147483648 ≤ wrapI32 v ∧ wrapI32 v ≤ 2147483647 ∧ (v - wrapI32 v) % 4294967296 = 0) ∧
    (wrapI32 v = v ↔ -2147483648 ≤ v ∧ v ≤ 2147483647) := by
  have hw : -2147483648 ≤ wrapI32 v ∧ wrapI32 v ≤ 2147483647 ∧
      (v - wrapI32 v) % 4294967296 = 0 := by
    unfold wrapI32 toI32 toU32
    split <;> omega
  refine ⟨?_, hw, ?_⟩
  · obtain ⟨z, hz, hzd⟩ := to_string_last v
    have hops : ∀ c ∈ sep ++ to_string v, c ≠ '#' ∧ c ≠ ':' := by
      intro c hc
      rw [List.mem_append] at hc
      rcases hc with hc | hc
      · have := isSpace_not_digit c (hsep.2 c hc)
        exact ⟨this.2.1, this.2.2.1⟩
      · rcases to_string_chars v c hc with h | h
        · exact (isDigit_plain c h).2
        · subst h; decide
    have hline : ".dword".toList ++ sep ++ to_string v = ".dword".toList ++ (sep ++ to_string v) :=
      List.append_assoc _ _ _
    rw [hline, parseLine_directive ".dword".toList (sep ++ to_string v) s rfl (by decide) hops
      (head_append_space sep _ hsep.1 hsep.2) (by
        intro c hc
        rw [← List.append_assoc,
          List.getLast?_append_of_ne_nil _ (to_string_ne_nil v), hz] at hc
        cases hc
        exact (isDigit_plain _ hzd).1)]
    have hd : processDirective ".dword".toList { rest := sep ++ to_string v, failed := false }
        s.symbolTable s.dataAddress =
        dataLoop (-9223372036854775808) 9223372036854775807 (fun v => wrapI32 v) 8
          ((sep ++ to_string v).length + 1) { rest := sep ++ to_string v, failed := false }
          s.symbolTable s.dataAddress := by
      unfold processDirective
      rw [if_neg (by decide), if_neg (by decide), if_neg (by decide), if_neg (by decide),
        if_neg (by decide), if_pos rfl]
    rw [hd, dataLoop_single _ _ _ _ v sep _ _ hv1 hv2 hsep.2]
  · constructor
    · intro h
      rw [← h]
      exact ⟨hw.1, hw.2.1⟩
    · intro h
      unfold wrapI32 toI32 toU32
      split <;> omega

/-- Witness of C24: the line `.dword 4294967301` (`2^32 + 5`) at the start of
the first pass appends the entry `{5, 8}` to a new segment at `0x10000000`. -/
theorem dword_keeps_low_word_witness :
    parseLine true ".dword 4294967301".toList (parseStart [] emptySymbolTable) = .next
      { parseStart [] emptySymbolTable with
        symbolTable :=
          { dataSegments :=
              [{ startAddress := 0x10000000, contents := [{ value := 5, size := 8 }] }] }
        dataAddress := 0x10000008 } :=
  (dword_keeps_low_word 4294967301 " ".toList (parseStart [] emptySymbolTable) (by decide)
    (by decide) (by decide)).1

/-- C24 (counterexample). The first pass over the source `.dword 4294967296`
leaves one entry of size 8 whose value is `0`, not `2^32`. -/
theorem dword_literal_truncated :
    (parseFile dwordSource [] emptySymbolTable true).value = some true ∧
    (firstPassSymbols dwordSource).dataSegments =
      [{ startAddress := 0x10000000, contents := [{ value := 0, size := 8 }] }] ∧
    (∀ seg entry, seg ∈ (firstPassSymbols dwordSource).dataSegments → entry ∈ seg.contents →
      entry.value = 0 ∧ entry.value ≠ 4294967296) := by
  have h : (firstPassSymbols dwordSource).dataSegments =
      [{ startAddress := 0x10000000, contents := [{ value := 0, size := 8 }] }] := by rfl
  refine ⟨by decide, h, ?_⟩
  intro seg entry hs he
  rw [h] at hs
  simp only [List.mem_singleton] at hs
  subst hs
  simp only [List.mem_singleton] at he
  subst he
  exact ⟨rfl, by decide⟩

/-! ## The `.asciiz` directive -/

/-- C25 (counterexample). In the source `.asciiz "a#b"` the text from `#` on is
removed as a comment before the directive is processed: the first pass leaves
the three entries `0x22` (the opening quote), `0x61`, `0x00`, not the four
entries `0x61`, `0x23`, `0x62`, `0x00`. In the source `.asciiz "a:b"` the text
before the colon is taken for a label and no entry is appended at all. -/
theorem asciiz_comment_and_colon :
    asciizHashSource = [".asciiz ".toList ++ [quote] ++ "a#b".toList ++ [quote]] ∧
    (parseFile asciizHashSource [] emptySymbolTable true).value = some true ∧
    (firstPassSymbols asciizHashSource).dataSegments =
      [{ startAddress := 0x10000000,
         contents := [{ value := 0x22, size := 1 }, { value := 0x61, size := 1 },
                      { value := 0, size := 1 }] }] ∧
    (allEntries (firstPassSymbols asciizHashSource).dataSegments).length ≠ "a#b".length + 1 ∧
    (parseFile asciizColonSource [] emptySymbolTable true).value = some true ∧
    (firstPassSymbols asciizColonSource).dataSegments = [] ∧
    getAddress (firstPassSymbols asciizColonSource) (".asciiz ".toList ++ [quote, 'a']) = 0 := by
  refine ⟨by rfl, by decide, by rfl, by decide, by decide, by rfl, by decide⟩

theorem pushEntry_ne_nil (segs : List DataSegment) (e : DataEntry) (h : segs ≠ []) :
    pushEntry segs e ≠ [] := by
  rcases List.eq_nil_or_concat segs with hnil | ⟨init, last, hcat⟩
  · exact absurd hnil h
  · rw [List.concat_eq_append] at hcat
    subst hcat
    rw [pushEntry_append]
    simp

theorem ensureSegment_ne_nil (segs : List DataSegment) (d : Nat) : ensureSegment segs d ≠ [] := by
  cases segs with
  | nil => simp [ensureSegment]
  | cons s rest => simp [ensureSegment]

theorem ensureSegment_of_ne_nil (segs : List DataSegment) (d : Nat) (h : segs ≠ []) :
    ensureSegment segs d = segs := by
  cases segs with
  | nil => exact absurd rfl h
  | cons s rest => rfl

theorem foldl_pushEntry_ne_nil (es : List DataEntry) : ∀ segs : List DataSegment, segs ≠ [] →
    es.foldl pushEntry segs ≠ [] := by
  induction es with
  | nil => intro segs h; exact h
  | cons e es ih => intro segs h; exact ih _ (pushEntry_ne_nil segs e h)

/-- Appending an entry to the last segment appends it to the entries. -/
theorem allEntries_pushEntry (segs : List DataSegment) (e : DataEntry) (h : segs ≠ []) :
    allEntries (pushEntry segs e) = allEntries segs ++ [e] := by
  rcases List.eq_nil_or_concat segs with hnil | ⟨init, last, hcat⟩
  · exact absurd hnil h
  · rw [List.concat_eq_append] at hcat
    subst hcat
    rw [pushEntry_append, allEntries_append, allEntries_append, List.append_assoc]

theorem allEntries_ensureSegment (segs : List DataSegment) (d : Nat) :
    allEntries (ensureSegment segs d) = allEntries segs := by
  cases segs with
  | nil => rfl
  | cons s rest => rfl

theorem allEntries_foldl_pushEntry (es : List DataEntry) : ∀ segs : List DataSegment,
    segs ≠ [] → allEntries (es.foldl pushEntry segs) = allEntries segs ++ es := by
  induction es with
  | nil => intro segs _; simp
  | cons e es ih =>
    intro segs h
    simp only [List.foldl_cons]
    rw [ih _ (pushEntry_ne_nil segs e h), allEntries_pushEntry segs e h, List.append_assoc]
    rfl

/-- The loop of `.asciiz` over the characters: one entry of size 1 for each
character is appended, and the cursor advances by 1 for each. -/
theorem asciizLoop_spec (str : Str) : ∀ (st : SymbolTable) (d : Nat),
    (asciizLoop str st d).1.table = st.table ∧
    ensureSegment (asciizLoop str st d).1.dataSegments (asciizLoop str st d).2 =
      (str.map (fun ch => ({ value := charValue ch, size := 1 } : DataEntry))).foldl pushEntry
        (ensureSegment st.dataSegments d) ∧
    ((asciizLoop str st d).2 + 1) % 4294967296 = (d + str.length + 1) % 4294967296 := by
  induction str with
  | nil => intro st d; exact ⟨rfl, rfl, rfl⟩
  | cons ch rest ih =>
    intro st d
    unfold asciizLoop
    simp only
    obtain ⟨i1, i2, i3⟩ := ih (addDataToCurrentSegment
      { st with dataSegments := ensureSegment st.dataSegments d } d (charValue ch) 1).1
      (addDataToCurrentSegment
        { st with dataSegments := ensureSegment st.dataSegments d } d (charValue ch) 1).2
    refine ⟨by rw [i1]; rfl, ?_, ?_⟩
    · rw [i2]
      simp only [addDataToCurrentSegment, ensureSegment_idem, List.map_cons, List.foldl_cons]
      rw [ensureSegment_of_ne_nil _ _ (pushEntry_ne_nil _ _ (ensureSegment_ne_nil _ _))]
    · rw [i3]
      simp only [addDataToCurrentSegment, List.length_cons]
      omega

/-- Trimming removes the blanks in front of a string that neither starts nor
ends with a blank. -/
theorem trimWhitespace_sep (sep x : Str) (hsep : ∀ c ∈ sep, isBlank c = true)
    (hh : ∀ c, x.head? = some c → isBlank c = false)
    (hl : ∀ c, x.getLast? = some c → isBlank c = false) : trimWhitespace (sep ++ x) = x := by
  have h := trimWhitespace_id x hh hl
  unfold trimWhitespace at h ⊢
  rw [dropWhile_append_stop _ _ _ hsep hh]
  rw [dropWhile_id _ _ hh] at h
  exact h

/-- The directive `.asciiz` on the operand `"str"`. -/
theorem processDirective_asciiz (sep str : Str) (st : SymbolTable) (d : Nat)
    (hsep : ∀ c ∈ sep, isBlank c = true)
    (hnl : Char.ofNat 10 ∉ str) (hlen : str.length < 18446744073709551616) :
    processDirective ".asciiz".toList { rest := sep ++ ([quote] ++ str ++ [quote]), failed := false }
        st d =
      ({ st with dataSegments :=
          (asciizEntries str).foldl pushEntry (ensureSegment st.dataSegments d) },
       (d + str.length + 1) % 4294967296) := by
  have hq : isBlank quote = false := by decide
  have hgl : getlineRest { rest := sep ++ ([quote] ++ str ++ [quote]), failed := false } =
      sep ++ ([quote] ++ str ++ [quote]) := by
    unfold getlineRest
    simp only [Bool.false_eq_true, if_false]
    rw [List.takeWhile_eq_self_iff]
    intro c hc
    simp only [List.mem_append, List.mem_singleton] at hc
    have hne : c ≠ Char.ofNat 10 := by
      rcases hc with hc | (hc | hc) | hc
      · have := hsep c hc
        rintro rfl
        revert this
        decide
      · subst hc; decide
      · rintro rfl; exact hnl hc
      · subst hc; decide
    simpa using hne
  have htrim : trimWhitespace (sep ++ ([quote] ++ str ++ [quote])) = [quote] ++ str ++ [quote] := by
    apply trimWhitespace_sep _ _ hsep
    · intro c hc
      simp only [List.singleton_append, List.cons_append, List.head?_cons,
        Option.some.injEq] at hc
      rw [← hc]; exact hq
    · intro c hc
      rw [List.getLast?_append_of_ne_nil _ (by simp)] at hc
      simp only [List.getLast?_singleton, Option.some.injEq] at hc
      rw [← hc]; exact hq
  have hsub : substr ([quote] ++ str ++ [quote]) 1
      ((([quote] ++ str ++ [quote]).length + 18446744073709551616 - 2) %
        18446744073709551616) = str := by
    have hl : (([quote] ++ str ++ [quote]).length + 18446744073709551616 - 2) %
        18446744073709551616 = str.length := by
      simp only [List.length_append, List.length_singleton]
      omega
    rw [hl]
    simp [substr]
  have hcond : ¬ ([quote] ++ str ++ [quote]).isEmpty = true ∧
      ([quote] ++ str ++ [quote]).head? = some (Char.ofNat 34) ∧
      ([quote] ++ str ++ [quote]).getLast? = some (Char.ofNat 34) := by
    refine ⟨by simp, rfl, ?_⟩
    rw [List.getLast?_append_of_ne_nil _ (by simp)]
    rfl
  obtain ⟨l1, l2, l3⟩ := asciizLoop_spec str st d
  unfold processDirective
  rw [if_neg (by decide), if_neg (by decide), if_neg (by decide), if_neg (by decide),
    if_neg (by decide), if_neg (by decide), if_pos rfl]
  simp only [hgl, htrim, if_pos hcond, hsub, addDataToCurrentSegment, ensureSegment_idem, l2, l3]
  rw [l1, ensureSegment_of_ne_nil _ _
    (foldl_pushEntry_ne_nil _ _ (ensureSegment_ne_nil _ _))]
  simp only [asciizEntries, List.foldl_append, List.foldl_cons, List.foldl_nil]

theorem isBlank_isSpace (c : Char) (h : isBlank c = true) :
    isSpace c = true ∧ c ≠ '#' ∧ c ≠ ':' := by
  unfold isBlank at h
  simp only [Bool.or_eq_true, decide_eq_true_eq] at h
  rcases h with h | h <;> subst h <;> decide

/-- C25 (as amended). The directive `.asciiz` stores the string byte by byte
with a terminator: for every string `str` of characters other than `#` and `:`
(and the line end), the first pass on the line `.asciiz "str"` appends exactly
`len(str) + 1` data entries of size 1 to the open segment (opening one at the
data cursor if there is none), whose values are the characters of `str` in
order, as `char` values (the character code for ASCII), followed by `0`, and
advances the data cursor by `len(str) + 1`. -/
theorem asciiz_entries (sep str : Str) (s : ParseState)
    (hsep : sep ≠ [] ∧ ∀ c ∈ sep, isBlank c = true)
    (hstr : ∀ c ∈ str, c ≠ '#' ∧ c ≠ ':' ∧ c ≠ Char.ofNat 10)
    (hlen : str.length < 18446744073709551616) :
    parseLine true (asciizLine sep str) s = .next
      { s with
        symbolTable :=
          { s.symbolTable with
            dataSegments :=
              (asciizEntries str).foldl pushEntry
                (ensureSegment s.symbolTable.dataSegments s.dataAddress) }
        dataAddress := (s.dataAddress + str.length + 1) % 4294967296 } ∧
    allEntries ((asciizEntries str).foldl pushEntry
        (ensureSegment s.symbolTable.dataSegments s.dataAddress)) =
      allEntries s.symbolTable.dataSegments ++ asciizEntries str ∧
    (asciizEntries str).length = str.length + 1 ∧
    (∀ e ∈ asciizEntries str, e.size = 1) ∧
    (asciizEntries str).map (fun e => e.value) = str.map charValue ++ [0] ∧
    (∀ c ∈ str, c.toNat < 128 → charValue c = (c.toNat : Int)) := by
  refine ⟨?_, ?_, ?_, ?_, ?_, ?_⟩
  · have hline : asciizLine sep str = ".asciiz".toList ++ (sep ++ ([quote] ++ str ++ [quote])) := by
      unfold asciizLine
      simp only [List.append_assoc]
    have hops : ∀ c ∈ sep ++ ([quote] ++ str ++ [quote]), c ≠ '#' ∧ c ≠ ':' := by
      intro c hc
      simp only [List.mem_append, List.mem_singleton] at hc
      rcases hc with hc | (hc | hc) | hc
      · exact (isBlank_isSpace c (hsep.2 c hc)).2
      · subst hc; decide
      · exact ⟨(hstr c hc).1, (hstr c hc).2.1⟩
      · subst hc; decide
    rw [hline, parseLine_directive ".asciiz".toList _ s rfl (by decide) hops
      (head_append_space sep _ hsep.1 (fun c hc => (isBlank_isSpace c (hsep.2 c hc)).1)) (by
        intro c hc
        rw [← List.append_assoc, ← List.append_assoc,
          List.getLast?_append_of_ne_nil _ (by simp)] at hc
        simp only [List.getLast?_singleton, Option.some.injEq] at hc
        rw [← hc]; decide)]
    rw [processDirective_asciiz sep str _ _ hsep.2 (fun h => (hstr _ h).2.2 rfl) hlen]
  · rw [allEntries_foldl_pushEntry _ _ (ensureSegment_ne_nil _ _), allEntries_ensureSegment]
  · simp [asciizEntries]
  · intro e he
    simp only [asciizEntries, List.mem_append, List.mem_map, List.mem_singleton] at he
    rcases he with ⟨c, -, rfl⟩ | rfl <;> rfl
  · simp [asciizEntries]
  · intro c _ h
    unfold charValue
    have : c.toNat % 256 = c.toNat := Nat.mod_eq_of_lt (by omega)
    rw [this, if_pos h]

/-- Witness of C25: `.asciiz "Hi"` at the start of the first pass gives the
entries `0x48`, `0x69`, `0x00` in a segment at `0x10000000`, and after the
memory initialisation the word at `0x10000000` is `0x00006948`. -/
theorem asciiz_entries_witness :
    asciizHiSource = [".asciiz ".toList ++ [quote] ++ "Hi".toList ++ [quote]] ∧
    parseLine true (asciizLine " ".toList "Hi".toList) (parseStart [] emptySymbolTable) = .next
      { parseStart [] emptySymbolTable with
        symbolTable :=
          { dataSegments :=
              [{ startAddress := 0x10000000,
                 contents := [{ value := 0x48, size := 1 }, { value := 0x69, size := 1 },
                              { value := 0x00, size := 1 }] }] }
        dataAddress := 0x10000003 } ∧
    (firstPassSymbols asciizHiSource).dataSegments =
      [{ startAddress := 0x10000000,
         contents := [{ value := 0x48, size := 1 }, { value := 0x69, size := 1 },
                      { value := 0x00, size := 1 }] }] ∧
    (∃ c : CPU, initializeMemoryFromDataSegments initialCPU (firstPassSymbols asciizHiSource) =
        some c ∧ memGet c.memory 0x10000000 = 0x00006948 ∧
      byteAt c.memory 0x10000000 = 0x48 ∧ byteAt c.memory 0x10000001 = 0x69 ∧
      byteAt c.memory 0x10000002 = 0x00) ∧
    (∃ c : CPU, initialise initialCPU (firstPassSymbols asciizHiSource) = some c ∧
      memGet c.memory 0x10000000 = 0x00006948) := by
  have hm : ∃ c : CPU, initializeMemoryFromDataSegments initialCPU
      (firstPassSymbols asciizHiSource) = some c ∧ memGet c.memory 0x10000000 = 0x00006948 ∧
      byteAt c.memory 0x10000000 = 0x48 ∧ byteAt c.memory 0x10000001 = 0x69 ∧
      byteAt c.memory 0x10000002 = 0x00 := ⟨_, rfl, by decide, by decide, by decide, by decide⟩
  refine ⟨rfl, (asciiz_entries " ".toList "Hi".toList (parseStart [] emptySymbolTable)
    (by decide) (by decide) (by decide)).1, by rfl, hm, ?_⟩
  obtain ⟨c, hc, hw, -⟩ := hm
  refine ⟨_, initialise_eq _ c _ hc, ?_⟩
  show memGet (zeroStack STACK_END c.memory) 0x10000000 = 0x00006948
  unfold memGet
  rw [zeroStack_STACK_END]
  simp only
  rw [if_neg (by decide)]
  exact hw

end RiscV
